import Mathlib

/-!
Verification development for the event-time windowing and trigger engine of
the beam repository, together with its execution-environment registry.

The repository ships the trigger test-suite (trigger_test.py) and the
environment registry (environments.py).  The trigger engine itself
(GeneralTriggerDriver, the TriggerFn hierarchy, InMemoryUnmergedState and
the window functions) is not part of the source tree, so it is modelled
here from the specification (sections 3, 4 and 6 of spec.md), with every
behavioural choice pinned against the concrete expectations of
trigger_test.py.  The environment registry is embedded directly from
environments.py.

Modelling conventions:
- timestamps are natural numbers; the watermark is a three-valued bound
  (MIN_TIMESTAMP, a concrete stamp, MAX_TIMESTAMP);
- the per-window buffered values are kept as a multiset: the spec fixes
  that only the multiset of pane contents is observable (section 4.3,
  "the driver makes no ordering guarantee across elements within a pane");
- firing is evaluated once per window per bundle, after all elements of
  the bundle have been added, which is the reading of section 4.3 step 1
  forced by the count-trigger scenario of section 8 (early pane {a,b,c,d}
  for AfterCount(3) under bundles of size two) and by
  test_fixed_watermark_with_early_late;
- the only timers are the event-time end-of-window timers of
  watermark-driven triggers; they are armed while the watermark has not
  yet passed the window end, which is the arrangement under which the
  late-data expectations of the test-suite hold.
-/

namespace Beam

/-- Pane timing labels, as in PaneInfoTiming. -/
inductive Timing where
  | early
  | onTime
  | late
deriving DecidableEq, Repr

/-- Modelled from the spec: the watermark is a monotone event-time bound; the
harness drives it with the two sentinels MIN_TIMESTAMP and MAX_TIMESTAMP and
with concrete stamps (timer timestamps). -/
inductive WMark where
  | minTS
  | stamp (t : Nat)
  | maxTS
deriving DecidableEq, Repr

/-- Watermark has reached timestamp t (watermark is at or past t). -/
def wmGe : WMark → Nat → Bool
  | .minTS, _ => false
  | .stamp u, t => t ≤ u
  | .maxTS, _ => true

/-- Watermark is strictly past timestamp t. -/
def wmGt : WMark → Nat → Bool
  | .minTS, _ => false
  | .stamp u, t => t < u
  | .maxTS, _ => true

/-- Half-open event-time interval window [lo, hi), as IntervalWindow. -/
structure Win where
  lo : Nat
  hi : Nat
deriving DecidableEq, Repr

/-- Total order on windows: by start, ties broken by end. -/
def winLe (a b : Win) : Prop := a.lo < b.lo ∨ (a.lo = b.lo ∧ a.hi ≤ b.hi)

instance : DecidableRel winLe := fun a b => by unfold winLe; infer_instance

instance : IsTotal Win winLe := by
  constructor
  intro a b
  unfold winLe
  omega

instance : IsTrans Win winLe := by
  constructor
  intro a b c
  unfold winLe
  omega

instance : IsAntisymm Win winLe := by
  constructor
  intro a b h1 h2
  unfold winLe at h1 h2
  have hlo : a.lo = b.lo := by omega
  have hhi : a.hi = b.hi := by omega
  cases a; cases b; simp_all

/-- Strict version of the window order, as a boolean, for sorted insertion. -/
def winLtB (a b : Win) : Bool := a.lo < b.lo || (a.lo = b.lo && a.hi < b.hi)

/-- Modelled from the spec: the TriggerFn specification tree (section 3).
The variants are the ones exercised by trigger_test.py: DefaultTrigger,
AfterCount, AfterWatermark with optional early and late sub-triggers,
AfterAny, AfterAll, Repeatedly and OrFinally.  The placeholder noneT stands
for an absent optional sub-trigger of AfterWatermark (early=None or
late=None in the Python constructor). -/
inductive Trig where
  | default
  | afterCount (n : Nat)
  | afterWatermark (early late : Trig)
  | afterAny (a b : Trig)
  | afterAll (a b : Trig)
  | repeatedly (c : Trig)
  | orFinally (m u : Trig)
  | noneT
deriving DecidableEq, Repr

/-- Modelled from the spec: the per-window trigger state cell, one node per
trigger-tree node (section 9, arena of trigger-state cells indexed by
structural path). -/
inductive TSt where
  | dflt
  | count (c : Nat) (fin : Bool)
  | wm (onTime : Bool) (e l : TSt)
  | anyS (a b : TSt)
  | allS (a b : TSt)
  | repS (c : TSt)
  | orS (fin : Bool) (m u : TSt)
deriving DecidableEq, Repr

/-- Fresh trigger state for a newly created window. -/
def initSt : Trig → TSt
  | .default => .dflt
  | .afterCount _ => .count 0 false
  | .afterWatermark e l => .wm false (initSt e) (initSt l)
  | .afterAny a b => .anyS (initSt a) (initSt b)
  | .afterAll a b => .allS (initSt a) (initSt b)
  | .repeatedly c => .repS (initSt c)
  | .orFinally m u => .orS false (initSt m) (initSt u)
  | .noneT => .dflt

/-- Whether the trigger arms the end-of-window event-time timer on element
arrival (DefaultTrigger and AfterWatermark do; AfterCount does not;
combinators do when a child does). -/
def needsTimer : Trig → Bool
  | .default => true
  | .afterCount _ => false
  | .afterWatermark _ _ => true
  | .afterAny a b => needsTimer a || needsTimer b
  | .afterAll a b => needsTimer a || needsTimer b
  | .repeatedly c => needsTimer c
  | .orFinally m u => needsTimer m || needsTimer u
  | .noneT => false

/-- Modelled from the spec: on_element (section 4.2).  AfterCount increments
its count; AfterWatermark routes the element to the early sub-trigger before
its on-time firing and to the late sub-trigger afterwards; combinators
forward to their children. -/
def onElem : Trig → TSt → TSt
  | .default, s => s
  | .afterCount _, .count c f => .count (c + 1) f
  | .afterWatermark e l, .wm ot se sl =>
      if ot then .wm ot se (onElem l sl) else .wm ot (onElem e se) sl
  | .afterAny a b, .anyS sa sb => .anyS (onElem a sa) (onElem b sb)
  | .afterAll a b, .allS sa sb => .allS (onElem a sa) (onElem b sb)
  | .repeatedly c, .repS sc => .repS (onElem c sc)
  | .orFinally m u, .orS f sm su => .orS f (onElem m sm) (onElem u su)
  | _, s => s

/-- Modelled from the spec: should_fire (section 4.2), evaluated against the
current watermark and the window end.  DefaultTrigger fires once the
watermark passes the window end; AfterCount(n) once its count reaches n;
AfterWatermark fires at the watermark anchor or per its early sub-trigger
before the anchor, and per its late sub-trigger afterwards; AfterAny is a
disjunction, AfterAll a conjunction of its children; an absent sub-trigger
never fires. -/
def shouldFire : Trig → TSt → WMark → Nat → Bool
  | .default, _, w, hi => wmGe w hi
  | .afterCount n, .count c _, _, _ => n ≤ c
  | .afterWatermark e l, .wm ot se sl, w, hi =>
      if ot then shouldFire l sl w hi else (wmGe w hi || shouldFire e se w hi)
  | .afterAny a b, .anyS sa sb, w, hi => shouldFire a sa w hi || shouldFire b sb w hi
  | .afterAll a b, .allS sa sb, w, hi => shouldFire a sa w hi && shouldFire b sb w hi
  | .repeatedly c, .repS sc, w, hi => shouldFire c sc w hi
  | .orFinally m u, .orS _ sm su, w, hi => shouldFire m sm w hi || shouldFire u su w hi
  | _, _, _, _ => false

/-- Modelled from the spec: on_fire (section 4.2).  A bare AfterCount is
finished after its single firing and its count is cleared; AfterWatermark
records its anchor firing, and re-arms its early and late sub-triggers after
each of their firings (the implicit Repeatedly of section 4.2); Repeatedly
re-arms its child by resetting the child state to fresh after delegating,
matching the pane sequence of test_repeatedly_after_first; AfterAny fires the
children whose should_fire held; AfterAll and OrFinally act per section 4.2. -/
def onFire : Trig → TSt → WMark → Nat → TSt
  | .default, s, _, _ => s
  | .afterCount _, .count _ _, _, _ => .count 0 true
  | .afterWatermark e l, .wm ot se sl, w, hi =>
      if ot then .wm ot se (initSt l)
      else if wmGe w hi then .wm true se sl
      else .wm ot (initSt e) sl
  | .afterAny a b, .anyS sa sb, w, hi =>
      .anyS (if shouldFire a sa w hi then onFire a sa w hi else sa)
            (if shouldFire b sb w hi then onFire b sb w hi else sb)
  | .afterAll a b, .allS sa sb, w, hi => .allS (onFire a sa w hi) (onFire b sb w hi)
  | .repeatedly c, .repS _, _, _ => .repS (initSt c)
  | .orFinally m u, .orS f sm su, w, hi =>
      if shouldFire u su w hi then .orS true sm su else .orS f (onFire m sm w hi) su
  | _, s, _, _ => s

/-- Modelled from the spec: is_finished (section 4.2).  AfterWatermark without
a late sub-trigger is finished after its anchor firing; AfterAny is finished
once a child is, AfterAll once all children are; Repeatedly never finishes. -/
def isFin : Trig → TSt → Bool
  | .default, _ => false
  | .afterCount _, .count _ f => f
  | .afterWatermark _ l, .wm ot _ _ =>
      match l with
      | .noneT => ot
      | _ => false
  | .afterAny a b, .anyS sa sb => isFin a sa || isFin b sb
  | .afterAll a b, .allS sa sb => isFin a sa && isFin b sb
  | .repeatedly _, _ => false
  | .orFinally m _, .orS f sm _ => f || isFin m sm
  | _, _ => false

/-- Modelled from the spec: on_merge (section 4.2) combines the trigger
states of merged windows: counts are summed, boolean progress flags joined,
children merged pointwise. -/
def mergeSt : Trig → TSt → TSt → TSt
  | .default, _, _ => .dflt
  | .afterCount _, .count c1 f1, .count c2 f2 => .count (c1 + c2) (f1 || f2)
  | .afterWatermark e l, .wm o1 e1 l1, .wm o2 e2 l2 =>
      .wm (o1 || o2) (mergeSt e e1 e2) (mergeSt l l1 l2)
  | .afterAny a b, .anyS a1 b1, .anyS a2 b2 => .anyS (mergeSt a a1 a2) (mergeSt b b1 b2)
  | .afterAll a b, .allS a1 b1, .allS a2 b2 => .allS (mergeSt a a1 a2) (mergeSt b b1 b2)
  | .repeatedly c, .repS c1, .repS c2 => .repS (mergeSt c c1 c2)
  | .orFinally m u, .orS f1 m1 u1, .orS f2 m2 u2 =>
      .orS (f1 || f2) (mergeSt m m1 m2) (mergeSt u u1 u2)
  | _, s, _ => s

/-- Modelled from the spec: the window functions used by the trigger tests,
FixedWindows(size) and Sessions(gap) (section 3). -/
inductive WFn where
  | fixedW (size : Nat)
  | sessionsW (gap : Nat)
deriving DecidableEq, Repr

/-- Window assignment (section 4.1): fixed windows bucket the timestamp, a
session element opens the candidate interval [t, t + gap). -/
def assign : WFn → Nat → Win
  | .fixedW sz, t => ⟨t / sz * sz, t / sz * sz + sz⟩
  | .sessionsW g, t => ⟨t, t + g⟩

/-- Whether the window function merges windows (sessions do). -/
def mergeableW : WFn → Bool
  | .fixedW _ => false
  | .sessionsW _ => true

/-- Sweep of a list of windows sorted by start: repeatedly merge an
overlapping adjacent pair, producing the disjoint merged partition
(section 4.1, merge to a fixed point).  The fuel argument only forces
structural recursion; the input length is enough fuel. -/
def sweep : Nat → List Win → List Win
  | _, [] => []
  | _, [w] => [w]
  | 0, l => l
  | fuel + 1, a :: b :: r =>
      if b.lo < a.hi then sweep fuel (⟨a.lo, max a.hi b.hi⟩ :: r)
      else a :: sweep fuel (b :: r)

/-- Modelled from the spec: session merge — sort the candidate windows and
merge transitively overlapping ones until none overlap (section 4.1); the
sort makes the result independent of the input order. -/
def mergeWins (ws : List Win) : List Win :=
  sweep ws.length (List.insertionSort winLe ws)

/-- Span containment of windows. -/
def winInside (w m : Win) : Bool := m.lo ≤ w.lo && w.hi ≤ m.hi

/-- Modelled from the spec: the per-window cell of UnmergedState
(section 4.4): the buffered values, the trigger state, and the pending
end-of-window event-time timer. -/
structure Entry (α : Type) where
  buf : Multiset α
  ts : TSt
  timer : Option Nat

instance {α : Type} [DecidableEq α] : DecidableEq (Entry α) := fun a b =>
  if h : a.buf = b.buf ∧ a.ts = b.ts ∧ a.timer = b.timer then
    isTrue (by obtain ⟨h1, h2, h3⟩ := h; cases a; cases b; simp_all)
  else
    isFalse (fun he => h (by subst he; exact ⟨rfl, rfl, rfl⟩))

/-- The state store: an association list from windows to their cells, kept
sorted by the window order so that the representation is canonical. -/
abbrev St (α : Type) := List (Win × Entry α)

/-- Sorted upsert of a window cell. -/
def upsert {α : Type} (W : Win) (f : Option (Entry α) → Entry α) : St α → St α
  | [] => [(W, f none)]
  | (w, e) :: r =>
      if W = w then (w, f (some e)) :: r
      else if winLtB W w then (W, f none) :: (w, e) :: r
      else (w, e) :: upsert W f r

/-- Cell lookup. -/
def lookupSt {α : Type} (st : St α) (W : Win) : Option (Entry α) :=
  (st.find? (fun p => decide (p.1 = W))).map Prod.snd

/-- Windowing configuration: window function, trigger and accumulation mode
(true = ACCUMULATING, false = DISCARDING). -/
structure Cfg where
  wfn : WFn
  trig : Trig
  accumulate : Bool
deriving DecidableEq, Repr

/-- An emitted pane: its (post-merge) window, its value multiset, and its
timing label. -/
structure Pane (α : Type) where
  win : Win
  vals : Multiset α
  timing : Timing

instance {α : Type} [DecidableEq α] : DecidableEq (Pane α) := fun a b =>
  if h : a.win = b.win ∧ a.vals = b.vals ∧ a.timing = b.timing then
    isTrue (by obtain ⟨h1, h2, h3⟩ := h; cases a; cases b; simp_all)
  else
    isFalse (fun he => h (by subst he; exact ⟨rfl, rfl, rfl⟩))

/-- Pane timing (section 4.3 step 3): EARLY when firing strictly before the
watermark reaches the window end, LATE strictly after, ON_TIME at the end. -/
def timingOf (w : WMark) (hi : Nat) : Timing :=
  if wmGe w hi then (if wmGt w hi then .late else .onTime) else .early

/-- Timer update on element arrival or merge: the end-of-window timer is
armed while the watermark has not yet passed the window end. -/
def timerGate (c : Cfg) (w : WMark) (W : Win) (old : Option Nat) : Option Nat :=
  if needsTimer c.trig && !(wmGe w W.hi) then some W.hi else old

/-- Add one element to its window: create the cell if absent, append the
value, run on_element, arm the timer. -/
def addElem {α : Type} (c : Cfg) (w : WMark) (st : St α) (W : Win) (v : α) : St α :=
  upsert W (fun eo =>
    match eo with
    | none => ⟨{v}, onElem c.trig (initSt c.trig), timerGate c w W none⟩
    | some e => ⟨v ::ₘ e.buf, onElem c.trig e.ts, timerGate c w W e.timer⟩) st

/-- Combine the cells of the windows merged into M: buffers are unioned,
trigger states merged via on_merge, and the merged window keeps an
end-of-window timer when a constituent had one (section 4.4, re-keying). -/
def mergeEntries {α : Type} (c : Cfg) (w : WMark) (M : Win) : List (Entry α) → Option (Entry α)
  | [] => none
  | e0 :: r =>
      let m := r.foldl (fun acc e2 => ⟨acc.buf + e2.buf, mergeSt c.trig acc.ts e2.ts, none⟩)
        (⟨e0.buf, e0.ts, none⟩ : Entry α)
      let hadTimer := (e0 :: r).any (fun e => e.timer.isSome)
      some ⟨m.buf, m.ts, if hadTimer then timerGate c w M none else none⟩

/-- Re-key the state under the merged partition: each merged window receives
the combined cell of the constituent windows it contains; windows without
existing state appear only once an element is added. -/
def remap {α : Type} (c : Cfg) (w : WMark) (st : St α) (part : List Win) : St α :=
  part.filterMap (fun M =>
    (mergeEntries c w M ((st.filter (fun p => winInside p.1 M)).map Prod.snd)).map
      (fun e => (M, e)))

/-- The merged window holding an element assigned at timestamp t. -/
def targetWin (c : Cfg) (part : List Win) (t : Nat) : Win :=
  let w0 := assign c.wfn t
  if mergeableW c.wfn then (part.find? (fun M => winInside w0 M)).getD w0 else w0

/-- Evaluate should_fire for one window and emit its pane when it holds:
the pane carries the buffered values (cleared afterwards under DISCARDING),
and the trigger state advances through on_fire (section 4.3 step 3). -/
def fireWin {α : Type} (c : Cfg) (w : WMark) (acc : St α × List (Pane α)) (W : Win) :
    St α × List (Pane α) :=
  let (st, out) := acc
  match lookupSt st W with
  | none => (st, out)
  | some e =>
      if !(isFin c.trig e.ts) && shouldFire c.trig e.ts w W.hi then
        let pane : Pane α := ⟨W, e.buf, timingOf w W.hi⟩
        let e2 : Entry α := ⟨if c.accumulate then e.buf else 0, onFire c.trig e.ts w W.hi, e.timer⟩
        (upsert W (fun _ => e2) st, out ++ [pane])
      else (st, out)

/-- Modelled from the spec: process_elements (section 4.3 step 1) for one
bundle: merge the known and candidate windows when the window function is
mergeable, re-key the state, add every element of the bundle to its (merged)
window, then evaluate should_fire once for every window the bundle touched,
in window order. -/
def processBundle {α : Type} (c : Cfg) (w : WMark) (st : St α) (bundle : List (Nat × α)) :
    St α × List (Pane α) :=
  let part :=
    if mergeableW c.wfn then
      mergeWins (st.map Prod.fst ++ bundle.map (fun p => assign c.wfn p.1))
    else []
  let st1 := if mergeableW c.wfn then remap c w st part else st
  let st2 := bundle.foldl (fun s p => addElem c w s (targetWin c part p.1) p.2) st1
  let touched := bundle.map (fun p => targetWin c part p.1)
  let fires := (st2.map Prod.fst).filter (fun W => decide (W ∈ touched))
  fires.foldl (fireWin c w) (st2, [])

/-- Modelled from the spec: process_timer (section 4.3 step 2): the caller
has advanced the watermark past the timer timestamp; re-evaluate should_fire
at that point and fire if it holds. -/
def processTimer {α : Type} (c : Cfg) (st : St α) (W : Win) (ts : Nat) :
    St α × List (Pane α) :=
  fireWin c (.stamp ts) (st, []) W

/-- Modelled from the spec: get_and_clear_timers (section 4.4): return and
remove every pending timer at or before the watermark, in window order. -/
def getAndClearTimers {α : Type} (st : St α) (w : WMark) : St α × List (Win × Nat) :=
  let due := st.filterMap (fun p =>
    p.2.timer.bind (fun ts => if wmGe w ts then some (p.1, ts) else none))
  let cleared := st.map (fun p =>
    match p.2.timer with
    | some ts => if wmGe w ts then (p.1, { p.2 with timer := none }) else p
    | none => p)
  (cleared, due)

/-- Process one due timer, appending its output. -/
def timerStep {α : Type} (c : Cfg) (acc : St α × List (Pane α)) (p : Win × Nat) :
    St α × List (Pane α) :=
  let (s2, o2) := processTimer c acc.1 p.1 p.2
  (s2, acc.2 ++ o2)

/-- One drain of the timer queue at MAX_TIMESTAMP: clear all pending timers
and process each. -/
def runTimerPass {α : Type} (c : Cfg) (st : St α) : St α × List (Pane α) :=
  let (st1, due) := getAndClearTimers st .maxTS
  due.foldl (timerStep c) (st1, [])

/-- Whether no timer is pending. -/
def timersEmpty {α : Type} (st : St α) : Bool := st.all (fun p => p.2.timer.isNone)

/-- The while-timers-remain loop of the test harness, fuelled. -/
def runTimerLoop {α : Type} (c : Cfg) : Nat → St α → St α × List (Pane α)
  | 0, st => (st, [])
  | fuel + 1, st =>
      if timersEmpty st then (st, [])
      else
        let (st1, out1) := runTimerPass c st
        let (st2, out2) := runTimerLoop c fuel st1
        (st2, out1 ++ out2)

/-- Process a list of bundles at a fixed watermark, concatenating outputs. -/
def runBundles {α : Type} (c : Cfg) (w : WMark) (st : St α) (bundles : List (List (Nat × α))) :
    St α × List (Pane α) :=
  bundles.foldl (fun acc b =>
    ((processBundle c w acc.1 b).1, acc.2 ++ (processBundle c w acc.1 b).2)) (st, [])

/-- One late bundle at MAX_TIMESTAMP followed by a timer drain, as
run_trigger does for each late bundle. -/
def lateStep {α : Type} (c : Cfg) (acc : St α × List (Pane α)) (b : List (Nat × α)) :
    St α × List (Pane α) :=
  let (sa, oa) := processBundle c .maxTS acc.1 b
  let (sb, ob) := runTimerLoop c (sa.length + 1) sa
  (sb, acc.2 ++ oa ++ ob)

/-- The run_trigger harness of trigger_test.py: process the main bundles at
MIN_TIMESTAMP, drain timers, then process each late bundle at MAX_TIMESTAMP
draining timers after each. -/
def runTrigger {α : Type} (c : Cfg) (bundles late : List (List (Nat × α))) :
    St α × List (Pane α) :=
  let (st1, out1) := runBundles c .minTS [] bundles
  let (st2, out2) := runTimerLoop c (st1.length + 1) st1
  let (st3, out3) := late.foldl (lateStep c) (st2, [])
  (st3, out1 ++ out2 ++ out3)

/-- Chunk a list into bundles of k elements (k = 0: one bundle), with a
structural fuel argument. -/
def chunkF {β : Type} : Nat → Nat → List β → List (List β)
  | _, _, [] => []
  | 0, _, l => [l]
  | fuel + 1, k, x :: xs =>
      if k = 0 then [x :: xs]
      else (x :: xs).take k :: chunkF fuel k ((x :: xs).drop k)

/-- Chunk a list into bundles of k elements (k = 0: one bundle). -/
def chunkList {β : Type} (k : Nat) (l : List β) : List (List β) :=
  chunkF l.length k l

/-- The bundle_data grouping of run_trigger_simple: uniform bundles of size
g, a negative g reversing the element order first. -/
def bundleData {α : Type} (data : List (Nat × α)) (g : Int) : List (List (Nat × α)) :=
  if g < 0 then chunkList g.natAbs data.reverse else chunkList g.toNat data

/-- The run_trigger_simple harness: run the driver over the grouped data and
late data, returning the emitted panes in order. -/
def runSimple {α : Type} (c : Cfg) (data late : List (Nat × α)) (g : Int) : List (Pane α) :=
  (runTrigger c (bundleData data g) (bundleData late g)).2

/-- Same harness, also returning the final state. -/
def runSimpleFull {α : Type} (c : Cfg) (data late : List (Nat × α)) (g : Int) :
    St α × List (Pane α) :=
  runTrigger c (bundleData data g) (bundleData late g)

/-! Wire round trip of the trigger tree (section 6).  The concrete byte
layout is out of scope for the spec ("the concrete byte layout is delegated
to an external serialization collaborator"), so the wire form is modelled
from the spec as a flat, tag-discriminated token stream (section 9: closed,
tag-discriminated variant type; decode dispatches on the tag). -/

/-- Modelled from the spec: deterministic trigger encoding to a flat token
stream, one leading tag per node, children in order. -/
def encT : Trig → List Nat
  | .default => [0]
  | .afterCount n => [1, n]
  | .afterWatermark e l => 2 :: (encT e ++ encT l)
  | .afterAny a b => 3 :: (encT a ++ encT b)
  | .afterAll a b => 4 :: (encT a ++ encT b)
  | .repeatedly c => 5 :: encT c
  | .orFinally m u => 6 :: (encT m ++ encT u)
  | .noneT => [7]

/-- Node count of a trigger tree, a fuel bound for the decoder. -/
def sizeT : Trig → Nat
  | .default => 1
  | .afterCount _ => 1
  | .afterWatermark e l => 1 + sizeT e + sizeT l
  | .afterAny a b => 1 + sizeT a + sizeT b
  | .afterAll a b => 1 + sizeT a + sizeT b
  | .repeatedly c => 1 + sizeT c
  | .orFinally m u => 1 + sizeT m + sizeT u
  | .noneT => 1

/-- Modelled from the spec: the trigger decoder — parse one node off the
token stream, dispatching on the leading tag; unknown tags fail (section 7,
unknown wire-format tags fail fast). -/
def parT : Nat → List Nat → Option (Trig × List Nat)
  | 0, _ => none
  | fuel + 1, l =>
      match l with
      | 0 :: r => some (.default, r)
      | 1 :: n :: r => some (.afterCount n, r)
      | 2 :: r =>
          match parT fuel r with
          | some (e, r1) =>
              match parT fuel r1 with
              | some (lt, r2) => some (.afterWatermark e lt, r2)
              | none => none
          | none => none
      | 3 :: r =>
          match parT fuel r with
          | some (a, r1) =>
              match parT fuel r1 with
              | some (b, r2) => some (.afterAny a b, r2)
              | none => none
          | none => none
      | 4 :: r =>
          match parT fuel r with
          | some (a, r1) =>
              match parT fuel r1 with
              | some (b, r2) => some (.afterAll a b, r2)
              | none => none
          | none => none
      | 5 :: r =>
          match parT fuel r with
          | some (c, r1) => some (.repeatedly c, r1)
          | none => none
      | 6 :: r =>
          match parT fuel r with
          | some (m, r1) =>
              match parT fuel r1 with
              | some (u, r2) => some (.orFinally m u, r2)
              | none => none
          | none => none
      | 7 :: r => some (.noneT, r)
      | _ => none

/-- Decode a complete token stream back to a trigger; trailing tokens are a
decode failure. -/
def decodeT (l : List Nat) : Option Trig :=
  match parT (l.length + 1) l with
  | some (t, []) => some t
  | _ => none

/-! The execution-environment registry, embedded from environments.py. -/

/-- Modelled from the spec: the default docker image supplied by
PortableRunner.default_docker_image when no container image is given (the
runner module is outside the source tree); only its non-emptiness matters. -/
def defaultDockerImage : String := "apache/beam_python_sdk:latest"

/-- The concrete environment variants of environments.py, with the fields
their constructors store.  The Python constructors normalize: a missing or
empty docker image becomes the default image, and a missing process env dict
becomes the empty dict, so those are the value spaces of the fields. -/
inductive Environment where
  | docker (containerImage : String)
  | process (command os arch : String) (env : List (String × String))
  | external (url : String) (params : Option (List (String × String)))
  | embeddedPython
  | embeddedPythonGrpc (numWorkers stateCacheSize : Option Nat)
  | subprocessSDK (commandString : String)
deriving DecidableEq, Repr

/-- The DockerEnvironment constructor: a falsy (empty) container image is
replaced by the default docker image. -/
def mkDockerStr (img : String) : Environment :=
  if img = "" then .docker defaultDockerImage else .docker img

/-- The typed to_runner_api_parameter payloads: the payload proto message per
urn (DockerPayload, ProcessPayload, ExternalPayload), raw bytes, or None. -/
inductive Payload where
  | dockerP (containerImage : String)
  | processP (os arch command : String) (env : List (String × String))
  | externalP (url : String) (params : List (String × String))
  | bytesP (bs : List Nat)
  | noneP
deriving DecidableEq, Repr

/-- The runner-api Environment proto: a urn and a payload. -/
structure EnvProto where
  urn : String
  payload : Payload
deriving DecidableEq, Repr

/-- Urn of DockerEnvironment (common_urns.environments.DOCKER). -/
def dockerUrn : String := "beam:env:docker:v1"

/-- Urn of ProcessEnvironment (common_urns.environments.PROCESS). -/
def processUrn : String := "beam:env:process:v1"

/-- Urn of ExternalEnvironment (common_urns.environments.EXTERNAL). -/
def externalUrn : String := "beam:env:external:v1"

/-- Urn of EmbeddedPythonEnvironment (python_urns.EMBEDDED_PYTHON). -/
def embeddedPythonUrn : String := "beam:env:embedded_python:v1"

/-- Urn of EmbeddedPythonGrpcEnvironment (python_urns.EMBEDDED_PYTHON_GRPC). -/
def embeddedPythonGrpcUrn : String := "beam:env:embedded_python_grpc:v1"

/-- Urn of SubprocessSDKEnvironment (python_urns.SUBPROCESS_SDK). -/
def subprocessSDKUrn : String := "beam:env:harness_subprocess_python:v1"

/-- Little-endian base-10 digits of a natural number, with structural fuel. -/
def natDigitsF : Nat → Nat → List Nat
  | 0, _ => []
  | _, 0 => []
  | fuel + 1, n + 1 => ((n + 1) % 10) :: natDigitsF fuel ((n + 1) / 10)

/-- Little-endian base-10 digits. -/
def natDigits (n : Nat) : List Nat := natDigitsF n n

/-- Value of a little-endian digit list. -/
def ofDigitsLE : List Nat → Nat
  | [] => 0
  | d :: r => d + 10 * ofDigitsLE r

/-- The decimal byte string b of a natural number, as printed by the Python
percent-d format (ASCII digit bytes, most significant first). -/
def natToBytes (n : Nat) : List Nat :=
  if n = 0 then [48] else (natDigits n).reverse.map (fun d => 48 + d)

/-- ASCII digit byte test. -/
def isDigitByte (b : Nat) : Bool := 48 ≤ b && b ≤ 57

/-- Python int() applied to a byte string: digits only, non-empty. -/
def parseNatBytes (bs : List Nat) : Option Nat :=
  if bs.isEmpty then none
  else if bs.all isDigitByte then some (ofDigitsLE (bs.reverse.map (fun b => b - 48)))
  else none

/-- Bytes of a string under the utf-8 codec, modelled at code-point level. -/
def strToBytes (s : String) : List Nat := s.data.map Char.toNat

/-- String decoded from bytes. -/
def strOfBytes (bs : List Nat) : String := ⟨bs.map Char.ofNat⟩

/-- Whether an Except value is the raising branch. -/
def isErrorE {ε β : Type} : Except ε β → Bool
  | .error _ => true
  | .ok _ => false

/-- EmbeddedPythonGrpcEnvironment.to_runner_api_parameter: empty payload when
neither num_workers nor state_cache_size is set, the byte string
num_workers comma state_cache_size when both are, and a ValueError when
exactly one is set. -/
def grpcToParam (nw sc : Option Nat) : Except String (String × Payload) :=
  match nw, sc with
  | none, none => .ok (embeddedPythonGrpcUrn, .bytesP [])
  | some n, some s => .ok (embeddedPythonGrpcUrn, .bytesP (natToBytes n ++ 44 :: natToBytes s))
  | _, _ => .error "Must provide worker num and state cache size."

/-- Environment.to_runner_api_parameter across the variants: urn and typed
payload as produced by each class. -/
def toRunnerApiParameter : Environment → Except String (String × Payload)
  | .docker img => .ok (dockerUrn, .dockerP img)
  | .process cmd os arch env => .ok (processUrn, .processP os arch cmd env)
  | .external url params => .ok (externalUrn, .externalP url (params.getD []))
  | .embeddedPython => .ok (embeddedPythonUrn, .noneP)
  | .embeddedPythonGrpc nw sc => grpcToParam nw sc
  | .subprocessSDK cmd => .ok (subprocessSDKUrn, .bytesP (strToBytes cmd))

/-- Environment.to_runner_api: wrap the typed parameter into the proto. -/
def toRunnerApi (e : Environment) : Except String EnvProto :=
  (toRunnerApiParameter e).map (fun q => ⟨q.1, q.2⟩)

/-- DockerEnvironment.from_runner_api_parameter. -/
def dockerFromPayload : Payload → Option Environment
  | .dockerP img => some (mkDockerStr img)
  | _ => none

/-- ProcessEnvironment.from_runner_api_parameter. -/
def processFromPayload : Payload → Option Environment
  | .processP os arch cmd env => some (.process cmd os arch env)
  | _ => none

/-- ExternalEnvironment.from_runner_api_parameter: an empty params map (the
proto form of an absent dict) decodes to params None. -/
def externalFromPayload : Payload → Option Environment
  | .externalP url params =>
      some (.external url (if params = [] then none else some params))
  | _ => none

/-- EmbeddedPythonEnvironment.from_runner_api_parameter (payload unused). -/
def embeddedFromPayload : Payload → Option Environment
  | _ => some .embeddedPython

/-- EmbeddedPythonGrpcEnvironment.from_runner_api_parameter: an empty payload
decodes to the unconfigured environment; otherwise the payload splits at the
comma byte into the two int() fields, anything else raising. -/
def grpcFromPayload : Payload → Option Environment
  | .bytesP bs =>
      if bs.isEmpty then some (.embeddedPythonGrpc none none)
      else
        let a := bs.takeWhile (fun b => b != 44)
        match bs.dropWhile (fun b => b != 44) with
        | [] => none
        | _ :: b2 =>
            match parseNatBytes a, parseNatBytes b2 with
            | some n, some s => some (.embeddedPythonGrpc (some n) (some s))
            | _, _ => none
  | _ => none

/-- SubprocessSDKEnvironment.from_runner_api_parameter. -/
def subprocessFromPayload : Payload → Option Environment
  | .bytesP bs => some (.subprocessSDK (strOfBytes bs))
  | _ => none

/-- The urn-keyed constructor registry built by Environment.register_urn, in
registration order. -/
def knownUrns : List (String × (Payload → Option Environment)) :=
  [(dockerUrn, dockerFromPayload),
   (processUrn, processFromPayload),
   (externalUrn, externalFromPayload),
   (embeddedPythonUrn, embeddedFromPayload),
   (embeddedPythonGrpcUrn, grpcFromPayload),
   (subprocessSDKUrn, subprocessFromPayload)]

/-- Environment.from_runner_api: look the urn up in the registry and hand the
payload to the registered constructor; decode failures return none (the
raising path, with allow_proto_holders out of scope). -/
def fromRunnerApi (p : EnvProto) : Option Environment :=
  match (knownUrns.find? (fun q => decide (q.1 = p.urn))).map Prod.snd with
  | some ctor => ctor p.payload
  | none => none

/-- The wire round trip of an environment. -/
def roundTripEnv (e : Environment) : Option Environment :=
  match toRunnerApi e with
  | .ok p => fromRunnerApi p
  | .error _ => none

/-- The environment values the Python constructors can produce, under the
both-or-neither configuration of the grpc variant that claim C9 assumes: the
docker image is never empty (the constructor replaces a falsy image by the
default) and external params are either absent or a non-empty dict. -/
def Constructible : Environment → Prop
  | .docker img => img ≠ ""
  | .external _ params => params ≠ some []
  | .embeddedPythonGrpc nw sc => nw.isSome = sc.isSome
  | _ => True

instance : DecidablePred Constructible := fun e => by
  cases e <;> unfold Constructible <;> infer_instance

/-- The triggers whose only firing condition is the watermark passing the
window end: DefaultTrigger and a bare AfterWatermark. -/
def WatermarkOnly (t : Trig) : Prop :=
  t = .default ∨ t = .afterWatermark .noneT .noneT

instance : DecidablePred WatermarkOnly := fun t => by
  unfold WatermarkOnly; infer_instance

/-- The window keys of a state. -/
def keysOf {α : Type} (st : St α) : List Win := st.map Prod.fst

/-- States are kept strictly sorted by window key. -/
def StSorted {α : Type} (st : St α) : Prop :=
  st.Pairwise (fun p q => winLtB p.1 q.1 = true)

/-- Number of elements of a bundle assigned to window W. -/
def assignedCount {α : Type} (c : Cfg) (W : Win) (l : List (Nat × α)) : Nat :=
  l.countP (fun p => decide (assign c.wfn p.1 = W))

/-- The shape of the per-window cell of window W under a bare AfterCount
trigger, after k elements of W have been seen and no firing has happened:
no cell (k = 0) or a cell holding count k, unfinished, with no timer. -/
def countedEntry {α : Type} (W : Win) (st : St α) (k : Nat) : Prop :=
  (lookupSt st W = none ∧ k = 0) ∨
    ∃ buf, lookupSt st W = some ⟨buf, .count k false, none⟩

/-- The multiset union of the values of the panes of a pane list that carry
window W. -/
def sumPanes {α : Type} (out : List (Pane α)) (W : Win) : Multiset α :=
  ((out.filter (fun p => decide (p.win = W))).map Pane.vals).sum

/-- Lift of one state cell from DISCARDING to ACCUMULATING: the buffer
additionally holds everything already emitted for its window. -/
def liftE {α : Type} (out : List (Pane α)) (W : Win) (e : Entry α) : Entry α :=
  { e with buf := e.buf + sumPanes out W }

/-- Pointwise lift of a DISCARDING state to the matching ACCUMULATING
state, given the panes already emitted. -/
def liftSt {α : Type} (out : List (Pane α)) (st : St α) : St α :=
  st.map (fun q => (q.1, liftE out q.1 q.2))

/-- The ACCUMULATING pane matching a DISCARDING pane, given the panes
already emitted before it: the same window and timing, with the values of
the earlier panes of that window joined in. -/
def liftPane {α : Type} (pre : List (Pane α)) (p : Pane α) : Pane α :=
  ⟨p.win, sumPanes pre p.win + p.vals, p.timing⟩

/-- The ACCUMULATING pane list matching a DISCARDING pane list, given the
panes already emitted before it. -/
def accOut {α : Type} (pre : List (Pane α)) : List (Pane α) → List (Pane α)
  | [] => []
  | p :: r => liftPane pre p :: accOut (pre ++ [p]) r

/-- The non-empty prefix sums of a list of value multisets above a base. -/
def scanSums {α : Type} (s : Multiset α) : List (Multiset α) → List (Multiset α)
  | [] => []
  | v :: r => (s + v) :: scanSums (s + v) r

/-- The windowing configurations the bundling-invariance statement ranges
over: every fixed size, and sessions with a positive gap (a zero gap
degenerates every candidate to an empty window, which duplicates state
cells under merging and is bundling-sensitive). -/
def properWFn : WFn → Prop
  | .fixedW _ => True
  | .sessionsW gap => 0 < gap

/-- Z is the canonical transitive merge of the candidate windows X: the
merged windows are pairwise separated proper intervals that cover every
candidate, are spanned by candidates at both endpoints, and have every
interior point strictly straddled by a candidate. -/
def Canon (X Z : List Win) : Prop :=
  List.Pairwise (fun a b => a.hi ≤ b.lo) Z ∧
  (∀ M ∈ Z, M.lo < M.hi) ∧
  (∀ x ∈ X, ∃ M ∈ Z, winInside x M = true) ∧
  (∀ M ∈ Z, (∃ x ∈ X, winInside x M = true ∧ x.lo = M.lo) ∧
    (∃ x ∈ X, winInside x M = true ∧ x.hi = M.hi)) ∧
  (∀ M ∈ Z, ∀ s : Nat, M.lo < s → s < M.hi →
    ∃ x ∈ X, winInside x M = true ∧ x.lo < s ∧ s < x.hi)

/-- The values of the elements whose session candidate window lies inside
the merged window M. -/
def bufIn {α : Type} (gap : Nat) (M : Win) (l : List (Nat × α)) : Multiset α :=
  ((l.filter (fun p => winInside (assign (.sessionsW gap) p.1) M)).map Prod.snd : List α)

/-- The canonical session-windowed state over the processed elements: one
cell per merged window, holding the values of its elements, the fresh
trigger state, and the end-of-window timer. -/
def canonSt {α : Type} (gap : Nat) (t : Trig) (l : List (Nat × α)) : St α :=
  (mergeWins (l.map (fun p => assign (.sessionsW gap) p.1))).map
    (fun M => (M, ⟨bufIn gap M l, initSt t, some M.hi⟩))

/-- The cell a merged window M holds after the elements d have been added
under a watermark-only trigger: no cell while no element of d falls in M,
otherwise the buffered values, the fresh trigger state and the
end-of-window timer. -/
def cellIn {α : Type} (gap : Nat) (t : Trig) (M : Win) (d : List (Nat × α)) :
    Option (Entry α) :=
  if Multiset.card (bufIn gap M d) = 0 then none
  else some ⟨bufIn gap M d, initSt t, some M.hi⟩

/-- All buffered values of a state. -/
def valsOfSt {α : Type} (st : St α) : Multiset α := (st.map (fun q => q.2.buf)).sum

/-- All emitted values of a pane list. -/
def valsOfOut {α : Type} (out : List (Pane α)) : Multiset α := (out.map Pane.vals).sum

/-! Helper lemmas: the trigger wire codec. -/

theorem parT_encT : ∀ (t : Trig) (fuel : Nat) (r : List Nat), sizeT t ≤ fuel →
    parT fuel (encT t ++ r) = some (t, r)
  | .default, fuel, r, h => by
      cases fuel with
      | zero => simp [sizeT] at h
      | succ f => simp [encT, parT]
  | .afterCount n, fuel, r, h => by
      cases fuel with
      | zero => simp [sizeT] at h
      | succ f => simp [encT, parT]
  | .afterWatermark e l, fuel, r, h => by
      cases fuel with
      | zero => simp [sizeT] at h
      | succ f =>
          simp only [sizeT] at h
          simp only [encT, List.cons_append, List.append_assoc, parT]
          rw [parT_encT e f (encT l ++ r) (by omega)]
          dsimp only
          rw [parT_encT l f r (by omega)]
  | .afterAny a b, fuel, r, h => by
      cases fuel with
      | zero => simp [sizeT] at h
      | succ f =>
          simp only [sizeT] at h
          simp only [encT, List.cons_append, List.append_assoc, parT]
          rw [parT_encT a f (encT b ++ r) (by omega)]
          dsimp only
          rw [parT_encT b f r (by omega)]
  | .afterAll a b, fuel, r, h => by
      cases fuel with
      | zero => simp [sizeT] at h
      | succ f =>
          simp only [sizeT] at h
          simp only [encT, List.cons_append, List.append_assoc, parT]
          rw [parT_encT a f (encT b ++ r) (by omega)]
          dsimp only
          rw [parT_encT b f r (by omega)]
  | .repeatedly c, fuel, r, h => by
      cases fuel with
      | zero => simp [sizeT] at h
      | succ f =>
          simp only [sizeT] at h
          simp only [encT, List.cons_append, parT]
          rw [parT_encT c f r (by omega)]
  | .orFinally m u, fuel, r, h => by
      cases fuel with
      | zero => simp [sizeT] at h
      | succ f =>
          simp only [sizeT] at h
          simp only [encT, List.cons_append, List.append_assoc, parT]
          rw [parT_encT m f (encT u ++ r) (by omega)]
          dsimp only
          rw [parT_encT u f r (by omega)]
  | .noneT, fuel, r, h => by
      cases fuel with
      | zero => simp [sizeT] at h
      | succ f => simp [encT, parT]

theorem sizeT_le_encT_length (t : Trig) : sizeT t ≤ (encT t).length := by
  induction t <;> simp_all [sizeT, encT, List.length_append] <;> omega

/-! Helper lemmas: the environment wire codec. -/

theorem natDigitsF_ofDigits : ∀ (fuel n : Nat), n ≤ fuel →
    ofDigitsLE (natDigitsF fuel n) = n
  | 0, n, h => by
      interval_cases n
      simp [natDigitsF, ofDigitsLE]
  | fuel + 1, 0, _ => by simp [natDigitsF, ofDigitsLE]
  | fuel + 1, n + 1, h => by
      have hdiv : (n + 1) / 10 < n + 1 := Nat.div_lt_self (Nat.succ_pos n) (by norm_num)
      simp only [natDigitsF, ofDigitsLE]
      rw [natDigitsF_ofDigits fuel ((n + 1) / 10) (by omega)]
      omega

theorem natDigitsF_lt_ten : ∀ (fuel n d : Nat), d ∈ natDigitsF fuel n → d < 10
  | 0, n, d, h => by simp [natDigitsF] at h
  | fuel + 1, 0, d, h => by simp [natDigitsF] at h
  | fuel + 1, n + 1, d, h => by
      simp only [natDigitsF, List.mem_cons] at h
      rcases h with h | h
      · omega
      · exact natDigitsF_lt_ten fuel ((n + 1) / 10) d h

theorem natToBytes_digits (n : Nat) : ∀ b ∈ natToBytes n, isDigitByte b = true := by
  intro b hb
  unfold natToBytes at hb
  by_cases h0 : n = 0
  · simp [h0] at hb
    simp [hb, isDigitByte]
  · simp only [h0, if_false, List.mem_map, List.mem_reverse] at hb
    obtain ⟨d, hd, rfl⟩ := hb
    have := natDigitsF_lt_ten n n d hd
    simp [isDigitByte]
    omega

theorem natToBytes_ne_nil (n : Nat) : natToBytes n ≠ [] := by
  unfold natToBytes
  by_cases h0 : n = 0
  · simp [h0]
  · simp only [h0, if_false]
    intro hc
    simp only [List.map_eq_nil_iff, List.reverse_eq_nil_iff] at hc
    unfold natDigits at hc
    cases hn : n with
    | zero => exact h0 hn
    | succ m =>
        rw [hn] at hc
        simp [natDigitsF] at hc

theorem parseNatBytes_natToBytes (n : Nat) : parseNatBytes (natToBytes n) = some n := by
  by_cases h0 : n = 0
  · subst h0; decide
  · have hne := natToBytes_ne_nil n
    have hdig := natToBytes_digits n
    unfold parseNatBytes
    rw [if_neg (by simpa [List.isEmpty_iff] using hne), if_pos (by simpa [List.all_eq_true] using hdig)]
    unfold natToBytes
    rw [if_neg h0]
    simp only [List.map_reverse, List.reverse_reverse, List.map_map]
    have hmap : (natDigits n).map ((fun b => b - 48) ∘ (fun d => 48 + d)) =
        (natDigits n).map id := by
      apply List.map_congr_left
      intro d _
      simp
    rw [hmap, List.map_id]
    unfold natDigits
    rw [natDigitsF_ofDigits n n le_rfl]

theorem takeWhile_middle {β : Type} (p : β → Bool) :
    ∀ (A : List β) (x : β) (B : List β), (∀ a ∈ A, p a = true) → p x = false →
      (A ++ x :: B).takeWhile p = A ∧ (A ++ x :: B).dropWhile p = x :: B
  | [], x, B, _, hx => by simp [List.takeWhile_cons, List.dropWhile_cons, hx]
  | a :: A, x, B, hA, hx => by
      have ha : p a = true := hA a (by simp)
      have ih := takeWhile_middle p A x B (fun b hb => hA b (by simp [hb])) hx
      simp [List.takeWhile_cons, List.dropWhile_cons, ha, ih.1, ih.2]

theorem natToBytes_ne_comma (n : Nat) : ∀ b ∈ natToBytes n, (b != 44) = true := by
  intro b hb
  have h := natToBytes_digits n b hb
  simp only [isDigitByte, Bool.and_eq_true, decide_eq_true_eq] at h
  simp only [bne_iff_ne, ne_eq]
  omega

theorem grpcFromPayload_pair (n s : Nat) :
    grpcFromPayload (.bytesP (natToBytes n ++ 44 :: natToBytes s)) =
      some (.embeddedPythonGrpc (some n) (some s)) := by
  have hne : natToBytes n ++ 44 :: natToBytes s ≠ [] := by simp
  obtain ⟨ht, hd⟩ := takeWhile_middle (fun b => b != 44) (natToBytes n) 44 (natToBytes s)
    (natToBytes_ne_comma n) (by simp)
  simp only [grpcFromPayload, List.isEmpty_eq_true, hne, if_false, ht, hd,
    parseNatBytes_natToBytes]

theorem strOfBytes_strToBytes (s : String) : strOfBytes (strToBytes s) = s := by
  unfold strOfBytes strToBytes
  rw [List.map_map]
  have hmap : s.data.map (Char.ofNat ∘ Char.toNat) = s.data.map id :=
    List.map_congr_left (fun c _ => Char.ofNat_toNat c)
  rw [hmap, List.map_id]

theorem fromRunnerApi_docker (pl : Payload) :
    fromRunnerApi ⟨dockerUrn, pl⟩ = dockerFromPayload pl := rfl

theorem fromRunnerApi_process (pl : Payload) :
    fromRunnerApi ⟨processUrn, pl⟩ = processFromPayload pl := rfl

theorem fromRunnerApi_external (pl : Payload) :
    fromRunnerApi ⟨externalUrn, pl⟩ = externalFromPayload pl := rfl

theorem fromRunnerApi_embedded (pl : Payload) :
    fromRunnerApi ⟨embeddedPythonUrn, pl⟩ = embeddedFromPayload pl := rfl

theorem fromRunnerApi_grpc (pl : Payload) :
    fromRunnerApi ⟨embeddedPythonGrpcUrn, pl⟩ = grpcFromPayload pl := rfl

theorem fromRunnerApi_subprocess (pl : Payload) :
    fromRunnerApi ⟨subprocessSDKUrn, pl⟩ = subprocessFromPayload pl := rfl

/-! Helper lemmas: the window order and the sorted state store. -/

theorem winLtB_irrefl (a : Win) : winLtB a a = false := by simp [winLtB]

theorem winLtB_asymm {a b : Win} (h : winLtB a b = true) : winLtB b a = false := by
  simp only [winLtB, Bool.or_eq_true, Bool.and_eq_true, decide_eq_true_eq] at h
  cases hc : winLtB b a
  · rfl
  · simp only [winLtB, Bool.or_eq_true, Bool.and_eq_true, decide_eq_true_eq] at hc
    omega

theorem winLtB_trans {a b c : Win} (h1 : winLtB a b = true) (h2 : winLtB b c = true) :
    winLtB a c = true := by
  simp only [winLtB, Bool.or_eq_true, Bool.and_eq_true, decide_eq_true_eq] at h1 h2 ⊢
  omega

theorem winLtB_iff {a b : Win} :
    winLtB a b = true ↔ (a.lo < b.lo ∨ (a.lo = b.lo ∧ a.hi < b.hi)) := by
  simp [winLtB]

theorem winLtB_total {a b : Win} (hne : a ≠ b) (h : winLtB a b = false) :
    winLtB b a = true := by
  have hfields : ¬(a.lo = b.lo ∧ a.hi = b.hi) := by
    intro hc
    exact hne (by cases a; cases b; simp_all)
  have hab : ¬(a.lo < b.lo ∨ (a.lo = b.lo ∧ a.hi < b.hi)) := by
    rw [← winLtB_iff]
    simp [h]
  rw [winLtB_iff]
  omega

theorem lookupSt_cons_self {α : Type} (w : Win) (e : Entry α) (r : St α) :
    lookupSt ((w, e) :: r) w = some e := by
  simp only [lookupSt]
  rw [List.find?_cons_of_pos _ (by simp)]
  rfl

theorem lookupSt_cons_ne {α : Type} (w : Win) (e : Entry α) (r : St α) (Wq : Win)
    (h : w ≠ Wq) : lookupSt ((w, e) :: r) Wq = lookupSt r Wq := by
  simp only [lookupSt]
  rw [List.find?_cons_of_neg _ (by simp [h])]

theorem lookup_upsert_ne {α : Type} (W Wq : Win) (hne : Wq ≠ W) (f : Option (Entry α) → Entry α) :
    ∀ st : St α, lookupSt (upsert W f st) Wq = lookupSt st Wq
  | [] => by
      simp only [upsert]
      rw [lookupSt_cons_ne _ _ _ _ (Ne.symm hne)]
  | (w, e) :: r => by
      by_cases h1 : W = w
      · subst h1
        simp only [upsert, if_true, eq_self_iff_true]
        rw [lookupSt_cons_ne _ _ _ _ (Ne.symm hne), lookupSt_cons_ne _ _ _ _ (Ne.symm hne)]
      · by_cases h2 : winLtB W w = true
        · simp only [upsert, if_neg h1, if_pos h2]
          rw [lookupSt_cons_ne _ _ _ _ (Ne.symm hne)]
        · simp only [upsert, if_neg h1, if_neg h2]
          by_cases h3 : w = Wq
          · subst h3
            rw [lookupSt_cons_self, lookupSt_cons_self]
          · rw [lookupSt_cons_ne _ _ _ _ h3, lookupSt_cons_ne _ _ _ _ h3,
              lookup_upsert_ne W Wq hne f r]

theorem upsert_upsert_same {α : Type} (W : Win) (f g : Option (Entry α) → Entry α) :
    ∀ st : St α, upsert W f (upsert W g st) = upsert W (fun eo => f (some (g eo))) st
  | [] => by simp [upsert]
  | (w, e) :: r => by
      by_cases h1 : W = w
      · subst h1
        simp [upsert]
      · by_cases h2 : winLtB W w = true
        · simp [upsert, h1, h2]
        · simp only [upsert, if_neg h1, if_neg h2]
          rw [upsert_upsert_same W f g r]

theorem upsert_comm {α : Type} (W1 W2 : Win) (hne : W1 ≠ W2)
    (f g : Option (Entry α) → Entry α) :
    ∀ st : St α, upsert W1 f (upsert W2 g st) = upsert W2 g (upsert W1 f st)
  | [] => by
      rcases hlt : winLtB W1 W2 with _ | _
      · have hlt2 := winLtB_total hne hlt
        simp [upsert, hne, Ne.symm hne, hlt, hlt2, winLtB_asymm hlt2]
      · simp [upsert, hne, Ne.symm hne, hlt, winLtB_asymm hlt]
  | (w, e) :: r => by
      by_cases h2 : W2 = w
      · subst h2
        rcases hlt : winLtB W1 W2 with _ | _
        · simp [upsert, hne, Ne.symm hne, hlt]
        · simp [upsert, hne, Ne.symm hne, hlt, winLtB_asymm hlt]
      · by_cases h1 : W1 = w
        · subst h1
          rcases hlt : winLtB W2 W1 with _ | _
          · simp [upsert, hne, Ne.symm hne, hlt, h2]
          · simp [upsert, hne, Ne.symm hne, hlt, winLtB_asymm hlt, h2]
        · by_cases l2 : winLtB W2 w = true
          · by_cases l1 : winLtB W1 w = true
            · rcases hlt : winLtB W1 W2 with _ | _
              · have hlt2 := winLtB_total hne hlt
                simp [upsert, hne, Ne.symm hne, hlt, hlt2, winLtB_asymm hlt2, l1, l2, h1, h2]
              · simp [upsert, hne, Ne.symm hne, hlt, winLtB_asymm hlt, l1, l2, h1, h2]
            · have hlt : winLtB W1 W2 = false := by
                rcases hc : winLtB W1 W2 with _ | _
                · rfl
                · exact absurd (winLtB_trans hc l2) (by simp [l1])
              simp [upsert, hne, Ne.symm hne, hlt, l1, l2, h1, h2]
          · by_cases l1 : winLtB W1 w = true
            · have hlt : winLtB W2 W1 = false := by
                rcases hc : winLtB W2 W1 with _ | _
                · rfl
                · exact absurd (winLtB_trans hc l1) (by simp [l2])
              simp [upsert, hne, Ne.symm hne, hlt, l1, l2, h1, h2]
            · simp only [upsert, if_neg h1, if_neg h2, if_neg l1, if_neg l2]
              rw [upsert_comm W1 W2 hne f g r]

/-! Helper lemmas: watermark-only triggers fire nothing while the watermark
is at MIN, and their element step is order-insensitive. -/

theorem needsTimer_watermarkOnly {t : Trig} (h : WatermarkOnly t) : needsTimer t = true := by
  rcases h with h | h <;> subst h <;> rfl

theorem onElem_watermarkOnly {t : Trig} (h : WatermarkOnly t) (s : TSt) : onElem t s = s := by
  rcases h with h | h <;> subst h
  · rfl
  · cases s <;> simp [onElem] <;> split <;> rfl

theorem shouldFire_min {t : Trig} (h : WatermarkOnly t) (s : TSt) (hi : Nat) :
    shouldFire t s .minTS hi = false := by
  rcases h with h | h <;> subst h
  · rfl
  · cases s <;> simp [shouldFire, wmGe] <;> split <;> rfl

theorem fireWin_min {α : Type} (c : Cfg) (h : WatermarkOnly c.trig) (st : St α)
    (out : List (Pane α)) (W : Win) : fireWin c .minTS (st, out) W = (st, out) := by
  simp only [fireWin]
  cases hl : lookupSt st W
  · rfl
  · simp [shouldFire_min h]

theorem fireFold_min {α : Type} (c : Cfg) (h : WatermarkOnly c.trig) :
    ∀ (L : List Win) (st : St α) (out : List (Pane α)),
      List.foldl (fireWin c .minTS) (st, out) L = (st, out)
  | [], st, out => rfl
  | W :: L, st, out => by
      rw [List.foldl_cons, fireWin_min c h, fireFold_min c h L st out]

theorem timerGate_min {c : Cfg} (h : WatermarkOnly c.trig) (W : Win) (old : Option Nat) :
    timerGate c .minTS W old = some W.hi := by
  simp [timerGate, needsTimer_watermarkOnly h, wmGe]

theorem processBundle_fixed_min {α : Type} (c : Cfg) (sz : Nat) (hw : c.wfn = .fixedW sz)
    (h : WatermarkOnly c.trig) (st : St α) (b : List (Nat × α)) :
    processBundle c .minTS st b =
      (b.foldl (fun s p => addElem c .minTS s (assign c.wfn p.1) p.2) st, []) := by
  simp only [processBundle, targetWin, hw, mergeableW, Bool.false_eq_true, if_false]
  rw [fireFold_min c h]

theorem runBundles_fixed_min {α : Type} (c : Cfg) (sz : Nat) (hw : c.wfn = .fixedW sz)
    (h : WatermarkOnly c.trig) :
    ∀ (bundles : List (List (Nat × α))) (st : St α),
      runBundles c .minTS st bundles =
        (bundles.flatten.foldl (fun s p => addElem c .minTS s (assign c.wfn p.1) p.2) st, [])
  | [], st => by simp [runBundles]
  | b :: bs, st => by
      have hstep := processBundle_fixed_min c sz hw h st b
      simp only [runBundles, List.foldl_cons] at *
      rw [hstep]
      have ih := runBundles_fixed_min c sz hw h bs
        (b.foldl (fun s p => addElem c .minTS s (assign c.wfn p.1) p.2) st)
      simp only [runBundles] at ih
      simp only [List.nil_append]
      rw [ih, List.flatten_cons, List.foldl_append]

theorem chunkF_flatten {β : Type} : ∀ (fuel k : Nat) (l : List β), l.length ≤ fuel →
    (chunkF fuel k l).flatten = l
  | fuel, k, [], _ => by cases fuel <;> simp [chunkF]
  | 0, k, x :: xs, h => by simp at h
  | fuel + 1, k, x :: xs, h => by
      by_cases hk : k = 0
      · simp [chunkF, hk]
      · simp only [chunkF, hk, if_false, List.flatten_cons]
        rw [chunkF_flatten fuel k ((x :: xs).drop k) (by simp at h ⊢; omega)]
        exact List.take_append_drop k (x :: xs)

theorem chunkList_flatten {β : Type} (k : Nat) (l : List β) : (chunkList k l).flatten = l :=
  chunkF_flatten l.length k l le_rfl

theorem bundleData_flatten {α : Type} (data : List (Nat × α)) (g : Int) :
    (bundleData data g).flatten = if g < 0 then data.reverse else data := by
  unfold bundleData
  split <;> rw [chunkList_flatten]

theorem foldl_pushout {σ β : Type} (f : σ → β → σ)
    (hc : ∀ s a b, f (f s a) b = f (f s b) a) :
    ∀ (l : List β) (s : σ) (x : β), f (List.foldl f s l) x = List.foldl f (f s x) l
  | [], _, _ => rfl
  | y :: l, s, x => by
      rw [List.foldl_cons, List.foldl_cons, foldl_pushout f hc l (f s y) x, hc]

theorem foldl_reverse_comm {σ β : Type} (f : σ → β → σ)
    (hc : ∀ s a b, f (f s a) b = f (f s b) a) :
    ∀ (l : List β) (s : σ), List.foldl f s l.reverse = List.foldl f s l
  | [], _ => rfl
  | x :: l, s => by
      rw [List.reverse_cons, List.foldl_append, foldl_reverse_comm f hc l s, List.foldl_cons,
        List.foldl_nil, List.foldl_cons, foldl_pushout f hc]

theorem addElem_comm {α : Type} (c : Cfg) (h : WatermarkOnly c.trig) (s : St α)
    (p q : Nat × α) :
    addElem c .minTS (addElem c .minTS s (assign c.wfn p.1) p.2) (assign c.wfn q.1) q.2 =
      addElem c .minTS (addElem c .minTS s (assign c.wfn q.1) q.2) (assign c.wfn p.1) p.2 := by
  simp only [addElem, onElem_watermarkOnly h, timerGate_min h]
  by_cases hW : assign c.wfn p.1 = assign c.wfn q.1
  · rw [hW, upsert_upsert_same, upsert_upsert_same]
    congr 1
    funext eo
    cases eo with
    | none =>
        simp only
        congr 1
        exact Multiset.cons_swap q.2 p.2 0
    | some e =>
        simp only
        congr 1
        exact Multiset.cons_swap q.2 p.2 e.buf
  · rw [upsert_comm _ _ (fun hc => hW hc.symm)]

/-! Helper lemmas: sortedness of the state store, keys, and the timer pass
for watermark-only triggers. -/

theorem mem_upsert {α : Type} (W : Win) (f : Option (Entry α) → Entry α) :
    ∀ (st : St α) (q : Win × Entry α), q ∈ upsert W f st →
      q ∈ st ∨ ∃ eo, q = (W, f eo)
  | [], q, hq => by
      simp only [upsert, List.mem_singleton] at hq
      exact Or.inr ⟨none, hq⟩
  | (w, e) :: r, q, hq => by
      by_cases h1 : W = w
      · subst h1
        simp only [upsert, if_true, eq_self_iff_true, List.mem_cons] at hq
        rcases hq with hq | hq
        · exact Or.inr ⟨some e, hq⟩
        · exact Or.inl (List.mem_cons_of_mem _ hq)
      · by_cases h2 : winLtB W w = true
        · simp only [upsert, if_neg h1, if_pos h2, List.mem_cons] at hq
          rcases hq with hq | hq | hq
          · exact Or.inr ⟨none, hq⟩
          · exact Or.inl (by simp [hq])
          · exact Or.inl (List.mem_cons_of_mem _ hq)
        · simp only [upsert, if_neg h1, if_neg h2, List.mem_cons] at hq
          rcases hq with hq | hq
          · exact Or.inl (by simp [hq])
          · rcases mem_upsert W f r q hq with hm | hm
            · exact Or.inl (List.mem_cons_of_mem _ hm)
            · exact Or.inr hm

theorem mem_keys_upsert {α : Type} (W : Win) (f : Option (Entry α) → Entry α) :
    ∀ (st : St α) (Wq : Win), Wq ∈ keysOf (upsert W f st) ↔ Wq = W ∨ Wq ∈ keysOf st
  | [], Wq => by simp [upsert, keysOf]
  | (w, e) :: r, Wq => by
      by_cases h1 : W = w
      · subst h1
        simp only [upsert, if_true, eq_self_iff_true]
        simp only [keysOf, List.map_cons, List.mem_cons]
        constructor
        · rintro (h | h)
          · exact Or.inl h
          · exact Or.inr (Or.inr h)
        · rintro (h | h | h)
          · exact Or.inl h
          · exact Or.inl h
          · exact Or.inr h
      · by_cases h2 : winLtB W w = true
        · simp only [upsert, if_neg h1, if_pos h2]
          simp only [keysOf, List.map_cons, List.mem_cons]
        · simp only [upsert, if_neg h1, if_neg h2]
          simp only [keysOf, List.map_cons, List.mem_cons]
          have ih := mem_keys_upsert W f r Wq
          simp only [keysOf] at ih
          rw [ih]
          tauto

theorem upsert_sorted {α : Type} (W : Win) (f : Option (Entry α) → Entry α) :
    ∀ st : St α, StSorted st → StSorted (upsert W f st)
  | [], _ => by simp [upsert, StSorted]
  | (w, e) :: r, hs => by
      rw [StSorted, List.pairwise_cons] at hs
      obtain ⟨hhead, htail⟩ := hs
      by_cases h1 : W = w
      · subst h1
        simp only [upsert, if_true, eq_self_iff_true]
        rw [StSorted, List.pairwise_cons]
        exact ⟨hhead, htail⟩
      · by_cases h2 : winLtB W w = true
        · simp only [upsert, if_neg h1, if_pos h2]
          rw [StSorted, List.pairwise_cons]
          constructor
          · intro q hq
            rcases List.mem_cons.mp hq with hq | hq
            · simp [hq, h2]
            · exact winLtB_trans h2 (hhead q hq)
          · rw [List.pairwise_cons]
            exact ⟨hhead, htail⟩
        · simp only [upsert, if_neg h1, if_neg h2]
          rw [StSorted, List.pairwise_cons]
          constructor
          · intro q hq
            rcases mem_upsert W f r q hq with hm | ⟨eo, rfl⟩
            · exact hhead q hm
            · show winLtB w W = true
              exact winLtB_total h1 (by simpa using h2)
          · exact upsert_sorted W f r htail

theorem sorted_keys_nodup {α : Type} (st : St α) (hs : StSorted st) : (keysOf st).Nodup := by
  unfold StSorted at hs
  unfold keysOf
  exact List.Pairwise.map Prod.fst
    (fun a b hab he => by rw [he] at hab; simp [winLtB_irrefl] at hab) hs

theorem lookup_none_of_all_gt {α : Type} (x : Win) :
    ∀ st : St α, (∀ q ∈ st, winLtB x q.1 = true) → lookupSt st x = none
  | [], _ => rfl
  | (w, e) :: r, hall => by
      have hx : x ≠ w := by
        intro hc
        have := hall (w, e) (List.mem_cons_self _ _)
        rw [← hc] at this
        simp [winLtB_irrefl] at this
      rw [lookupSt_cons_ne _ _ _ _ (Ne.symm hx)]
      exact lookup_none_of_all_gt x r (fun q hq => hall q (List.mem_cons_of_mem _ hq))

theorem lookup_mem {α : Type} (W : Win) (e : Entry α) :
    ∀ st : St α, lookupSt st W = some e → (W, e) ∈ st
  | [], h => by simp [lookupSt] at h
  | (w, e2) :: r, h => by
      by_cases hw : w = W
      · subst hw
        rw [lookupSt_cons_self] at h
        cases h
        exact List.mem_cons_self _ _
      · rw [lookupSt_cons_ne _ _ _ _ hw] at h
        exact List.mem_cons_of_mem _ (lookup_mem W e r h)

theorem sorted_lookup_mem {α : Type} :
    ∀ (st : St α), StSorted st → ∀ {w : Win} {e : Entry α}, (w, e) ∈ st →
      lookupSt st w = some e
  | [], _, _, _, hm => by simp at hm
  | (w0, e0) :: r, hs, w, e, hm => by
      rw [StSorted, List.pairwise_cons] at hs
      obtain ⟨hhead, htail⟩ := hs
      rcases List.mem_cons.mp hm with hm | hm
      · cases hm
        exact lookupSt_cons_self _ _ _
      · have hne : w0 ≠ w := by
          intro hc
          have := hhead (w, e) hm
          rw [hc] at this
          simp [winLtB_irrefl] at this
        rw [lookupSt_cons_ne _ _ _ _ hne]
        exact sorted_lookup_mem r htail hm

theorem mem_upsert_sorted {α : Type} (W : Win) (f : Option (Entry α) → Entry α) :
    ∀ st : St α, StSorted st → ∀ q ∈ upsert W f st,
      q ∈ st ∨ q = (W, f (lookupSt st W))
  | [], _, q, hq => by
      simp only [upsert, List.mem_singleton] at hq
      exact Or.inr (by simp [hq, lookupSt])
  | (w, e) :: r, hs, q, hq => by
      rw [StSorted, List.pairwise_cons] at hs
      obtain ⟨hhead, htail⟩ := hs
      by_cases h1 : W = w
      · subst h1
        simp only [upsert, if_true, eq_self_iff_true, List.mem_cons] at hq
        rcases hq with hq | hq
        · exact Or.inr (by rw [lookupSt_cons_self]; exact hq)
        · exact Or.inl (List.mem_cons_of_mem _ hq)
      · by_cases h2 : winLtB W w = true
        · simp only [upsert, if_neg h1, if_pos h2, List.mem_cons] at hq
          rcases hq with hq | hq | hq
          · refine Or.inr ?_
            have hnone : lookupSt ((w, e) :: r) W = none := by
              apply lookup_none_of_all_gt
              intro p hp
              rcases List.mem_cons.mp hp with hp | hp
              · rw [hp]
                exact h2
              · exact winLtB_trans h2 (hhead p hp)
            rw [hnone]
            exact hq
          · exact Or.inl (by simp [hq])
          · exact Or.inl (List.mem_cons_of_mem _ hq)
        · simp only [upsert, if_neg h1, if_neg h2, List.mem_cons] at hq
          rcases hq with hq | hq
          · exact Or.inl (by simp [hq])
          · rcases mem_upsert_sorted W f r htail q hq with hm | hm
            · exact Or.inl (List.mem_cons_of_mem _ hm)
            · refine Or.inr ?_
              rw [lookupSt_cons_ne _ _ _ _ (fun hc => h1 hc.symm)]
              exact hm

theorem isFin_init_watermarkOnly {t : Trig} (h : WatermarkOnly t) :
    isFin t (initSt t) = false := by
  rcases h with h | h <;> subst h <;> rfl

theorem shouldFire_stamp_init {t : Trig} (h : WatermarkOnly t) (hi : Nat) :
    shouldFire t (initSt t) (.stamp hi) hi = true := by
  rcases h with h | h <;> subst h <;> simp [shouldFire, initSt, wmGe]

theorem timingOf_stamp (hi : Nat) : timingOf (.stamp hi) hi = .onTime := by
  simp [timingOf, wmGe, wmGt]

theorem addFold_invariant {α : Type} (c : Cfg) (h : WatermarkOnly c.trig) :
    ∀ (l : List (Nat × α)) (st : St α),
      StSorted st → (∀ p ∈ st, p.2.ts = initSt c.trig ∧ p.2.timer = some p.1.hi) →
      StSorted (l.foldl (fun s p => addElem c .minTS s (assign c.wfn p.1) p.2) st) ∧
      (∀ p ∈ l.foldl (fun s p => addElem c .minTS s (assign c.wfn p.1) p.2) st,
        p.2.ts = initSt c.trig ∧ p.2.timer = some p.1.hi)
  | [], st, hs, hI => ⟨hs, hI⟩
  | x :: l, st, hs, hI => by
      rw [List.foldl_cons]
      apply addFold_invariant c h l
      · exact upsert_sorted _ _ _ hs
      · intro p hp
        rcases mem_upsert_sorted _ _ _ hs p hp with hm | rfl
        · exact hI p hm
        · cases hl : lookupSt st (assign c.wfn x.1) with
          | none =>
              exact ⟨by simp [onElem_watermarkOnly h], by simp [timerGate_min h]⟩
          | some e =>
              have he1 : e.ts = initSt c.trig := (hI _ (lookup_mem _ _ _ hl)).1
              exact ⟨by simp [onElem_watermarkOnly h, he1], by simp [timerGate_min h]⟩

theorem filterMap_due_max {α : Type} :
    ∀ st : St α, (∀ p ∈ st, p.2.timer = some p.1.hi) →
      st.filterMap (fun p => p.2.timer.bind
          (fun ts => if wmGe .maxTS ts then some (p.1, ts) else none)) =
        st.map (fun p => (p.1, p.1.hi))
  | [], _ => rfl
  | p :: r, hI => by
      have hp := hI p (List.mem_cons_self _ _)
      have ih := filterMap_due_max r (fun q hq => hI q (List.mem_cons_of_mem _ hq))
      simp only [wmGe, if_true] at ih
      simp [List.filterMap_cons, hp, wmGe, ih]

theorem getAndClear_max {α : Type} (st : St α)
    (hI : ∀ p ∈ st, p.2.timer = some p.1.hi) :
    getAndClearTimers st .maxTS =
      (st.map (fun p => (p.1, { p.2 with timer := none })),
       st.map (fun p => (p.1, p.1.hi))) := by
  simp only [getAndClearTimers]
  rw [Prod.mk.injEq]
  constructor
  · apply List.map_congr_left
    intro p hp
    simp [hI p hp, wmGe]
  · exact filterMap_due_max st hI

theorem lookup_map_clear {α : Type} (W : Win) :
    ∀ st : St α,
      lookupSt (st.map (fun p => (p.1, { p.2 with timer := none }))) W =
        (lookupSt st W).map (fun e => { e with timer := none })
  | [] => rfl
  | (w, e) :: r => by
      by_cases hw : w = W
      · subst hw
        simp only [List.map_cons]
        rw [lookupSt_cons_self, lookupSt_cons_self]
        rfl
      · simp only [List.map_cons]
        rw [lookupSt_cons_ne _ _ _ _ hw, lookupSt_cons_ne _ _ _ _ hw]
        exact lookup_map_clear W r

theorem fireWin_stamp_fires {α : Type} (c : Cfg) (hW : WatermarkOnly c.trig) (S : St α)
    (o : List (Pane α)) (W : Win) (e : Entry α) (hl : lookupSt S W = some e)
    (hts : e.ts = initSt c.trig) :
    fireWin c (.stamp W.hi) (S, o) W =
      (upsert W (fun _ => ⟨if c.accumulate then e.buf else 0,
          onFire c.trig e.ts (.stamp W.hi) W.hi, e.timer⟩) S,
       o ++ [⟨W, e.buf, .onTime⟩]) := by
  simp only [fireWin, hl]
  rw [hts, isFin_init_watermarkOnly hW, shouldFire_stamp_init hW]
  simp [timingOf_stamp, hts]

theorem timerFold_count {α : Type} (c : Cfg) (hW : WatermarkOnly c.trig) (Wq : Win) :
    ∀ (L : List (Win × Nat)) (S : St α) (o : List (Pane α)),
      (∀ q ∈ L, q.2 = q.1.hi ∧ ∃ e, lookupSt S q.1 = some e ∧ e.ts = initSt c.trig) →
      (L.map Prod.fst).Nodup →
      (List.foldl (fun acc q => ((processTimer c acc.1 q.1 q.2).1,
          acc.2 ++ (processTimer c acc.1 q.1 q.2).2)) (S, o) L).2.countP
          (fun p => decide (p.win = Wq) && decide (p.timing = Timing.onTime)) =
        o.countP (fun p => decide (p.win = Wq) && decide (p.timing = Timing.onTime)) +
          (L.map Prod.fst).count Wq
  | [], S, o, _, _ => by simp
  | q0 :: L, S, o, hL, hnd => by
      obtain ⟨hts0, e, hl, hets⟩ := hL q0 (List.mem_cons_self _ _)
      have hfire : processTimer c S q0.1 q0.2 =
          (upsert q0.1 (fun _ => ⟨if c.accumulate then e.buf else 0,
              onFire c.trig e.ts (.stamp q0.1.hi) q0.1.hi, e.timer⟩) S,
           [⟨q0.1, e.buf, .onTime⟩]) := by
        unfold processTimer
        rw [hts0]
        exact fireWin_stamp_fires c hW S [] q0.1 e hl hets
      rw [List.foldl_cons, hfire]
      have hrest : ∀ q ∈ L, q.2 = q.1.hi ∧
          ∃ e2, lookupSt (upsert q0.1 (fun _ => ⟨if c.accumulate then e.buf else 0,
              onFire c.trig e.ts (.stamp q0.1.hi) q0.1.hi, e.timer⟩) S) q.1 = some e2 ∧
            e2.ts = initSt c.trig := by
        intro q hq
        obtain ⟨hq2, e2, hl2, he2⟩ := hL q (List.mem_cons_of_mem _ hq)
        have hne : q.1 ≠ q0.1 := by
          intro hc
          exact (List.nodup_cons.mp (by simpa using hnd)).1
            (hc ▸ List.mem_map_of_mem Prod.fst hq)
        refine ⟨hq2, e2, ?_, he2⟩
        rw [lookup_upsert_ne _ _ hne]
        exact hl2
      have ih := timerFold_count c hW Wq L _ (o ++ [⟨q0.1, e.buf, .onTime⟩]) hrest
        (by simpa using (List.nodup_cons.mp (by simpa using hnd)).2)
      dsimp only at ih ⊢
      rw [ih, List.countP_append]
      simp only [List.map_cons, List.count_cons]
      by_cases hwq : q0.1 = Wq
      · simp [hwq, List.countP_cons]
        omega
      · simp [hwq, List.countP_cons, Ne.symm hwq]

theorem timerFold_state_timers {α : Type} (c : Cfg) :
    ∀ (L : List (Win × Nat)) (S : St α) (o : List (Pane α)),
      (∀ p ∈ S, p.2.timer = none) →
      ∀ p ∈ (List.foldl (fun acc q => ((processTimer c acc.1 q.1 q.2).1,
          acc.2 ++ (processTimer c acc.1 q.1 q.2).2)) (S, o) L).1, p.2.timer = none
  | [], S, o, hS => hS
  | q0 :: L, S, o, hS => by
      rw [List.foldl_cons]
      apply timerFold_state_timers c L _ _
      intro p hp
      dsimp only [processTimer, fireWin] at hp
      rcases hl : lookupSt S q0.1 with _ | e
      · rw [hl] at hp
        exact hS p hp
      · rw [hl] at hp
        dsimp only at hp
        rcases hcond : (!isFin c.trig e.ts && shouldFire c.trig e.ts (.stamp q0.2) q0.1.hi) with _ | _
        · rw [hcond] at hp
          simp only [Bool.false_eq_true, if_false] at hp
          exact hS p hp
        · rw [hcond] at hp
          simp only [if_true] at hp
          rcases mem_upsert _ _ _ p hp with hm | ⟨eo, rfl⟩
          · exact hS p hm
          · exact hS (q0.1, e) (lookup_mem _ _ _ hl)

theorem timerFold_keys {α : Type} (c : Cfg) (Wq : Win) :
    ∀ (L : List (Win × Nat)) (S : St α) (o : List (Pane α)),
      (∀ q ∈ L, q.1 ∈ keysOf S) →
      (Wq ∈ keysOf (List.foldl (fun acc q => ((processTimer c acc.1 q.1 q.2).1,
          acc.2 ++ (processTimer c acc.1 q.1 q.2).2)) (S, o) L).1 ↔ Wq ∈ keysOf S)
  | [], S, o, _ => Iff.rfl
  | q0 :: L, S, o, hL => by
      rw [List.foldl_cons]
      have hq0 := hL q0 (List.mem_cons_self _ _)
      have hkeys : keysOf ((processTimer c S q0.1 q0.2).1) = keysOf S ∨
          ∀ W, W ∈ keysOf ((processTimer c S q0.1 q0.2).1) ↔ W ∈ keysOf S := by
        right
        intro W
        dsimp only [processTimer, fireWin]
        rcases hl : lookupSt S q0.1 with _ | e
        · exact Iff.rfl
        · dsimp only
          rcases hcond : (!isFin c.trig e.ts && shouldFire c.trig e.ts (.stamp q0.2) q0.1.hi)
            with _ | _
          · simp only [Bool.false_eq_true, if_false]
          · simp only [if_true]
            rw [mem_keys_upsert]
            constructor
            · rintro (rfl | hm)
              · exact hq0
              · exact hm
            · exact Or.inr
      rcases hkeys with hkeys | hkeys
      · rw [timerFold_keys c Wq L _ _ (fun q hq => by rw [hkeys]; exact hL q (List.mem_cons_of_mem _ hq)), hkeys]
      · rw [timerFold_keys c Wq L _ _ (fun q hq => (hkeys q.1).mpr (hL q (List.mem_cons_of_mem _ hq))), hkeys Wq]

theorem timersEmpty_iff {α : Type} (st : St α) :
    timersEmpty st = true ↔ ∀ p ∈ st, p.2.timer = none := by
  simp [timersEmpty, List.all_eq_true, Option.isNone_iff_eq_none]

theorem runTimerLoop_empty {α : Type} (c : Cfg) (st : St α) (he : timersEmpty st = true) :
    ∀ fuel, runTimerLoop c fuel st = (st, [])
  | 0 => rfl
  | fuel + 1 => by simp [runTimerLoop, he]

theorem lookup_upsert_self {α : Type} (W : Win) (f : Option (Entry α) → Entry α) :
    ∀ st : St α, StSorted st → lookupSt (upsert W f st) W = some (f (lookupSt st W))
  | [], _ => by simp [upsert, lookupSt]
  | (w, e) :: r, hs => by
      rw [StSorted, List.pairwise_cons] at hs
      obtain ⟨hhead, htail⟩ := hs
      by_cases h1 : W = w
      · subst h1
        simp only [upsert, if_true, eq_self_iff_true]
        rw [lookupSt_cons_self, lookupSt_cons_self]
      · by_cases h2 : winLtB W w = true
        · simp only [upsert, if_neg h1, if_pos h2]
          rw [lookupSt_cons_self]
          have hnone : lookupSt ((w, e) :: r) W = none := by
            apply lookup_none_of_all_gt
            intro q hq
            rcases List.mem_cons.mp hq with rfl | hm
            · exact h2
            · exact winLtB_trans h2 (hhead q hm)
          rw [hnone]
        · simp only [upsert, if_neg h1, if_neg h2]
          rw [lookupSt_cons_ne _ _ _ _ (fun hc => h1 hc.symm),
              lookupSt_cons_ne _ _ _ _ (fun hc => h1 hc.symm)]
          exact lookup_upsert_self W f r htail

/-! Helper lemmas: a bare AfterCount trigger sets no timers and a window
holding fewer than n elements never fires. -/

theorem timerGate_count {c : Cfg} {n : Nat} (htrig : c.trig = .afterCount n) (w : WMark)
    (W : Win) (old : Option Nat) : timerGate c w W old = old := by
  simp [timerGate, htrig, needsTimer]

theorem addFold_count_inv {α : Type} (c : Cfg) {n : Nat} (htrig : c.trig = .afterCount n)
    (W : Win) (w : WMark) :
    ∀ (l : List (Nat × α)) (st : St α) (k : Nat),
      StSorted st → (∀ p ∈ st, p.2.timer = none) → countedEntry W st k →
      StSorted (l.foldl (fun s p => addElem c w s (assign c.wfn p.1) p.2) st) ∧
      (∀ p ∈ l.foldl (fun s p => addElem c w s (assign c.wfn p.1) p.2) st,
        p.2.timer = none) ∧
      countedEntry W (l.foldl (fun s p => addElem c w s (assign c.wfn p.1) p.2) st)
        (k + assignedCount c W l)
  | [], st, k, hs, htm, hce => by
      refine ⟨hs, htm, ?_⟩
      simpa [assignedCount] using hce
  | (t, v) :: l, st, k, hs, htm, hce => by
      rw [List.foldl_cons]
      have hs2 : StSorted (addElem c w st (assign c.wfn t) v) := upsert_sorted _ _ _ hs
      have htm2 : ∀ p ∈ addElem c w st (assign c.wfn t) v, p.2.timer = none := by
        intro p hp
        rcases mem_upsert_sorted _ _ _ hs p hp with hm | rfl
        · exact htm p hm
        · cases hl : lookupSt st (assign c.wfn t) with
          | none => simp [timerGate_count htrig]
          | some e =>
              have := htm _ (lookup_mem _ _ _ hl)
              simp only [timerGate_count htrig]
              exact this
      by_cases hW : assign c.wfn t = W
      · have hce2 : countedEntry W (addElem c w st (assign c.wfn t) v) (k + 1) := by
          unfold countedEntry at hce ⊢
          rw [show addElem c w st (assign c.wfn t) v =
              addElem c w st W v from by rw [hW]]
          rcases hce with ⟨hnone, hk0⟩ | ⟨buf, hsome⟩
          · refine Or.inr ⟨{v}, ?_⟩
            unfold addElem
            rw [lookup_upsert_self _ _ _ hs, hnone, hk0]
            simp [htrig, onElem, initSt, timerGate_count htrig]
          · refine Or.inr ⟨v ::ₘ buf, ?_⟩
            unfold addElem
            rw [lookup_upsert_self _ _ _ hs, hsome]
            simp [htrig, onElem, timerGate_count htrig]
        have := addFold_count_inv c htrig W w l _ (k + 1) hs2 htm2 hce2
        refine ⟨this.1, this.2.1, ?_⟩
        have harith : k + 1 + assignedCount c W l =
            k + assignedCount c W ((t, v) :: l) := by
          simp [assignedCount, List.countP_cons, hW]
          omega
        rw [← harith]
        exact this.2.2
      · have hce2 : countedEntry W (addElem c w st (assign c.wfn t) v) k := by
          unfold countedEntry at hce ⊢
          unfold addElem
          rw [lookup_upsert_ne _ _ (fun hc => hW hc.symm)]
          exact hce
        have := addFold_count_inv c htrig W w l _ k hs2 htm2 hce2
        refine ⟨this.1, this.2.1, ?_⟩
        have harith : k + assignedCount c W l = k + assignedCount c W ((t, v) :: l) := by
          simp [assignedCount, List.countP_cons, hW]
        rw [← harith]
        exact this.2.2

theorem fireFold_count_inv {α : Type} (c : Cfg) {n : Nat} (htrig : c.trig = .afterCount n)
    (W : Win) (w : WMark) {k : Nat} (hk : k < n) :
    ∀ (L : List Win) (st : St α) (out : List (Pane α)),
      StSorted st → (∀ p ∈ st, p.2.timer = none) → countedEntry W st k →
      (∀ p ∈ out, p.win ≠ W) →
      StSorted (List.foldl (fireWin c w) (st, out) L).1 ∧
      (∀ p ∈ (List.foldl (fireWin c w) (st, out) L).1, p.2.timer = none) ∧
      countedEntry W (List.foldl (fireWin c w) (st, out) L).1 k ∧
      (∀ p ∈ (List.foldl (fireWin c w) (st, out) L).2, p.win ≠ W)
  | [], st, out, hs, htm, hce, hout => ⟨hs, htm, hce, hout⟩
  | Wx :: L, st, out, hs, htm, hce, hout => by
      rw [List.foldl_cons]
      have hstep : StSorted (fireWin c w (st, out) Wx).1 ∧
          (∀ p ∈ (fireWin c w (st, out) Wx).1, p.2.timer = none) ∧
          countedEntry W (fireWin c w (st, out) Wx).1 k ∧
          (∀ p ∈ (fireWin c w (st, out) Wx).2, p.win ≠ W) := by
        simp only [fireWin]
        cases hl : lookupSt st Wx with
        | none => exact ⟨hs, htm, hce, hout⟩
        | some e =>
            dsimp only
            by_cases hcond :
                (!isFin c.trig e.ts && shouldFire c.trig e.ts w Wx.hi) = true
            · rw [if_pos hcond]
              have hWx : Wx ≠ W := by
                intro hc
                subst hc
                rcases hce with ⟨hnone, _⟩ | ⟨buf, hsome⟩
                · rw [hnone] at hl
                  cases hl
                · rw [hsome] at hl
                  cases hl
                  rw [htrig] at hcond
                  simp [shouldFire] at hcond
                  omega
              refine ⟨upsert_sorted _ _ _ hs, ?_, ?_, ?_⟩
              · intro p hp
                rcases mem_upsert_sorted _ _ _ hs p hp with hm | rfl
                · exact htm p hm
                · exact htm (Wx, e) (lookup_mem Wx e st hl)
              · unfold countedEntry at hce ⊢
                rw [lookup_upsert_ne _ _ (Ne.symm hWx)]
                exact hce
              · intro p hp
                rcases List.mem_append.mp hp with hm | hm
                · exact hout p hm
                · rw [List.mem_singleton.mp hm]
                  exact hWx
            · rw [if_neg hcond]
              exact ⟨hs, htm, hce, hout⟩
      rcases hfw : fireWin c w (st, out) Wx with ⟨st', out'⟩
      rw [hfw] at hstep
      exact fireFold_count_inv c htrig W w hk L st' out'
        hstep.1 hstep.2.1 hstep.2.2.1 hstep.2.2.2

theorem processBundle_count_inv {α : Type} (c : Cfg) {sz n : Nat}
    (hfix : c.wfn = .fixedW sz) (htrig : c.trig = .afterCount n) (W : Win) (w : WMark)
    (b : List (Nat × α)) (st : St α) (k : Nat)
    (hs : StSorted st) (htm : ∀ p ∈ st, p.2.timer = none)
    (hce : countedEntry W st k) (hb : k + assignedCount c W b < n) :
    StSorted (processBundle c w st b).1 ∧
    (∀ p ∈ (processBundle c w st b).1, p.2.timer = none) ∧
    countedEntry W (processBundle c w st b).1 (k + assignedCount c W b) ∧
    (∀ p ∈ (processBundle c w st b).2, p.win ≠ W) := by
  simp only [processBundle, targetWin, hfix, mergeableW, Bool.false_eq_true, if_false]
  obtain ⟨hs2, htm2, hce2⟩ := addFold_count_inv c htrig W w b st k hs htm hce
  rw [hfix] at hs2 htm2 hce2
  exact fireFold_count_inv c htrig W w hb _ _ [] hs2 htm2 hce2 (by simp)

theorem runBundles_count_inv {α : Type} (c : Cfg) {sz n : Nat}
    (hfix : c.wfn = .fixedW sz) (htrig : c.trig = .afterCount n) (W : Win) (w : WMark) :
    ∀ (bundles : List (List (Nat × α))) (st : St α) (out : List (Pane α)) (k : Nat),
      StSorted st → (∀ p ∈ st, p.2.timer = none) → countedEntry W st k →
      k + assignedCount c W bundles.flatten < n → (∀ p ∈ out, p.win ≠ W) →
      StSorted (bundles.foldl (fun acc b =>
          ((processBundle c w acc.1 b).1, acc.2 ++ (processBundle c w acc.1 b).2))
          (st, out)).1 ∧
      (∀ p ∈ (bundles.foldl (fun acc b =>
          ((processBundle c w acc.1 b).1, acc.2 ++ (processBundle c w acc.1 b).2))
          (st, out)).1, p.2.timer = none) ∧
      countedEntry W (bundles.foldl (fun acc b =>
          ((processBundle c w acc.1 b).1, acc.2 ++ (processBundle c w acc.1 b).2))
          (st, out)).1 (k + assignedCount c W bundles.flatten) ∧
      (∀ p ∈ (bundles.foldl (fun acc b =>
          ((processBundle c w acc.1 b).1, acc.2 ++ (processBundle c w acc.1 b).2))
          (st, out)).2, p.win ≠ W)
  | [], st, out, k, hs, htm, hce, _, hout => by
      refine ⟨hs, htm, ?_, hout⟩
      simpa [assignedCount] using hce
  | b :: bs, st, out, k, hs, htm, hce, hbound, hout => by
      rw [List.foldl_cons]
      have hsplit : assignedCount c W (b :: bs).flatten =
          assignedCount c W b + assignedCount c W bs.flatten := by
        simp [assignedCount, List.flatten_cons, List.countP_append]
      have hb : k + assignedCount c W b < n := by
        rw [hsplit] at hbound
        omega
      obtain ⟨hs2, htm2, hce2, hout2⟩ :=
        processBundle_count_inv c hfix htrig W w b st k hs htm hce hb
      have ih := runBundles_count_inv c hfix htrig W w bs (processBundle c w st b).1
        (out ++ (processBundle c w st b).2) (k + assignedCount c W b) hs2 htm2 hce2
        (by rw [hsplit] at hbound; omega)
        (by
          intro p hp
          rcases List.mem_append.mp hp with hm | hm
          · exact hout p hm
          · exact hout2 p hm)
      refine ⟨ih.1, ih.2.1, ?_, ih.2.2.2⟩
      have : k + assignedCount c W b + assignedCount c W bs.flatten =
          k + assignedCount c W (b :: bs).flatten := by
        rw [hsplit]
        omega
      rw [← this]
      exact ih.2.2.1

theorem lateFold_count_inv {α : Type} (c : Cfg) {sz n : Nat}
    (hfix : c.wfn = .fixedW sz) (htrig : c.trig = .afterCount n) (W : Win) :
    ∀ (lb : List (List (Nat × α))) (st : St α) (out : List (Pane α)) (k : Nat),
      StSorted st → (∀ p ∈ st, p.2.timer = none) → countedEntry W st k →
      k + assignedCount c W lb.flatten < n → (∀ p ∈ out, p.win ≠ W) →
      StSorted (lb.foldl (lateStep c) (st, out)).1 ∧
      (∀ p ∈ (lb.foldl (lateStep c) (st, out)).1, p.2.timer = none) ∧
      countedEntry W (lb.foldl (lateStep c) (st, out)).1 (k + assignedCount c W lb.flatten) ∧
      (∀ p ∈ (lb.foldl (lateStep c) (st, out)).2, p.win ≠ W)
  | [], st, out, k, hs, htm, hce, _, hout => by
      refine ⟨hs, htm, ?_, hout⟩
      simpa [assignedCount] using hce
  | b :: bs, st, out, k, hs, htm, hce, hbound, hout => by
      rw [List.foldl_cons]
      have hsplit : assignedCount c W ((b :: bs).flatten) =
          assignedCount c W b + assignedCount c W bs.flatten := by
        simp [assignedCount, List.flatten_cons, List.countP_append]
      have hb : k + assignedCount c W b < n := by
        rw [hsplit] at hbound
        omega
      obtain ⟨hs2, htm2, hce2, hout2⟩ :=
        processBundle_count_inv c hfix htrig W .maxTS b st k hs htm hce hb
      rcases hPB : processBundle c .maxTS st b with ⟨sa, oa⟩
      rw [hPB] at hs2 htm2 hce2 hout2
      dsimp only at hs2 htm2 hce2 hout2
      have hTE : timersEmpty sa = true := (timersEmpty_iff _).mpr htm2
      have hloop := runTimerLoop_empty c sa hTE (sa.length + 1)
      have hstep : lateStep c (st, out) b = (sa, out ++ oa) := by
        simp only [lateStep]
        rw [hPB]
        dsimp only
        rw [hloop]
        simp
      rw [hstep]
      have ih := lateFold_count_inv c hfix htrig W bs sa (out ++ oa)
        (k + assignedCount c W b) hs2 htm2 hce2
        (by rw [hsplit] at hbound; omega)
        (by
          intro p hp
          rcases List.mem_append.mp hp with hm | hm
          · exact hout p hm
          · exact hout2 p hm)
      refine ⟨ih.1, ih.2.1, ?_, ih.2.2.2⟩
      have harith : k + assignedCount c W b + assignedCount c W bs.flatten =
          k + assignedCount c W ((b :: bs).flatten) := by
        rw [hsplit]
        omega
      rw [← harith]
      exact ih.2.2.1

/-! Helper lemmas: the DISCARDING to ACCUMULATING correspondence over fixed
windows, and conservation of values under DISCARDING. -/

theorem sumPanes_nil {α : Type} (W : Win) : sumPanes ([] : List (Pane α)) W = 0 := rfl

theorem sumPanes_append {α : Type} (l1 l2 : List (Pane α)) (W : Win) :
    sumPanes (l1 ++ l2) W = sumPanes l1 W + sumPanes l2 W := by
  simp [sumPanes, List.filter_append]

theorem sumPanes_single {α : Type} (p : Pane α) (W : Win) :
    sumPanes [p] W = if p.win = W then p.vals else 0 := by
  by_cases h : p.win = W <;> simp [sumPanes, h]

theorem sumPanes_eq_zero {α : Type} (out : List (Pane α)) (W : Win)
    (h : ∀ p ∈ out, p.win ≠ W) : sumPanes out W = 0 := by
  unfold sumPanes
  have : out.filter (fun p => decide (p.win = W)) = [] := by
    rw [List.filter_eq_nil]
    intro p hp
    simp [h p hp]
  rw [this]
  rfl

theorem accOut_append {α : Type} :
    ∀ (l1 l2 pre : List (Pane α)),
      accOut pre (l1 ++ l2) = accOut pre l1 ++ accOut (pre ++ l1) l2
  | [], l2, pre => by simp [accOut]
  | p :: r, l2, pre => by
      simp only [List.cons_append, accOut]
      rw [show r.append l2 = r ++ l2 from rfl, accOut_append r l2 (pre ++ [p])]
      simp [List.append_assoc]

theorem accOut_pattern {α : Type} :
    ∀ (l pre : List (Pane α)),
      (accOut pre l).map (fun p => (p.win, p.timing)) = l.map (fun p => (p.win, p.timing))
  | [], _ => rfl
  | p :: r, pre => by
      simp only [accOut, List.map_cons, liftPane]
      rw [accOut_pattern r (pre ++ [p])]

theorem accOut_filter_vals {α : Type} (W : Win) :
    ∀ (l pre : List (Pane α)),
      ((accOut pre l).filter (fun p => decide (p.win = W))).map Pane.vals =
        scanSums (sumPanes pre W) ((l.filter (fun p => decide (p.win = W))).map Pane.vals)
  | [], _ => rfl
  | p :: r, pre => by
      by_cases h : p.win = W
      · simp only [accOut, List.filter_cons]
        rw [if_pos (by simp [liftPane, h]), if_pos (by simp [h])]
        simp only [List.map_cons, scanSums, liftPane]
        rw [accOut_filter_vals W r (pre ++ [p]), sumPanes_append, sumPanes_single,
          if_pos h, h]
      · simp only [accOut, List.filter_cons]
        rw [if_neg (by simp [liftPane, h]), if_neg (by simp [h])]
        rw [accOut_filter_vals W r (pre ++ [p]), sumPanes_append, sumPanes_single,
          if_neg h, add_zero]

theorem liftSt_cons {α : Type} (out : List (Pane α)) (q : Win × Entry α) (r : St α) :
    liftSt out (q :: r) = (q.1, liftE out q.1 q.2) :: liftSt out r := rfl

theorem liftE_timer {α : Type} (out : List (Pane α)) (W : Win) (e : Entry α) :
    (liftE out W e).timer = e.timer := rfl

theorem keysOf_map_snd {α : Type} (h : Win × Entry α → Entry α) (st : St α) :
    keysOf (st.map (fun q => (q.1, h q))) = keysOf st := by
  unfold keysOf
  rw [List.map_map]
  exact List.map_congr_left (fun q _ => rfl)

theorem StSorted_map_snd {α : Type} (h : Win × Entry α → Entry α) (st : St α)
    (hs : StSorted st) : StSorted (st.map (fun q => (q.1, h q))) := by
  unfold StSorted at *
  exact List.Pairwise.map _ (fun a b hab => hab) hs

theorem liftSt_keys {α : Type} (out : List (Pane α)) (st : St α) :
    keysOf (liftSt out st) = keysOf st :=
  keysOf_map_snd _ st

theorem liftSt_sorted {α : Type} (out : List (Pane α)) (st : St α) (hs : StSorted st) :
    StSorted (liftSt out st) :=
  StSorted_map_snd _ st hs

theorem liftSt_mapfst {α : Type} (out : List (Pane α)) (st : St α) :
    (liftSt out st).map Prod.fst = st.map Prod.fst :=
  liftSt_keys out st

theorem liftSt_length {α : Type} (out : List (Pane α)) (st : St α) :
    (liftSt out st).length = st.length :=
  List.length_map _ _

theorem timersEmpty_liftSt {α : Type} (out : List (Pane α)) (st : St α) :
    timersEmpty (liftSt out st) = timersEmpty st := by
  unfold timersEmpty liftSt
  rw [List.all_map]
  rfl

theorem lookup_liftSt {α : Type} (out : List (Pane α)) (W : Win) :
    ∀ st : St α, lookupSt (liftSt out st) W = (lookupSt st W).map (liftE out W)
  | [] => rfl
  | (w, e) :: r => by
      by_cases h : w = W
      · subst h
        rw [liftSt_cons]
        rw [lookupSt_cons_self, lookupSt_cons_self]
        rfl
      · rw [liftSt_cons]
        rw [lookupSt_cons_ne _ _ _ _ h, lookupSt_cons_ne _ _ _ _ h]
        exact lookup_liftSt out W r

theorem getAndClear_lift {α : Type} (out : List (Pane α)) (w : WMark) :
    ∀ st : St α, getAndClearTimers (liftSt out st) w =
      (liftSt out (getAndClearTimers st w).1, (getAndClearTimers st w).2)
  | [] => rfl
  | (w0, e0) :: r => by
      have ih := getAndClear_lift out w r
      simp only [getAndClearTimers, Prod.mk.injEq] at ih
      obtain ⟨ih1, ih2⟩ := ih
      rw [liftSt_cons]
      simp only [getAndClearTimers, List.map_cons, List.filterMap_cons, Prod.mk.injEq,
        liftE_timer]
      cases ht : e0.timer with
      | none =>
          simp only [ht, Option.none_bind]
          exact ⟨by rw [liftSt_cons]; exact List.cons_eq_cons.mpr ⟨rfl, ih1⟩, ih2⟩
      | some ts =>
          by_cases hts : wmGe w ts
          · simp only [ht, Option.some_bind, if_pos hts]
            refine ⟨?_, List.cons_eq_cons.mpr ⟨rfl, ih2⟩⟩
            rw [liftSt_cons]
            refine List.cons_eq_cons.mpr ⟨?_, ih1⟩
            simp [liftE]
          · simp only [ht, Option.some_bind, if_neg hts]
            exact ⟨by rw [liftSt_cons]; exact List.cons_eq_cons.mpr ⟨rfl, ih1⟩, ih2⟩

theorem keysOf_cons {α : Type} (q : Win × Entry α) (r : St α) :
    keysOf (q :: r) = q.1 :: keysOf r := rfl

theorem liftSt_upsert_const {α : Type} (out : List (Pane α)) (W : Win) (y : Entry α) :
    ∀ st : St α, liftSt out (upsert W (fun _ => y) st) =
      upsert W (fun _ => liftE out W y) (liftSt out st)
  | [] => rfl
  | (w, e) :: r => by
      by_cases h1 : W = w
      · subst h1
        simp [upsert, liftSt_cons, liftSt]
      · by_cases h2 : winLtB W w = true
        · rw [liftSt_cons]
          simp only [upsert, if_neg h1, if_pos h2]
          rw [liftSt_cons, liftSt_cons]
        · rw [liftSt_cons]
          simp only [upsert, if_neg h1, if_neg h2]
          rw [liftSt_cons]
          exact List.cons_eq_cons.mpr ⟨rfl, liftSt_upsert_const out W y r⟩

theorem upsert_const_congr_off {α : Type} (W : Win) (y : Entry α)
    (f g : Win → Entry α → Entry α) (hfg : ∀ w e, w ≠ W → f w e = g w e) :
    ∀ st : St α, StSorted st →
      upsert W (fun _ => y) (st.map (fun q => (q.1, f q.1 q.2))) =
        upsert W (fun _ => y) (st.map (fun q => (q.1, g q.1 q.2)))
  | [], _ => rfl
  | (w, e) :: r, hs => by
      rw [StSorted, List.pairwise_cons] at hs
      obtain ⟨hhead, htail⟩ := hs
      simp only [List.map_cons]
      by_cases h1 : W = w
      · subst h1
        simp only [upsert, if_pos rfl]
        refine List.cons_eq_cons.mpr ⟨rfl, ?_⟩
        apply List.map_congr_left
        intro q hq
        have hq1 : q.1 ≠ W := by
          intro hc
          have h3 := hhead q hq
          rw [hc] at h3
          simp [winLtB_irrefl] at h3
        rw [hfg q.1 q.2 hq1]
      · have hw : w ≠ W := fun hc => h1 hc.symm
        by_cases h2 : winLtB W w = true
        · simp only [upsert, if_neg h1, if_pos h2]
          refine List.cons_eq_cons.mpr ⟨rfl, ?_⟩
          rw [hfg w e hw]
          refine List.cons_eq_cons.mpr ⟨rfl, ?_⟩
          apply List.map_congr_left
          intro q hq
          have hq1 : q.1 ≠ W := by
            intro hc
            have h3 := winLtB_trans h2 (hhead q hq)
            rw [hc] at h3
            simp [winLtB_irrefl] at h3
          rw [hfg q.1 q.2 hq1]
        · simp only [upsert, if_neg h1, if_neg h2]
          rw [hfg w e hw]
          exact List.cons_eq_cons.mpr ⟨rfl, upsert_const_congr_off W y f g hfg r htail⟩

theorem addElem_lift {α : Type} (c : Cfg) (w : WMark) (G : List (Pane α)) (W : Win) (v : α) :
    ∀ st : St α, StSorted st → (W ∈ keysOf st ∨ sumPanes G W = 0) →
      addElem c w (liftSt G st) W v = liftSt G (addElem c w st W v)
  | [], _, hmiss => by
      have hS : sumPanes G W = 0 := by
        rcases hmiss with h | h
        · simp [keysOf] at h
        · exact h
      simp only [addElem, liftSt, List.map_nil, upsert, List.map_cons]
      simp [liftE, hS]
  | (w0, e0) :: r, hs, hmiss => by
      rw [StSorted, List.pairwise_cons] at hs
      obtain ⟨hhead, htail⟩ := hs
      by_cases h1 : W = w0
      · subst h1
        rw [show liftSt G ((W, e0) :: r) = (W, liftE G W e0) :: liftSt G r from rfl]
        simp only [addElem, upsert, eq_self_iff_true, if_true]
        rw [liftSt_cons]
        refine List.cons_eq_cons.mpr ⟨?_, rfl⟩
        dsimp only
        simp [liftE, Multiset.cons_add]
      · by_cases h2 : winLtB W w0 = true
        · have hS : sumPanes G W = 0 := by
            rcases hmiss with h | h
            · exfalso
              rw [keysOf_cons] at h
              rcases List.mem_cons.mp h with h | h
              · exact h1 h
              · obtain ⟨q, hq, hq1⟩ := List.mem_map.mp h
                have h3 := winLtB_trans h2 (hhead q hq)
                rw [← hq1] at h3
                simp [winLtB_irrefl] at h3
            · exact h
          rw [liftSt_cons]
          simp only [addElem, upsert, if_neg h1, if_pos h2]
          rw [liftSt_cons, liftSt_cons]
          refine List.cons_eq_cons.mpr ⟨?_, rfl⟩
          simp [liftE, hS]
        · rw [liftSt_cons]
          simp only [addElem, upsert, if_neg h1, if_neg h2]
          rw [liftSt_cons]
          refine List.cons_eq_cons.mpr ⟨rfl, ?_⟩
          have hmiss2 : W ∈ keysOf r ∨ sumPanes G W = 0 := by
            rcases hmiss with h | h
            · rw [keysOf_cons] at h
              rcases List.mem_cons.mp h with h | h
              · exact absurd h h1
              · exact Or.inl h
            · exact Or.inr h
          exact addElem_lift c w G W v r htail hmiss2

theorem liftE_ts {α : Type} (out : List (Pane α)) (W : Win) (e : Entry α) :
    (liftE out W e).ts = e.ts := rfl

theorem liftE_buf {α : Type} (out : List (Pane α)) (W : Win) (e : Entry α) :
    (liftE out W e).buf = e.buf + sumPanes out W := rfl

theorem accOut_single {α : Type} (pre : List (Pane α)) (p : Pane α) :
    accOut pre [p] = [liftPane pre p] := rfl

theorem fireWin_lift {α : Type} (f : WFn) (t : Trig) (w : WMark) (W' : Win)
    (G : List (Pane α)) (SD : St α) (OD : List (Pane α))
    (hs : StSorted SD) (hk : ∀ p ∈ G ++ OD, p.win ∈ keysOf SD) :
    fireWin ⟨f, t, true⟩ w (liftSt (G ++ OD) SD, accOut G OD) W' =
      (liftSt (G ++ (fireWin ⟨f, t, false⟩ w (SD, OD) W').2)
          (fireWin ⟨f, t, false⟩ w (SD, OD) W').1,
        accOut G (fireWin ⟨f, t, false⟩ w (SD, OD) W').2) ∧
      StSorted (fireWin ⟨f, t, false⟩ w (SD, OD) W').1 ∧
      (∀ p ∈ G ++ (fireWin ⟨f, t, false⟩ w (SD, OD) W').2,
        p.win ∈ keysOf (fireWin ⟨f, t, false⟩ w (SD, OD) W').1) := by
  simp only [fireWin]
  rw [lookup_liftSt]
  cases hl : lookupSt SD W' with
  | none =>
      dsimp only
      exact ⟨rfl, hs, hk⟩
  | some e =>
      rw [show Option.map (liftE (G ++ OD) W') (some e) =
        some (liftE (G ++ OD) W' e) from rfl]
      dsimp only
      simp only [liftE_ts, liftE_buf, liftE_timer]
      by_cases hcond : (!(isFin t e.ts) && shouldFire t e.ts w W'.hi) = true
      · simp only [hcond, if_true, eq_self_iff_true, Bool.true_eq_false, if_false,
          Bool.false_eq_true]
        refine ⟨?_, upsert_sorted _ _ _ hs, ?_⟩
        · rw [Prod.mk.injEq]
          constructor
          · rw [liftSt_upsert_const]
            have hy : liftE (G ++ (OD ++ [⟨W', e.buf, timingOf w W'.hi⟩])) W'
                (⟨0, onFire t e.ts w W'.hi, e.timer⟩ : Entry α) =
                ⟨e.buf + sumPanes (G ++ OD) W', onFire t e.ts w W'.hi, e.timer⟩ := by
              simp [liftE, sumPanes_append, sumPanes_single, add_comm, add_left_comm,
                add_assoc]
            rw [hy]
            have hbase := upsert_const_congr_off W'
              (⟨e.buf + sumPanes (G ++ OD) W', onFire t e.ts w W'.hi, e.timer⟩ : Entry α)
              (fun w2 e2 => liftE (G ++ OD) w2 e2)
              (fun w2 e2 => liftE (G ++ (OD ++ [⟨W', e.buf, timingOf w W'.hi⟩])) w2 e2)
              (fun w2 e2 hne => by
                have hcf : (W' = w2) = False := eq_false (fun hc => hne hc.symm)
                simp [liftE, sumPanes_append, sumPanes_single, hcf])
              SD hs
            exact hbase
          · rw [accOut_append, accOut_single]
            rw [show liftPane (G ++ OD) (⟨W', e.buf, timingOf w W'.hi⟩ : Pane α) =
              ⟨W', sumPanes (G ++ OD) W' + e.buf, timingOf w W'.hi⟩ from rfl]
            rw [add_comm]
        · intro p hp
          rw [mem_keys_upsert]
          rcases List.mem_append.mp hp with h | h
          · exact Or.inr (hk p (List.mem_append.mpr (Or.inl h)))
          · rcases List.mem_append.mp h with h2 | h2
            · exact Or.inr (hk p (List.mem_append.mpr (Or.inr h2)))
            · rw [List.mem_singleton.mp h2]
              exact Or.inl rfl
      · simp only [hcond, Bool.false_eq_true, if_false]
        exact ⟨trivial, hs, hk⟩

theorem fireFold_lift {α : Type} (f : WFn) (t : Trig) (w : WMark) :
    ∀ (L : List Win) (G : List (Pane α)) (SD : St α) (OD : List (Pane α)),
      StSorted SD → (∀ p ∈ G ++ OD, p.win ∈ keysOf SD) →
      List.foldl (fireWin ⟨f, t, true⟩ w) (liftSt (G ++ OD) SD, accOut G OD) L =
        (liftSt (G ++ (List.foldl (fireWin ⟨f, t, false⟩ w) (SD, OD) L).2)
            (List.foldl (fireWin ⟨f, t, false⟩ w) (SD, OD) L).1,
          accOut G (List.foldl (fireWin ⟨f, t, false⟩ w) (SD, OD) L).2) ∧
        StSorted (List.foldl (fireWin ⟨f, t, false⟩ w) (SD, OD) L).1 ∧
        (∀ p ∈ G ++ (List.foldl (fireWin ⟨f, t, false⟩ w) (SD, OD) L).2,
          p.win ∈ keysOf (List.foldl (fireWin ⟨f, t, false⟩ w) (SD, OD) L).1)
  | [], G, SD, OD, hs, hk => ⟨rfl, hs, hk⟩
  | W' :: L, G, SD, OD, hs, hk => by
      rw [List.foldl_cons, List.foldl_cons]
      obtain ⟨h1, h2, h3⟩ := fireWin_lift f t w W' G SD OD hs hk
      rw [h1]
      rcases hR : fireWin ⟨f, t, false⟩ w (SD, OD) W' with ⟨SD2, OD2⟩
      rw [hR] at h2 h3
      exact fireFold_lift f t w L G SD2 OD2 h2 h3

theorem addElem_acc_irrel {α : Type} (f : WFn) (t : Trig) (a1 a2 : Bool) (w : WMark)
    (st : St α) (W : Win) (v : α) :
    addElem ⟨f, t, a1⟩ w st W v = addElem ⟨f, t, a2⟩ w st W v := rfl

theorem addFold_lift {α : Type} (c : Cfg) (wf : WFn) (w : WMark) (G : List (Pane α)) :
    ∀ (b : List (Nat × α)) (st : St α), StSorted st → (∀ p ∈ G, p.win ∈ keysOf st) →
      b.foldl (fun s p => addElem c w s (assign wf p.1) p.2) (liftSt G st) =
        liftSt G (b.foldl (fun s p => addElem c w s (assign wf p.1) p.2) st) ∧
      StSorted (b.foldl (fun s p => addElem c w s (assign wf p.1) p.2) st) ∧
      (∀ p ∈ G, p.win ∈ keysOf (b.foldl (fun s p => addElem c w s (assign wf p.1) p.2) st))
  | [], st, hs, hk => ⟨rfl, hs, hk⟩
  | (ts, v) :: b, st, hs, hk => by
      rw [List.foldl_cons, List.foldl_cons]
      have hmiss : assign wf ts ∈ keysOf st ∨ sumPanes G (assign wf ts) = 0 := by
        by_cases hW : assign wf ts ∈ keysOf st
        · exact Or.inl hW
        · refine Or.inr (sumPanes_eq_zero _ _ ?_)
          intro p hp hc
          have hmem := hk p hp
          rw [hc] at hmem
          exact hW hmem
      rw [addElem_lift c w G (assign wf ts) v st hs hmiss]
      have hs2 : StSorted (addElem c w st (assign wf ts) v) := upsert_sorted _ _ _ hs
      have hk2 : ∀ p ∈ G, p.win ∈ keysOf (addElem c w st (assign wf ts) v) := by
        intro p hp
        rw [addElem, mem_keys_upsert]
        exact Or.inr (hk p hp)
      exact addFold_lift c wf w G b (addElem c w st (assign wf ts) v) hs2 hk2

theorem processBundle_lift {α : Type} (sz : Nat) (t : Trig) (w : WMark) (G : List (Pane α))
    (st : St α) (b : List (Nat × α)) (hs : StSorted st)
    (hk : ∀ p ∈ G, p.win ∈ keysOf st) :
    processBundle ⟨.fixedW sz, t, true⟩ w (liftSt G st) b =
      (liftSt (G ++ (processBundle ⟨.fixedW sz, t, false⟩ w st b).2)
          (processBundle ⟨.fixedW sz, t, false⟩ w st b).1,
        accOut G (processBundle ⟨.fixedW sz, t, false⟩ w st b).2) ∧
      StSorted (processBundle ⟨.fixedW sz, t, false⟩ w st b).1 ∧
      (∀ p ∈ G ++ (processBundle ⟨.fixedW sz, t, false⟩ w st b).2,
        p.win ∈ keysOf (processBundle ⟨.fixedW sz, t, false⟩ w st b).1) := by
  simp only [processBundle, targetWin, mergeableW, Bool.false_eq_true, if_false]
  rw [show (fun (s : St α) (p : Nat × α) =>
      addElem (⟨.fixedW sz, t, true⟩ : Cfg) w s (assign (.fixedW sz) p.1) p.2) =
    (fun (s : St α) (p : Nat × α) =>
      addElem (⟨.fixedW sz, t, false⟩ : Cfg) w s (assign (.fixedW sz) p.1) p.2) from rfl]
  obtain ⟨hfold, hs2, hk2⟩ :=
    addFold_lift (⟨.fixedW sz, t, false⟩ : Cfg) (.fixedW sz) w G b st hs hk
  rw [hfold, liftSt_mapfst]
  have hFF := fireFold_lift (.fixedW sz) t w
    ((List.map Prod.fst (b.foldl (fun s p =>
        addElem (⟨.fixedW sz, t, false⟩ : Cfg) w s (assign (.fixedW sz) p.1) p.2) st)).filter
      (fun W => decide (W ∈ b.map (fun p => assign (.fixedW sz) p.1))))
    G (b.foldl (fun s p =>
        addElem (⟨.fixedW sz, t, false⟩ : Cfg) w s (assign (.fixedW sz) p.1) p.2) st)
    [] hs2 (by simpa using hk2)
  rw [List.append_nil] at hFF
  simp only [accOut] at hFF
  exact hFF

theorem getAndClear_fst {α : Type} (w : WMark) :
    ∀ st : St α, (getAndClearTimers st w).1.map Prod.fst = st.map Prod.fst
  | [] => rfl
  | (w0, e0) :: r => by
      have ih := getAndClear_fst w r
      simp only [getAndClearTimers, List.map_cons] at ih ⊢
      cases ht : e0.timer with
      | none => exact List.cons_eq_cons.mpr ⟨rfl, ih⟩
      | some ts =>
          by_cases hts : wmGe w ts
          · simp only [ht, if_pos hts]
            exact List.cons_eq_cons.mpr ⟨rfl, ih⟩
          · simp only [ht, if_neg hts]
            exact List.cons_eq_cons.mpr ⟨rfl, ih⟩

theorem getAndClear_keys {α : Type} (w : WMark) (st : St α) :
    keysOf (getAndClearTimers st w).1 = keysOf st :=
  getAndClear_fst w st

theorem getAndClear_sorted {α : Type} (w : WMark) :
    ∀ st : St α, StSorted st → StSorted (getAndClearTimers st w).1
  | [], _ => List.Pairwise.nil
  | (w0, e0) :: r, hs => by
      rw [StSorted, List.pairwise_cons] at hs
      obtain ⟨hhead, htail⟩ := hs
      have ih := getAndClear_sorted w r htail
      simp only [getAndClearTimers, List.map_cons] at ih ⊢
      have hkey : ∀ q ∈ (getAndClearTimers r w).1, winLtB w0 q.1 = true := by
        intro q hq
        have h1 : q.1 ∈ (getAndClearTimers r w).1.map Prod.fst :=
          List.mem_map_of_mem Prod.fst hq
        rw [getAndClear_fst] at h1
        obtain ⟨q0, hq0, hq01⟩ := List.mem_map.mp h1
        rw [← hq01]
        exact hhead q0 hq0
      simp only [getAndClearTimers] at hkey
      rw [StSorted, List.pairwise_cons]
      cases ht : e0.timer with
      | none => exact ⟨fun q hq => hkey q hq, ih⟩
      | some ts =>
          by_cases hts : wmGe w ts
          · simp only [ht, if_pos hts]
            exact ⟨fun q hq => hkey q hq, ih⟩
          · simp only [ht, if_neg hts]
            exact ⟨fun q hq => hkey q hq, ih⟩

theorem processTimer_lift {α : Type} (f : WFn) (t : Trig) (G : List (Pane α)) (SD : St α)
    (W : Win) (ts : Nat) (hs : StSorted SD) (hk : ∀ p ∈ G, p.win ∈ keysOf SD) :
    processTimer ⟨f, t, true⟩ (liftSt G SD) W ts =
      (liftSt (G ++ (processTimer ⟨f, t, false⟩ SD W ts).2)
          (processTimer ⟨f, t, false⟩ SD W ts).1,
        accOut G (processTimer ⟨f, t, false⟩ SD W ts).2) ∧
      StSorted (processTimer ⟨f, t, false⟩ SD W ts).1 ∧
      (∀ p ∈ G ++ (processTimer ⟨f, t, false⟩ SD W ts).2,
        p.win ∈ keysOf (processTimer ⟨f, t, false⟩ SD W ts).1) := by
  have h := fireWin_lift f t (.stamp ts) W G SD [] hs (by simpa using hk)
  rw [List.append_nil] at h
  simp only [accOut] at h
  simp only [processTimer]
  exact h

theorem timerFold_lift {α : Type} (f : WFn) (t : Trig) :
    ∀ (due : List (Win × Nat)) (G : List (Pane α)) (SD : St α) (OD : List (Pane α)),
      StSorted SD → (∀ p ∈ G ++ OD, p.win ∈ keysOf SD) →
      List.foldl (timerStep ⟨f, t, true⟩) (liftSt (G ++ OD) SD, accOut G OD) due =
        (liftSt (G ++ (List.foldl (timerStep ⟨f, t, false⟩) (SD, OD) due).2)
            (List.foldl (timerStep ⟨f, t, false⟩) (SD, OD) due).1,
          accOut G (List.foldl (timerStep ⟨f, t, false⟩) (SD, OD) due).2) ∧
        StSorted (List.foldl (timerStep ⟨f, t, false⟩) (SD, OD) due).1 ∧
        (∀ p ∈ G ++ (List.foldl (timerStep ⟨f, t, false⟩) (SD, OD) due).2,
          p.win ∈ keysOf (List.foldl (timerStep ⟨f, t, false⟩) (SD, OD) due).1)
  | [], G, SD, OD, hs, hk => ⟨rfl, hs, hk⟩
  | (W, ts) :: due', G, SD, OD, hs, hk => by
      rw [List.foldl_cons, List.foldl_cons]
      obtain ⟨h1, h2, h3⟩ := processTimer_lift f t (G ++ OD) SD W ts hs hk
      simp only [timerStep]
      rw [h1]
      rcases hPT : processTimer ⟨f, t, false⟩ SD W ts with ⟨sd2, od2⟩
      rw [hPT] at h2 h3
      dsimp only at h2 h3 ⊢
      rw [show G ++ OD ++ od2 = G ++ (OD ++ od2) from List.append_assoc _ _ _]
      rw [show accOut G OD ++ accOut (G ++ OD) od2 = accOut G (OD ++ od2) from
        (accOut_append OD od2 G).symm]
      have hk2 : ∀ p ∈ G ++ (OD ++ od2), p.win ∈ keysOf sd2 := by
        intro p hp
        apply h3
        rw [List.append_assoc]
        exact hp
      exact timerFold_lift f t due' G sd2 (OD ++ od2) h2 hk2

theorem runTimerPass_lift {α : Type} (f : WFn) (t : Trig) (G : List (Pane α)) (st : St α)
    (hs : StSorted st) (hk : ∀ p ∈ G, p.win ∈ keysOf st) :
    runTimerPass ⟨f, t, true⟩ (liftSt G st) =
      (liftSt (G ++ (runTimerPass ⟨f, t, false⟩ st).2) (runTimerPass ⟨f, t, false⟩ st).1,
        accOut G (runTimerPass ⟨f, t, false⟩ st).2) ∧
      StSorted (runTimerPass ⟨f, t, false⟩ st).1 ∧
      (∀ p ∈ G ++ (runTimerPass ⟨f, t, false⟩ st).2,
        p.win ∈ keysOf (runTimerPass ⟨f, t, false⟩ st).1) := by
  have hsC : StSorted (getAndClearTimers st .maxTS).1 := getAndClear_sorted .maxTS st hs
  have hkC : ∀ p ∈ G ++ [], p.win ∈ keysOf (getAndClearTimers st .maxTS).1 := by
    intro p hp
    rw [getAndClear_keys]
    exact hk p (by simpa using hp)
  simp only [runTimerPass]
  rw [getAndClear_lift]
  rcases hGC : getAndClearTimers st .maxTS with ⟨cleared, due⟩
  rw [hGC] at hsC hkC
  have h := timerFold_lift f t due G cleared [] hsC hkC
  rw [List.append_nil] at h
  simp only [accOut] at h
  exact h

theorem runTimerLoop_lift {α : Type} (f : WFn) (t : Trig) :
    ∀ (fuel : Nat) (G : List (Pane α)) (st : St α),
      StSorted st → (∀ p ∈ G, p.win ∈ keysOf st) →
      runTimerLoop ⟨f, t, true⟩ fuel (liftSt G st) =
        (liftSt (G ++ (runTimerLoop ⟨f, t, false⟩ fuel st).2)
            (runTimerLoop ⟨f, t, false⟩ fuel st).1,
          accOut G (runTimerLoop ⟨f, t, false⟩ fuel st).2) ∧
        StSorted (runTimerLoop ⟨f, t, false⟩ fuel st).1 ∧
        (∀ p ∈ G ++ (runTimerLoop ⟨f, t, false⟩ fuel st).2,
          p.win ∈ keysOf (runTimerLoop ⟨f, t, false⟩ fuel st).1)
  | 0, G, st, hs, hk => by
      simp only [runTimerLoop]
      refine ⟨?_, hs, ?_⟩
      · rw [List.append_nil]
        rfl
      · simpa using hk
  | fuel + 1, G, st, hs, hk => by
      simp only [runTimerLoop, timersEmpty_liftSt]
      by_cases hte : timersEmpty st = true
      · simp only [hte, if_true, eq_self_iff_true]
        refine ⟨?_, hs, ?_⟩
        · dsimp only
          rw [List.append_nil]
          rfl
        · simpa using hk
      · simp only [hte, Bool.false_eq_true, if_false]
        obtain ⟨h1, h2, h3⟩ := runTimerPass_lift f t G st hs hk
        rw [h1]
        rcases hTP : runTimerPass ⟨f, t, false⟩ st with ⟨st1, out1⟩
        rw [hTP] at h2 h3
        dsimp only at h2 h3 ⊢
        obtain ⟨ih1, ih2, ih3⟩ := runTimerLoop_lift f t fuel (G ++ out1) st1 h2 h3
        rw [ih1]
        rcases hRL : runTimerLoop ⟨f, t, false⟩ fuel st1 with ⟨st2, out2⟩
        rw [hRL] at ih2 ih3
        dsimp only at ih2 ih3 ⊢
        refine ⟨?_, ih2, ?_⟩
        · rw [Prod.mk.injEq]
          constructor
          · rw [List.append_assoc]
          · rw [accOut_append]
        · intro p hp
          apply ih3
          rw [List.append_assoc]
          exact hp

theorem bundleFold_lift {α : Type} (sz : Nat) (t : Trig) (w : WMark) :
    ∀ (bs : List (List (Nat × α))) (G : List (Pane α)) (SD : St α) (OD : List (Pane α)),
      StSorted SD → (∀ p ∈ G ++ OD, p.win ∈ keysOf SD) →
      List.foldl (fun acc b =>
          ((processBundle ⟨.fixedW sz, t, true⟩ w acc.1 b).1,
            acc.2 ++ (processBundle ⟨.fixedW sz, t, true⟩ w acc.1 b).2))
        (liftSt (G ++ OD) SD, accOut G OD) bs =
        (liftSt (G ++ (List.foldl (fun acc b =>
            ((processBundle ⟨.fixedW sz, t, false⟩ w acc.1 b).1,
              acc.2 ++ (processBundle ⟨.fixedW sz, t, false⟩ w acc.1 b).2))
          (SD, OD) bs).2)
            (List.foldl (fun acc b =>
            ((processBundle ⟨.fixedW sz, t, false⟩ w acc.1 b).1,
              acc.2 ++ (processBundle ⟨.fixedW sz, t, false⟩ w acc.1 b).2))
          (SD, OD) bs).1,
          accOut G (List.foldl (fun acc b =>
            ((processBundle ⟨.fixedW sz, t, false⟩ w acc.1 b).1,
              acc.2 ++ (processBundle ⟨.fixedW sz, t, false⟩ w acc.1 b).2))
          (SD, OD) bs).2) ∧
        StSorted (List.foldl (fun acc b =>
            ((processBundle ⟨.fixedW sz, t, false⟩ w acc.1 b).1,
              acc.2 ++ (processBundle ⟨.fixedW sz, t, false⟩ w acc.1 b).2))
          (SD, OD) bs).1 ∧
        (∀ p ∈ G ++ (List.foldl (fun acc b =>
            ((processBundle ⟨.fixedW sz, t, false⟩ w acc.1 b).1,
              acc.2 ++ (processBundle ⟨.fixedW sz, t, false⟩ w acc.1 b).2))
          (SD, OD) bs).2,
          p.win ∈ keysOf (List.foldl (fun acc b =>
            ((processBundle ⟨.fixedW sz, t, false⟩ w acc.1 b).1,
              acc.2 ++ (processBundle ⟨.fixedW sz, t, false⟩ w acc.1 b).2))
          (SD, OD) bs).1)
  | [], G, SD, OD, hs, hk => ⟨rfl, hs, hk⟩
  | b :: bs, G, SD, OD, hs, hk => by
      rw [List.foldl_cons, List.foldl_cons]
      obtain ⟨h1, h2, h3⟩ := processBundle_lift sz t w (G ++ OD) SD b hs hk
      dsimp only
      rw [h1]
      rcases hPB : processBundle ⟨.fixedW sz, t, false⟩ w SD b with ⟨sd2, od2⟩
      rw [hPB] at h2 h3
      dsimp only at h2 h3 ⊢
      rw [show G ++ OD ++ od2 = G ++ (OD ++ od2) from List.append_assoc _ _ _]
      rw [show accOut G OD ++ accOut (G ++ OD) od2 = accOut G (OD ++ od2) from
        (accOut_append OD od2 G).symm]
      have hk2 : ∀ p ∈ G ++ (OD ++ od2), p.win ∈ keysOf sd2 := by
        intro p hp
        apply h3
        rw [List.append_assoc]
        exact hp
      exact bundleFold_lift sz t w bs G sd2 (OD ++ od2) h2 hk2

theorem lateStep_lift {α : Type} (sz : Nat) (t : Trig) (G : List (Pane α)) (SD : St α)
    (OD : List (Pane α)) (b : List (Nat × α)) (hs : StSorted SD)
    (hk : ∀ p ∈ G ++ OD, p.win ∈ keysOf SD) :
    lateStep ⟨.fixedW sz, t, true⟩ (liftSt (G ++ OD) SD, accOut G OD) b =
      (liftSt (G ++ (lateStep ⟨.fixedW sz, t, false⟩ (SD, OD) b).2)
          (lateStep ⟨.fixedW sz, t, false⟩ (SD, OD) b).1,
        accOut G (lateStep ⟨.fixedW sz, t, false⟩ (SD, OD) b).2) ∧
      StSorted (lateStep ⟨.fixedW sz, t, false⟩ (SD, OD) b).1 ∧
      (∀ p ∈ G ++ (lateStep ⟨.fixedW sz, t, false⟩ (SD, OD) b).2,
        p.win ∈ keysOf (lateStep ⟨.fixedW sz, t, false⟩ (SD, OD) b).1) := by
  obtain ⟨h1, h2, h3⟩ := processBundle_lift sz t .maxTS (G ++ OD) SD b hs hk
  simp only [lateStep]
  rw [h1]
  rcases hPB : processBundle ⟨.fixedW sz, t, false⟩ .maxTS SD b with ⟨sd2, od2⟩
  rw [hPB] at h2 h3
  dsimp only at h2 h3 ⊢
  rw [liftSt_length]
  obtain ⟨l1, l2, l3⟩ :=
    runTimerLoop_lift (.fixedW sz) t (sd2.length + 1) (G ++ OD ++ od2) sd2 h2 h3
  rw [l1]
  rcases hRL : runTimerLoop ⟨.fixedW sz, t, false⟩ (sd2.length + 1) sd2 with ⟨sd3, od3⟩
  rw [hRL] at l2 l3
  dsimp only at l2 l3 ⊢
  refine ⟨?_, l2, ?_⟩
  · rw [Prod.mk.injEq]
    constructor
    · simp [List.append_assoc]
    · simp [accOut_append, List.append_assoc]
  · intro p hp
    apply l3
    simp only [List.mem_append] at hp ⊢
    tauto

theorem lateFold_lift {α : Type} (sz : Nat) (t : Trig) :
    ∀ (bs : List (List (Nat × α))) (G : List (Pane α)) (SD : St α) (OD : List (Pane α)),
      StSorted SD → (∀ p ∈ G ++ OD, p.win ∈ keysOf SD) →
      List.foldl (lateStep ⟨.fixedW sz, t, true⟩) (liftSt (G ++ OD) SD, accOut G OD) bs =
        (liftSt (G ++ (List.foldl (lateStep ⟨.fixedW sz, t, false⟩) (SD, OD) bs).2)
            (List.foldl (lateStep ⟨.fixedW sz, t, false⟩) (SD, OD) bs).1,
          accOut G (List.foldl (lateStep ⟨.fixedW sz, t, false⟩) (SD, OD) bs).2) ∧
        StSorted (List.foldl (lateStep ⟨.fixedW sz, t, false⟩) (SD, OD) bs).1 ∧
        (∀ p ∈ G ++ (List.foldl (lateStep ⟨.fixedW sz, t, false⟩) (SD, OD) bs).2,
          p.win ∈ keysOf (List.foldl (lateStep ⟨.fixedW sz, t, false⟩) (SD, OD) bs).1)
  | [], G, SD, OD, hs, hk => ⟨rfl, hs, hk⟩
  | b :: bs, G, SD, OD, hs, hk => by
      rw [List.foldl_cons, List.foldl_cons]
      obtain ⟨h1, h2, h3⟩ := lateStep_lift sz t G SD OD b hs hk
      rw [h1]
      rcases hLS : lateStep ⟨.fixedW sz, t, false⟩ (SD, OD) b with ⟨sd2, od2⟩
      rw [hLS] at h2 h3
      exact lateFold_lift sz t bs G sd2 od2 h2 h3

theorem runSimpleFull_lift {α : Type} (sz : Nat) (t : Trig) (data late : List (Nat × α))
    (g : Int) :
    runSimpleFull ⟨.fixedW sz, t, true⟩ data late g =
      (liftSt (runSimpleFull ⟨.fixedW sz, t, false⟩ data late g).2
          (runSimpleFull ⟨.fixedW sz, t, false⟩ data late g).1,
        accOut [] (runSimpleFull ⟨.fixedW sz, t, false⟩ data late g).2) := by
  have hB := bundleFold_lift sz t .minTS (bundleData data g) ([] : List (Pane α))
    ([] : St α) ([] : List (Pane α)) List.Pairwise.nil (by simp)
  simp only [List.append_nil, List.nil_append] at hB
  obtain ⟨hB1, hB2, hB3⟩ := hB
  have hRB : runBundles ⟨.fixedW sz, t, true⟩ .minTS [] (bundleData data g) =
      (liftSt (runBundles ⟨.fixedW sz, t, false⟩ .minTS [] (bundleData data g)).2
          (runBundles ⟨.fixedW sz, t, false⟩ .minTS [] (bundleData data g)).1,
        accOut [] (runBundles ⟨.fixedW sz, t, false⟩ .minTS [] (bundleData data g)).2) := hB1
  have hRBs : StSorted (runBundles ⟨.fixedW sz, t, false⟩ .minTS [] (bundleData data g)).1 :=
    hB2
  have hRBk : ∀ p ∈ (runBundles ⟨.fixedW sz, t, false⟩ .minTS [] (bundleData data g)).2,
      p.win ∈ keysOf (runBundles ⟨.fixedW sz, t, false⟩ .minTS [] (bundleData data g)).1 :=
    hB3
  unfold runSimpleFull runTrigger
  rcases hD : runBundles ⟨.fixedW sz, t, false⟩ .minTS [] (bundleData data g) with ⟨sd1, od1⟩
  rw [hD] at hRB hRBs hRBk
  dsimp only at hRBs hRBk
  rw [hRB]
  dsimp only
  rw [liftSt_length]
  obtain ⟨hT1, hT2, hT3⟩ :=
    runTimerLoop_lift (.fixedW sz) t (sd1.length + 1) od1 sd1 hRBs hRBk
  rw [hT1]
  rcases hT : runTimerLoop ⟨.fixedW sz, t, false⟩ (sd1.length + 1) sd1 with ⟨sd2, od2⟩
  rw [hT] at hT2 hT3
  dsimp only at hT2 hT3 ⊢
  have hL := lateFold_lift sz t (bundleData late g) (od1 ++ od2) sd2 ([] : List (Pane α))
    hT2 (by simpa using hT3)
  simp only [List.append_nil] at hL
  obtain ⟨hL1, _, _⟩ := hL
  rw [show accOut (od1 ++ od2) ([] : List (Pane α)) = [] from rfl] at hL1
  rw [hL1]
  rcases hLF : List.foldl (lateStep ⟨.fixedW sz, t, false⟩) (sd2, [])
      (bundleData late g) with ⟨sd3, od3⟩
  dsimp only
  rw [Prod.mk.injEq]
  constructor
  · rw [List.append_assoc]
  · simp [accOut_append]

theorem valsOfSt_nil {α : Type} : valsOfSt ([] : St α) = 0 := rfl

theorem valsOfSt_cons {α : Type} (q : Win × Entry α) (r : St α) :
    valsOfSt (q :: r) = q.2.buf + valsOfSt r := by
  simp [valsOfSt]

theorem valsOfOut_nil {α : Type} : valsOfOut ([] : List (Pane α)) = 0 := rfl

theorem valsOfOut_append {α : Type} (l1 l2 : List (Pane α)) :
    valsOfOut (l1 ++ l2) = valsOfOut l1 + valsOfOut l2 := by
  simp [valsOfOut]

theorem valsOfOut_single {α : Type} (p : Pane α) : valsOfOut [p] = p.vals := by
  simp [valsOfOut]

theorem valsOfSt_upsert {α : Type} (W : Win) (f : Option (Entry α) → Entry α)
    (b0 : Multiset α) (h1 : (f none).buf = b0) (h2 : ∀ e, (f (some e)).buf = e.buf + b0) :
    ∀ st : St α, valsOfSt (upsert W f st) = valsOfSt st + b0
  | [] => by
      simp only [upsert]
      rw [valsOfSt_cons, valsOfSt_nil, h1]
      simp
  | (w0, e0) :: r => by
      by_cases hW : W = w0
      · simp only [upsert, if_pos hW]
        rw [valsOfSt_cons, valsOfSt_cons, h2]
        simp [add_comm, add_left_comm, add_assoc]
      · by_cases h2w : winLtB W w0 = true
        · simp only [upsert, if_neg hW, if_pos h2w]
          rw [valsOfSt_cons, valsOfSt_cons]
          simp [h1, add_comm, add_left_comm, add_assoc]
        · simp only [upsert, if_neg hW, if_neg h2w]
          rw [valsOfSt_cons, valsOfSt_cons, valsOfSt_upsert W f b0 h1 h2 r]
          simp [add_assoc]

theorem valsOfSt_fire {α : Type} (W : Win) (y : Entry α) (e : Entry α) :
    ∀ st : St α, StSorted st → lookupSt st W = some e →
      valsOfSt (upsert W (fun _ => y) st) + e.buf = valsOfSt st + y.buf
  | [], _, hl => by simp [lookupSt] at hl
  | (w0, e0) :: r, hs, hl => by
      rw [StSorted, List.pairwise_cons] at hs
      obtain ⟨hhead, htail⟩ := hs
      by_cases hW : W = w0
      · subst hW
        rw [lookupSt_cons_self] at hl
        cases hl
        simp only [upsert, eq_self_iff_true, if_true]
        rw [valsOfSt_cons, valsOfSt_cons]
        simp [add_comm, add_left_comm, add_assoc]
      · rw [lookupSt_cons_ne _ _ _ _ (fun hc => hW hc.symm)] at hl
        by_cases h2w : winLtB W w0 = true
        · exfalso
          have hnone : lookupSt r W = none := by
            apply lookup_none_of_all_gt
            intro q hq
            exact winLtB_trans h2w (hhead q hq)
          rw [hnone] at hl
          cases hl
        · simp only [upsert, if_neg hW, if_neg h2w]
          rw [valsOfSt_cons, valsOfSt_cons]
          have ih := valsOfSt_fire W y e r htail hl
          rw [add_assoc, ih, add_assoc]

theorem valsOfSt_addElem {α : Type} (c : Cfg) (w : WMark) (W : Win) (v : α) (st : St α) :
    valsOfSt (addElem c w st W v) = valsOfSt st + {v} := by
  apply valsOfSt_upsert
  · rfl
  · intro e
    rw [show ((⟨v ::ₘ e.buf, onElem c.trig e.ts, timerGate c w W e.timer⟩ : Entry α)).buf =
      v ::ₘ e.buf from rfl]
    rw [← Multiset.singleton_add, add_comm]

theorem fireWin_vals {α : Type} (f : WFn) (t : Trig) (w : WMark) (W' : Win)
    (st : St α) (out : List (Pane α)) (hs : StSorted st) :
    valsOfSt (fireWin ⟨f, t, false⟩ w (st, out) W').1 +
        valsOfOut (fireWin ⟨f, t, false⟩ w (st, out) W').2 =
      valsOfSt st + valsOfOut out ∧
    StSorted (fireWin ⟨f, t, false⟩ w (st, out) W').1 := by
  simp only [fireWin]
  cases hl : lookupSt st W' with
  | none => exact ⟨rfl, hs⟩
  | some e =>
      dsimp only
      by_cases hcond : (!(isFin t e.ts) && shouldFire t e.ts w W'.hi) = true
      · simp only [hcond, if_true, eq_self_iff_true, Bool.false_eq_true, if_false]
        refine ⟨?_, upsert_sorted _ _ _ hs⟩
        have hfire := valsOfSt_fire W'
          (⟨0, onFire t e.ts w W'.hi, e.timer⟩ : Entry α) e st hs hl
        rw [valsOfOut_append, valsOfOut_single]
        rw [show ((⟨W', e.buf, timingOf w W'.hi⟩ : Pane α)).vals = e.buf from rfl]
        rw [show ((⟨0, onFire t e.ts w W'.hi, e.timer⟩ : Entry α)).buf =
          (0 : Multiset α) from rfl] at hfire
        rw [add_zero] at hfire
        rw [← hfire]
        simp [add_comm, add_left_comm, add_assoc]
      · simp only [hcond, Bool.false_eq_true, if_false]
        exact ⟨trivial, hs⟩

theorem fireFold_vals {α : Type} (f : WFn) (t : Trig) (w : WMark) :
    ∀ (L : List Win) (st : St α) (out : List (Pane α)), StSorted st →
      valsOfSt (List.foldl (fireWin ⟨f, t, false⟩ w) (st, out) L).1 +
          valsOfOut (List.foldl (fireWin ⟨f, t, false⟩ w) (st, out) L).2 =
        valsOfSt st + valsOfOut out ∧
      StSorted (List.foldl (fireWin ⟨f, t, false⟩ w) (st, out) L).1
  | [], st, out, hs => ⟨rfl, hs⟩
  | W' :: L, st, out, hs => by
      rw [List.foldl_cons]
      obtain ⟨h1, h2⟩ := fireWin_vals f t w W' st out hs
      rcases hF : fireWin ⟨f, t, false⟩ w (st, out) W' with ⟨st2, out2⟩
      rw [hF] at h1 h2
      dsimp only at h1 h2
      obtain ⟨ih1, ih2⟩ := fireFold_vals f t w L st2 out2 h2
      exact ⟨by rw [ih1, h1], ih2⟩

theorem addFold_vals {α : Type} (c : Cfg) (wf : WFn) (w : WMark) :
    ∀ (b : List (Nat × α)) (st : St α),
      valsOfSt (b.foldl (fun s p => addElem c w s (assign wf p.1) p.2) st) =
        valsOfSt st + ((b.map Prod.snd : List α) : Multiset α)
  | [], st => by simp
  | (ts, v) :: b, st => by
      rw [List.foldl_cons, addFold_vals c wf w b (addElem c w st (assign wf ts) v),
        valsOfSt_addElem]
      simp only [List.map_cons]
      rw [show (((v :: b.map Prod.snd : List α)) : Multiset α) =
        v ::ₘ ((b.map Prod.snd : List α) : Multiset α) from rfl]
      rw [← Multiset.singleton_add]
      simp [add_comm, add_left_comm, add_assoc]

theorem addFold_sorted {α : Type} (c : Cfg) (wf : WFn) (w : WMark) :
    ∀ (b : List (Nat × α)) (st : St α), StSorted st →
      StSorted (b.foldl (fun s p => addElem c w s (assign wf p.1) p.2) st)
  | [], _, hs => hs
  | (ts, v) :: b, st, hs => by
      rw [List.foldl_cons]
      exact addFold_sorted c wf w b _ (upsert_sorted _ _ _ hs)

theorem processBundle_vals {α : Type} (sz : Nat) (t : Trig) (w : WMark)
    (st : St α) (b : List (Nat × α)) (hs : StSorted st) :
    valsOfSt (processBundle ⟨.fixedW sz, t, false⟩ w st b).1 +
        valsOfOut (processBundle ⟨.fixedW sz, t, false⟩ w st b).2 =
      valsOfSt st + ((b.map Prod.snd : List α) : Multiset α) ∧
    StSorted (processBundle ⟨.fixedW sz, t, false⟩ w st b).1 := by
  simp only [processBundle, targetWin, mergeableW, Bool.false_eq_true, if_false]
  have hs2 := addFold_sorted (⟨.fixedW sz, t, false⟩ : Cfg) (.fixedW sz) w b st hs
  have hv2 := addFold_vals (⟨.fixedW sz, t, false⟩ : Cfg) (.fixedW sz) w b st
  obtain ⟨h1, h2⟩ := fireFold_vals (.fixedW sz) t w
    ((List.map Prod.fst (b.foldl (fun s p =>
        addElem (⟨.fixedW sz, t, false⟩ : Cfg) w s (assign (.fixedW sz) p.1) p.2) st)).filter
      (fun W => decide (W ∈ b.map (fun p => assign (.fixedW sz) p.1))))
    (b.foldl (fun s p =>
        addElem (⟨.fixedW sz, t, false⟩ : Cfg) w s (assign (.fixedW sz) p.1) p.2) st)
    [] hs2
  refine ⟨?_, h2⟩
  rw [h1, hv2]
  simp [valsOfOut]

theorem getAndClear_vals {α : Type} (w : WMark) :
    ∀ st : St α, valsOfSt (getAndClearTimers st w).1 = valsOfSt st
  | [] => rfl
  | (w0, e0) :: r => by
      have ih := getAndClear_vals w r
      simp only [getAndClearTimers, List.map_cons] at ih ⊢
      rw [valsOfSt_cons, valsOfSt_cons, ih]
      cases ht : e0.timer with
      | none => rfl
      | some ts =>
          by_cases hts : wmGe w ts
          · simp only [ht, if_pos hts]
          · simp only [ht, if_neg hts]

theorem timerFold_vals {α : Type} (f : WFn) (t : Trig) :
    ∀ (due : List (Win × Nat)) (st : St α) (out : List (Pane α)), StSorted st →
      valsOfSt (List.foldl (timerStep ⟨f, t, false⟩) (st, out) due).1 +
          valsOfOut (List.foldl (timerStep ⟨f, t, false⟩) (st, out) due).2 =
        valsOfSt st + valsOfOut out ∧
      StSorted (List.foldl (timerStep ⟨f, t, false⟩) (st, out) due).1
  | [], st, out, hs => ⟨rfl, hs⟩
  | (W, ts) :: due', st, out, hs => by
      rw [List.foldl_cons]
      obtain ⟨h1, h2⟩ := fireWin_vals f t (.stamp ts) W st [] hs
      simp only [timerStep, processTimer]
      rcases hF : fireWin ⟨f, t, false⟩ (.stamp ts) (st, []) W with ⟨st2, o2⟩
      rw [hF] at h1 h2
      dsimp only at h1 h2 ⊢
      obtain ⟨ih1, ih2⟩ := timerFold_vals f t due' st2 (out ++ o2) h2
      refine ⟨?_, ih2⟩
      rw [ih1, valsOfOut_append]
      rw [valsOfOut_nil, add_zero] at h1
      rw [← h1]
      simp [add_comm, add_left_comm, add_assoc]

theorem runTimerPass_vals {α : Type} (f : WFn) (t : Trig) (st : St α) (hs : StSorted st) :
    valsOfSt (runTimerPass ⟨f, t, false⟩ st).1 + valsOfOut (runTimerPass ⟨f, t, false⟩ st).2 =
      valsOfSt st ∧
    StSorted (runTimerPass ⟨f, t, false⟩ st).1 := by
  simp only [runTimerPass]
  rcases hGC : getAndClearTimers st .maxTS with ⟨cleared, due⟩
  have hsC : StSorted cleared := by
    have := getAndClear_sorted .maxTS st hs
    rw [hGC] at this
    exact this
  have hvC : valsOfSt cleared = valsOfSt st := by
    have := getAndClear_vals .maxTS st
    rw [hGC] at this
    exact this
  obtain ⟨h1, h2⟩ := timerFold_vals f t due cleared [] hsC
  dsimp only
  refine ⟨?_, h2⟩
  rw [h1, hvC, valsOfOut_nil, add_zero]

theorem runTimerLoop_vals {α : Type} (f : WFn) (t : Trig) :
    ∀ (fuel : Nat) (st : St α), StSorted st →
      valsOfSt (runTimerLoop ⟨f, t, false⟩ fuel st).1 +
          valsOfOut (runTimerLoop ⟨f, t, false⟩ fuel st).2 =
        valsOfSt st ∧
      StSorted (runTimerLoop ⟨f, t, false⟩ fuel st).1
  | 0, st, hs => ⟨by simp [runTimerLoop, valsOfOut], hs⟩
  | fuel + 1, st, hs => by
      simp only [runTimerLoop]
      by_cases hte : timersEmpty st = true
      · simp only [hte, if_true, eq_self_iff_true]
        exact ⟨by simp [valsOfOut], hs⟩
      · simp only [hte, Bool.false_eq_true, if_false]
        obtain ⟨h1, h2⟩ := runTimerPass_vals f t st hs
        rcases hTP : runTimerPass ⟨f, t, false⟩ st with ⟨st1, out1⟩
        rw [hTP] at h1 h2
        dsimp only at h1 h2 ⊢
        obtain ⟨ih1, ih2⟩ := runTimerLoop_vals f t fuel st1 h2
        rcases hRL : runTimerLoop ⟨f, t, false⟩ fuel st1 with ⟨st2, out2⟩
        rw [hRL] at ih1 ih2
        dsimp only at ih1 ih2 ⊢
        refine ⟨?_, ih2⟩
        rw [valsOfOut_append, ← add_assoc, add_comm (valsOfSt st2) (valsOfOut out1),
          add_assoc, ih1, add_comm (valsOfOut out1), h1]

theorem bundleFold_vals {α : Type} (sz : Nat) (t : Trig) (w : WMark) :
    ∀ (bs : List (List (Nat × α))) (st : St α) (out : List (Pane α)), StSorted st →
      valsOfSt (List.foldl (fun acc b =>
          ((processBundle ⟨.fixedW sz, t, false⟩ w acc.1 b).1,
            acc.2 ++ (processBundle ⟨.fixedW sz, t, false⟩ w acc.1 b).2)) (st, out) bs).1 +
          valsOfOut (List.foldl (fun acc b =>
          ((processBundle ⟨.fixedW sz, t, false⟩ w acc.1 b).1,
            acc.2 ++ (processBundle ⟨.fixedW sz, t, false⟩ w acc.1 b).2)) (st, out) bs).2 =
        valsOfSt st + valsOfOut out + ((bs.flatten.map Prod.snd : List α) : Multiset α) ∧
      StSorted (List.foldl (fun acc b =>
          ((processBundle ⟨.fixedW sz, t, false⟩ w acc.1 b).1,
            acc.2 ++ (processBundle ⟨.fixedW sz, t, false⟩ w acc.1 b).2)) (st, out) bs).1
  | [], st, out, hs => ⟨by simp, hs⟩
  | b :: bs, st, out, hs => by
      rw [List.foldl_cons]
      obtain ⟨h1, h2⟩ := processBundle_vals sz t w st b hs
      dsimp only
      rcases hPB : processBundle ⟨.fixedW sz, t, false⟩ w st b with ⟨st2, o2⟩
      rw [hPB] at h1 h2
      dsimp only at h1 h2 ⊢
      obtain ⟨ih1, ih2⟩ := bundleFold_vals sz t w bs st2 (out ++ o2) h2
      refine ⟨?_, ih2⟩
      rw [ih1, valsOfOut_append]
      rw [List.flatten_cons, List.map_append]
      rw [show (((b.map Prod.snd ++ bs.flatten.map Prod.snd : List α)) : Multiset α) =
        ((b.map Prod.snd : List α) : Multiset α) +
          ((bs.flatten.map Prod.snd : List α) : Multiset α) from Multiset.coe_add _ _]
      have := h1
      calc valsOfSt st2 + (valsOfOut out + valsOfOut o2) +
            ((bs.flatten.map Prod.snd : List α) : Multiset α)
          = valsOfSt st2 + valsOfOut o2 + valsOfOut out +
            ((bs.flatten.map Prod.snd : List α) : Multiset α) := by
            simp [add_comm, add_left_comm, add_assoc]
        _ = valsOfSt st + ((b.map Prod.snd : List α) : Multiset α) + valsOfOut out +
            ((bs.flatten.map Prod.snd : List α) : Multiset α) := by rw [h1]
        _ = valsOfSt st + valsOfOut out +
            (((b.map Prod.snd : List α) : Multiset α) +
              ((bs.flatten.map Prod.snd : List α) : Multiset α)) := by
            simp [add_comm, add_left_comm, add_assoc]

theorem lateFold_vals {α : Type} (sz : Nat) (t : Trig) :
    ∀ (bs : List (List (Nat × α))) (st : St α) (out : List (Pane α)), StSorted st →
      valsOfSt (List.foldl (lateStep ⟨.fixedW sz, t, false⟩) (st, out) bs).1 +
          valsOfOut (List.foldl (lateStep ⟨.fixedW sz, t, false⟩) (st, out) bs).2 =
        valsOfSt st + valsOfOut out + ((bs.flatten.map Prod.snd : List α) : Multiset α) ∧
      StSorted (List.foldl (lateStep ⟨.fixedW sz, t, false⟩) (st, out) bs).1
  | [], st, out, hs => ⟨by simp, hs⟩
  | b :: bs, st, out, hs => by
      rw [List.foldl_cons]
      obtain ⟨h1, h2⟩ := processBundle_vals sz t .maxTS st b hs
      simp only [lateStep]
      rcases hPB : processBundle ⟨.fixedW sz, t, false⟩ .maxTS st b with ⟨st2, o2⟩
      rw [hPB] at h1 h2
      dsimp only at h1 h2 ⊢
      obtain ⟨l1, l2⟩ := runTimerLoop_vals (.fixedW sz) t (st2.length + 1) st2 h2
      rcases hRL : runTimerLoop ⟨.fixedW sz, t, false⟩ (st2.length + 1) st2 with ⟨st3, o3⟩
      rw [hRL] at l1 l2
      dsimp only at l1 l2 ⊢
      obtain ⟨ih1, ih2⟩ := lateFold_vals sz t bs st3 (out ++ o2 ++ o3) l2
      refine ⟨?_, ih2⟩
      rw [ih1, valsOfOut_append, valsOfOut_append]
      rw [List.flatten_cons, List.map_append]
      rw [show (((b.map Prod.snd ++ bs.flatten.map Prod.snd : List α)) : Multiset α) =
        ((b.map Prod.snd : List α) : Multiset α) +
          ((bs.flatten.map Prod.snd : List α) : Multiset α) from Multiset.coe_add _ _]
      calc valsOfSt st3 + (valsOfOut out + valsOfOut o2 + valsOfOut o3) +
            ((bs.flatten.map Prod.snd : List α) : Multiset α)
          = valsOfSt st3 + valsOfOut o3 + valsOfOut o2 + valsOfOut out +
            ((bs.flatten.map Prod.snd : List α) : Multiset α) := by
            simp [add_comm, add_left_comm, add_assoc]
        _ = valsOfSt st2 + valsOfOut o2 + valsOfOut out +
            ((bs.flatten.map Prod.snd : List α) : Multiset α) := by rw [l1]
        _ = valsOfSt st + ((b.map Prod.snd : List α) : Multiset α) + valsOfOut out +
            ((bs.flatten.map Prod.snd : List α) : Multiset α) := by rw [h1]
        _ = valsOfSt st + valsOfOut out +
            (((b.map Prod.snd : List α) : Multiset α) +
              ((bs.flatten.map Prod.snd : List α) : Multiset α)) := by
            simp [add_comm, add_left_comm, add_assoc]

theorem bundleData_vals {α : Type} (data : List (Nat × α)) (g : Int) :
    (((bundleData data g).flatten.map Prod.snd : List α) : Multiset α) =
      ((data.map Prod.snd : List α) : Multiset α) := by
  rw [bundleData_flatten]
  split
  · rw [List.map_reverse, Multiset.coe_reverse]
  · rfl

theorem runSimpleFull_vals {α : Type} (sz : Nat) (t : Trig) (data late : List (Nat × α))
    (g : Int) :
    valsOfSt (runSimpleFull ⟨.fixedW sz, t, false⟩ data late g).1 +
        valsOfOut (runSimpleFull ⟨.fixedW sz, t, false⟩ data late g).2 =
      (((data ++ late).map Prod.snd : List α) : Multiset α) := by
  obtain ⟨hB1, hB2⟩ := bundleFold_vals sz t .minTS (bundleData data g) ([] : St α) []
    List.Pairwise.nil
  rw [valsOfSt_nil, valsOfOut_nil] at hB1
  simp only [zero_add] at hB1
  have hRB1 : valsOfSt (runBundles ⟨.fixedW sz, t, false⟩ .minTS []
        (bundleData data g)).1 +
      valsOfOut (runBundles ⟨.fixedW sz, t, false⟩ .minTS [] (bundleData data g)).2 =
      (((bundleData data g).flatten.map Prod.snd : List α) : Multiset α) := hB1
  have hRB2 : StSorted (runBundles ⟨.fixedW sz, t, false⟩ .minTS []
      (bundleData data g)).1 := hB2
  unfold runSimpleFull runTrigger
  rcases hD : runBundles ⟨.fixedW sz, t, false⟩ .minTS [] (bundleData data g)
    with ⟨sd1, od1⟩
  rw [hD] at hRB1 hRB2
  dsimp only at hRB1 hRB2 ⊢
  have hB1 := hRB1
  have hB2 := hRB2
  obtain ⟨hT1, hT2⟩ := runTimerLoop_vals (.fixedW sz) t (sd1.length + 1) sd1 hB2
  rcases hT : runTimerLoop ⟨.fixedW sz, t, false⟩ (sd1.length + 1) sd1 with ⟨sd2, od2⟩
  rw [hT] at hT1 hT2
  dsimp only at hT1 hT2 ⊢
  obtain ⟨hL1, _⟩ := lateFold_vals sz t (bundleData late g) sd2 ([] : List (Pane α)) hT2
  rcases hL : List.foldl (lateStep ⟨.fixedW sz, t, false⟩) (sd2, [])
      (bundleData late g) with ⟨sd3, od3⟩
  rw [hL] at hL1
  dsimp only at hL1 ⊢
  rw [valsOfOut_append, valsOfOut_append]
  rw [valsOfOut_nil, add_zero] at hL1
  rw [List.map_append]
  rw [show (((data.map Prod.snd ++ late.map Prod.snd : List α)) : Multiset α) =
    ((data.map Prod.snd : List α) : Multiset α) +
      ((late.map Prod.snd : List α) : Multiset α) from Multiset.coe_add _ _]
  rw [← bundleData_vals data g, ← bundleData_vals late g]
  calc valsOfSt sd3 + (valsOfOut od1 + valsOfOut od2 + valsOfOut od3)
      = valsOfSt sd3 + valsOfOut od3 + (valsOfOut od2 + valsOfOut od1) := by
        simp [add_comm, add_left_comm, add_assoc]
    _ = valsOfSt sd2 + (((bundleData late g).flatten.map Prod.snd : List α) : Multiset α) +
        (valsOfOut od2 + valsOfOut od1) := by rw [hL1]
    _ = valsOfSt sd2 + valsOfOut od2 + valsOfOut od1 +
        (((bundleData late g).flatten.map Prod.snd : List α) : Multiset α) := by
        simp [add_comm, add_left_comm, add_assoc]
    _ = valsOfSt sd1 + valsOfOut od1 +
        (((bundleData late g).flatten.map Prod.snd : List α) : Multiset α) := by rw [hT1]
    _ = (((bundleData data g).flatten.map Prod.snd : List α) : Multiset α) +
        (((bundleData late g).flatten.map Prod.snd : List α) : Multiset α) := by rw [hB1]

theorem valsOfOut_cons {α : Type} (p : Pane α) (r : List (Pane α)) :
    valsOfOut (p :: r) = p.vals + valsOfOut r := by
  simp [valsOfOut]

theorem vals_le_valsOfOut {α : Type} :
    ∀ (out : List (Pane α)) (p : Pane α), p ∈ out → p.vals ≤ valsOfOut out
  | [], p, hp => absurd hp (List.not_mem_nil p)
  | q :: r, p, hp => by
      rw [valsOfOut_cons]
      rcases List.mem_cons.mp hp with rfl | hm
      · exact le_add_of_le_of_nonneg le_rfl (Multiset.zero_le _)
      · calc p.vals ≤ valsOfOut r := vals_le_valsOfOut r p hm
          _ ≤ q.vals + valsOfOut r := le_add_of_nonneg_left (Multiset.zero_le _)

theorem disjoint_of_add_le_nodup {α : Type} [DecidableEq α] {u v M : Multiset α}
    (h : u + v ≤ M) (hM : M.Nodup) : Multiset.Disjoint u v := by
  intro a hu hv
  have h1 : 1 ≤ u.count a := (Multiset.one_le_count_iff_mem).mpr hu
  have h2 : 1 ≤ v.count a := (Multiset.one_le_count_iff_mem).mpr hv
  have h3 : (u + v).count a ≤ M.count a := Multiset.count_le_of_le a h
  rw [Multiset.count_add] at h3
  have h4 : M.count a ≤ 1 := (Multiset.nodup_iff_count_le_one.mp hM) a
  omega

theorem pairwise_disjoint_of_le_nodup {α : Type} [DecidableEq α] {M : Multiset α}
    (hM : M.Nodup) :
    ∀ out : List (Pane α), valsOfOut out ≤ M →
      out.Pairwise (fun p q => Multiset.Disjoint p.vals q.vals)
  | [], _ => List.Pairwise.nil
  | p :: r, hle => by
      rw [valsOfOut_cons] at hle
      rw [List.pairwise_cons]
      constructor
      · intro q hq
        have hqv : q.vals ≤ valsOfOut r := vals_le_valsOfOut r q hq
        have : p.vals + q.vals ≤ M :=
          le_trans (add_le_add_left hqv p.vals) hle
        exact disjoint_of_add_le_nodup this hM
      · exact pairwise_disjoint_of_le_nodup hM r
          (le_trans (le_add_of_nonneg_left (Multiset.zero_le _)) hle)

theorem filter_pattern_eq {α : Type} (W : Win) :
    ∀ (l pre : List (Pane α)),
      ((accOut pre l).filter (fun p => decide (p.win = W))).map (fun p => (p.win, p.timing)) =
        (l.filter (fun p => decide (p.win = W))).map (fun p => (p.win, p.timing))
  | [], _ => rfl
  | p :: r, pre => by
      by_cases h : p.win = W
      · simp only [accOut, List.filter_cons]
        rw [if_pos (by simp [liftPane, h]), if_pos (by simp [h])]
        simp only [List.map_cons, liftPane]
        rw [filter_pattern_eq W r (pre ++ [p])]
      · simp only [accOut, List.filter_cons]
        rw [if_neg (by simp [liftPane, h]), if_neg (by simp [h])]
        exact filter_pattern_eq W r (pre ++ [p])

theorem runSimple_eq_full {α : Type} (c : Cfg) (data late : List (Nat × α)) (g : Int) :
    runSimple c data late g = (runSimpleFull c data late g).2 := rfl

theorem scanSums_chain {α : Type} :
    ∀ (vs : List (Multiset α)) (s : Multiset α),
      List.Chain' (fun u v => u ≤ v) (scanSums s vs)
  | [], _ => List.chain'_nil
  | [_], s => by simp [scanSums]
  | v1 :: v2 :: r, s => by
      have ih := scanSums_chain (v2 :: r) (s + v1)
      simp only [scanSums] at ih ⊢
      exact List.chain'_cons.mpr ⟨Multiset.le_add_right _ _, ih⟩

theorem scanSums_getLast {α : Type} :
    ∀ (vs : List (Multiset α)) (s : Multiset α), vs ≠ [] →
      (scanSums s vs).getLast? = some (s + vs.sum)
  | [], _, h => absurd rfl h
  | [v], s, _ => by simp [scanSums]
  | v1 :: v2 :: r, s, _ => by
      have ih := scanSums_getLast (v2 :: r) (s + v1) (by simp)
      simp only [scanSums] at ih ⊢
      rw [List.getLast?_cons_cons, ih]
      simp [List.sum_cons, add_assoc]

/-! Helper lemmas: the session merge.  The sweep over the sorted candidates
computes the canonical merged partition (Canon), which is unique, is
insensitive to the candidate order, and absorbs re-merging of an already
merged partition with further candidates; every proper candidate has
exactly one merged container. -/

theorem winInside_iff {w m : Win} :
    winInside w m = true ↔ m.lo ≤ w.lo ∧ w.hi ≤ m.hi := by
  simp [winInside]

theorem winInside_trans {a b c : Win} (h1 : winInside a b = true)
    (h2 : winInside b c = true) : winInside a c = true := by
  rw [winInside_iff] at h1 h2 ⊢
  omega

theorem winInside_self (w : Win) : winInside w w = true := by
  rw [winInside_iff]
  omega

theorem canon_merge_step {a b : Win} {r Z : List Win} (hov : b.lo < a.hi)
    (hab : winLe a b) (hpa : a.lo < a.hi) (hpb : b.lo < b.hi)
    (h : Canon (⟨a.lo, max a.hi b.hi⟩ :: r) Z) : Canon (a :: b :: r) Z := by
  obtain ⟨hsep, hprop, hcov, hspan, hconn⟩ := h
  have hablo : a.lo ≤ b.lo := by
    unfold winLe at hab
    omega
  have ham : winInside a ⟨a.lo, max a.hi b.hi⟩ = true := by
    rw [winInside_iff]
    exact ⟨le_refl _, le_max_left _ _⟩
  have hbm : winInside b ⟨a.lo, max a.hi b.hi⟩ = true := by
    rw [winInside_iff]
    exact ⟨hablo, le_max_right _ _⟩
  refine ⟨hsep, hprop, ?_, ?_, ?_⟩
  · intro x hx
    rcases List.mem_cons.mp hx with rfl | hx2
    · obtain ⟨M, hM, hin⟩ := hcov _ (List.mem_cons_self _ _)
      exact ⟨M, hM, winInside_trans ham hin⟩
    rcases List.mem_cons.mp hx2 with rfl | hx3
    · obtain ⟨M, hM, hin⟩ := hcov _ (List.mem_cons_self _ _)
      exact ⟨M, hM, winInside_trans hbm hin⟩
    · exact hcov x (List.mem_cons_of_mem _ hx3)
  · intro M hM
    obtain ⟨⟨x, hxm, hxin, hxlo⟩, ⟨y, hym, hyin, hyhi⟩⟩ := hspan M hM
    constructor
    · rcases List.mem_cons.mp hxm with rfl | hxr
      · refine ⟨a, List.mem_cons_self _ _, winInside_trans ham hxin, ?_⟩
        simpa using hxlo
      · exact ⟨x, List.mem_cons_of_mem _ (List.mem_cons_of_mem _ hxr), hxin, hxlo⟩
    · rcases List.mem_cons.mp hym with rfl | hyr
      · by_cases hba : b.hi ≤ a.hi
        · refine ⟨a, List.mem_cons_self _ _, winInside_trans ham hyin, ?_⟩
          simp at hyhi
          omega
        · refine ⟨b, List.mem_cons_of_mem _ (List.mem_cons_self _ _),
            winInside_trans hbm hyin, ?_⟩
          simp at hyhi
          omega
      · exact ⟨y, List.mem_cons_of_mem _ (List.mem_cons_of_mem _ hyr), hyin, hyhi⟩
  · intro M hM s hs1 hs2
    obtain ⟨x, hxm, hxin, hxl, hxr⟩ := hconn M hM s hs1 hs2
    rcases List.mem_cons.mp hxm with rfl | hxr2
    · simp at hxl hxr
      by_cases hsa : s < a.hi
      · refine ⟨a, List.mem_cons_self _ _, winInside_trans ham hxin, ?_, hsa⟩
        exact hxl
      · refine ⟨b, List.mem_cons_of_mem _ (List.mem_cons_self _ _),
          winInside_trans hbm hxin, ?_, ?_⟩
        · omega
        · omega
    · exact ⟨x, List.mem_cons_of_mem _ (List.mem_cons_of_mem _ hxr2), hxin, hxl, hxr⟩

theorem canon_emit_step {a b : Win} {r Z : List Win} (hsepab : a.hi ≤ b.lo)
    (hpa : a.lo < a.hi) (hb : ∀ y ∈ r, winLe b y)
    (h : Canon (b :: r) Z) : Canon (a :: b :: r) (a :: Z) := by
  obtain ⟨hsep, hprop, hcov, hspan, hconn⟩ := h
  have hZlo : ∀ M ∈ Z, b.lo ≤ M.lo := by
    intro M hM
    obtain ⟨⟨x, hxm, hxin, hxlo⟩, _⟩ := hspan M hM
    rcases List.mem_cons.mp hxm with rfl | hxr
    · omega
    · have := hb x hxr
      unfold winLe at this
      omega
  constructor
  · rw [List.pairwise_cons]
    exact ⟨fun M hM => le_trans hsepab (hZlo M hM), hsep⟩
  refine ⟨?_, ?_, ?_, ?_⟩
  · intro M hM
    rcases List.mem_cons.mp hM with rfl | hM2
    · exact hpa
    · exact hprop M hM2
  · intro x hx
    rcases List.mem_cons.mp hx with rfl | hx2
    · exact ⟨_, List.mem_cons_self _ _, winInside_self _⟩
    · obtain ⟨M, hM, hin⟩ := hcov x hx2
      exact ⟨M, List.mem_cons_of_mem _ hM, hin⟩
  · intro M hM
    rcases List.mem_cons.mp hM with rfl | hM2
    · exact ⟨⟨M, List.mem_cons_self _ _, winInside_self M, rfl⟩,
        ⟨M, List.mem_cons_self _ _, winInside_self M, rfl⟩⟩
    · obtain ⟨⟨x, hxm, hxin, hxlo⟩, ⟨y, hym, hyin, hyhi⟩⟩ := hspan M hM2
      exact ⟨⟨x, List.mem_cons_of_mem _ hxm, hxin, hxlo⟩,
        ⟨y, List.mem_cons_of_mem _ hym, hyin, hyhi⟩⟩
  · intro M hM s hs1 hs2
    rcases List.mem_cons.mp hM with rfl | hM2
    · exact ⟨M, List.mem_cons_self _ _, winInside_self M, hs1, hs2⟩
    · obtain ⟨x, hxm, hxin, hxl, hxr⟩ := hconn M hM2 s hs1 hs2
      exact ⟨x, List.mem_cons_of_mem _ hxm, hxin, hxl, hxr⟩

theorem sweep_canon : ∀ (fuel : Nat) (S : List Win), S.length ≤ fuel + 1 →
    List.Pairwise winLe S → (∀ x ∈ S, x.lo < x.hi) → Canon S (sweep fuel S)
  | fuel, [], _, _, _ => by
      rw [show sweep fuel [] = [] from by cases fuel <;> rfl]
      refine ⟨List.Pairwise.nil, ?_, ?_, ?_, ?_⟩ <;> simp
  | fuel, [w], _, _, hp => by
      rw [show sweep fuel [w] = [w] from by cases fuel <;> rfl]
      refine ⟨?_, ?_, ?_, ?_, ?_⟩
      · simp
      · simpa using hp
      · intro x hx
        rw [List.mem_singleton.mp hx]
        exact ⟨w, List.mem_singleton.mpr rfl, winInside_self w⟩
      · intro M hM
        rw [List.mem_singleton.mp hM]
        exact ⟨⟨w, List.mem_singleton.mpr rfl, winInside_self w, rfl⟩,
          ⟨w, List.mem_singleton.mpr rfl, winInside_self w, rfl⟩⟩
      · intro M hM s hs1 hs2
        rw [List.mem_singleton.mp hM] at hs1 hs2 ⊢
        exact ⟨w, List.mem_singleton.mpr rfl, winInside_self w, hs1, hs2⟩
  | 0, a :: b :: r, hlen, _, _ => by
      simp at hlen
  | fuel + 1, a :: b :: r, hlen, hsort, hp => by
      rw [List.pairwise_cons] at hsort
      obtain ⟨ha, hsort2⟩ := hsort
      rw [List.pairwise_cons] at hsort2
      obtain ⟨hb, hsort3⟩ := hsort2
      have hpa : a.lo < a.hi := hp a (List.mem_cons_self _ _)
      have hpb : b.lo < b.hi := hp b (List.mem_cons_of_mem _ (List.mem_cons_self _ _))
      have hab : winLe a b := ha b (List.mem_cons_self _ _)
      by_cases hov : b.lo < a.hi
      · rw [show sweep (fuel + 1) (a :: b :: r) =
          sweep fuel (⟨a.lo, max a.hi b.hi⟩ :: r) from by simp [sweep, hov]]
        have hsort4 : List.Pairwise winLe ((⟨a.lo, max a.hi b.hi⟩ : Win) :: r) := by
          rw [List.pairwise_cons]
          refine ⟨?_, hsort3⟩
          intro y hy
          have h1 := ha y (List.mem_cons_of_mem _ hy)
          have h2 := hb y hy
          unfold winLe at h1 h2 hab ⊢
          simp at *
          omega
        have hp4 : ∀ x ∈ (⟨a.lo, max a.hi b.hi⟩ : Win) :: r, x.lo < x.hi := by
          intro x hx
          rcases List.mem_cons.mp hx with rfl | hx2
          · simp
            omega
          · exact hp x (List.mem_cons_of_mem _ (List.mem_cons_of_mem _ hx2))
        have ih := sweep_canon fuel (⟨a.lo, max a.hi b.hi⟩ :: r)
          (by simp at hlen ⊢; omega) hsort4 hp4
        exact canon_merge_step hov hab hpa hpb ih
      · rw [show sweep (fuel + 1) (a :: b :: r) =
          a :: sweep fuel (b :: r) from by simp [sweep, hov]]
        have hp4 : ∀ x ∈ b :: r, x.lo < x.hi := by
          intro x hx
          exact hp x (List.mem_cons_of_mem _ hx)
        have ih := sweep_canon fuel (b :: r)
          (by simp at hlen ⊢; omega) (List.pairwise_cons.mpr ⟨hb, hsort3⟩) hp4
        exact canon_emit_step (by omega) hpa hb ih

theorem pairwise_mem_cases {β : Type} {R : β → β → Prop} :
    ∀ {l : List β}, List.Pairwise R l → ∀ {a b : β}, a ∈ l → b ∈ l →
      a = b ∨ R a b ∨ R b a := by
  intro l hl
  induction hl with
  | nil =>
      intro a b ha _
      simp at ha
  | cons hx _ ih =>
      intro a b ha hb
      rcases List.mem_cons.mp ha with rfl | ha2
      · rcases List.mem_cons.mp hb with rfl | hb2
        · exact Or.inl rfl
        · exact Or.inr (Or.inl (hx b hb2))
      · rcases List.mem_cons.mp hb with rfl | hb2
        · exact Or.inr (Or.inr (hx a ha2))
        · exact ih ha2 hb2

theorem sep_container_unique {Z : List Win}
    (hsep : List.Pairwise (fun a b => a.hi ≤ b.lo) Z) {x : Win} (hx : x.lo < x.hi)
    {M1 M2 : Win} (h1 : M1 ∈ Z) (h2 : M2 ∈ Z)
    (hi1 : winInside x M1 = true) (hi2 : winInside x M2 = true) : M1 = M2 := by
  rw [winInside_iff] at hi1 hi2
  rcases pairwise_mem_cases hsep h1 h2 with h | h | h
  · exact h
  · omega
  · omega

theorem sep_nodup {Z : List Win} (hsep : List.Pairwise (fun a b => a.hi ≤ b.lo) Z)
    (hprop : ∀ M ∈ Z, M.lo < M.hi) : Z.Nodup := by
  induction Z with
  | nil => exact List.nodup_nil
  | cons a l ih =>
      rw [List.pairwise_cons] at hsep
      refine List.nodup_cons.mpr
        ⟨?_, ih hsep.2 (fun M hM => hprop M (List.mem_cons_of_mem _ hM))⟩
      intro hmem
      have h1 := hsep.1 a hmem
      have h2 := hprop a (List.mem_cons_self _ _)
      omega

theorem sep_ext : ∀ {Z1 Z2 : List Win},
    List.Pairwise (fun a b => a.hi ≤ b.lo) Z1 → (∀ M ∈ Z1, M.lo < M.hi) →
    List.Pairwise (fun a b => a.hi ≤ b.lo) Z2 → (∀ M ∈ Z2, M.lo < M.hi) →
    (∀ M, M ∈ Z1 ↔ M ∈ Z2) → Z1 = Z2
  | [], [], _, _, _, _, _ => rfl
  | [], b :: Z2, _, _, _, _, hmem => by
      exact absurd ((hmem b).mpr (List.mem_cons_self _ _)) (by simp)
  | a :: Z1, [], _, _, _, _, hmem => by
      exact absurd ((hmem a).mp (List.mem_cons_self _ _)) (by simp)
  | a :: Z1, b :: Z2, hs1, hp1, hs2, hp2, hmem => by
      rw [List.pairwise_cons] at hs1 hs2
      have hpa : a.lo < a.hi := hp1 a (List.mem_cons_self _ _)
      have hpb : b.lo < b.hi := hp2 b (List.mem_cons_self _ _)
      have hab : a = b := by
        rcases List.mem_cons.mp ((hmem a).mp (List.mem_cons_self _ _)) with h | hal2
        · exact h
        · have h1 : b.hi ≤ a.lo := hs2.1 a hal2
          rcases List.mem_cons.mp ((hmem b).mpr (List.mem_cons_self _ _)) with h | hbl1
          · exact h.symm
          · have h2 : a.hi ≤ b.lo := hs1.1 b hbl1
            omega
      subst hab
      have htl : ∀ M, M ∈ Z1 ↔ M ∈ Z2 := by
        intro M
        constructor
        · intro hM
          rcases List.mem_cons.mp ((hmem M).mp (List.mem_cons_of_mem _ hM)) with h | h
          · subst h
            have := hs1.1 M hM
            omega
          · exact h
        · intro hM
          rcases List.mem_cons.mp ((hmem M).mpr (List.mem_cons_of_mem _ hM)) with h | h
          · subst h
            have := hs2.1 M hM
            omega
          · exact h
      rw [sep_ext hs1.2 (fun M hM => hp1 M (List.mem_cons_of_mem _ hM))
        hs2.2 (fun M hM => hp2 M (List.mem_cons_of_mem _ hM)) htl]

theorem canon_congr {X Y Z : List Win} (hmem : ∀ w, w ∈ X ↔ w ∈ Y) (h : Canon X Z) :
    Canon Y Z := by
  obtain ⟨hsep, hprop, hcov, hspan, hconn⟩ := h
  refine ⟨hsep, hprop, ?_, ?_, ?_⟩
  · intro x hx
    exact hcov x ((hmem x).mpr hx)
  · intro M hM
    obtain ⟨⟨x, hxm, hxi, hxl⟩, ⟨y, hym, hyi, hyh⟩⟩ := hspan M hM
    exact ⟨⟨x, (hmem x).mp hxm, hxi, hxl⟩, ⟨y, (hmem y).mp hym, hyi, hyh⟩⟩
  · intro M hM s hs1 hs2
    obtain ⟨x, hxm, hxi, hl, hr⟩ := hconn M hM s hs1 hs2
    exact ⟨x, (hmem x).mp hxm, hxi, hl, hr⟩

theorem mergeWins_canon {X : List Win} (hp : ∀ x ∈ X, x.lo < x.hi) :
    Canon X (mergeWins X) := by
  have hperm := List.perm_insertionSort winLe X
  have hsort := List.sorted_insertionSort winLe X
  have hlen : (List.insertionSort winLe X).length = X.length := hperm.length_eq
  have hps : ∀ x ∈ List.insertionSort winLe X, x.lo < x.hi := by
    intro x hx
    exact hp x (hperm.mem_iff.mp hx)
  have h := sweep_canon X.length (List.insertionSort winLe X) (by omega) hsort hps
  unfold mergeWins
  exact canon_congr (fun w => hperm.mem_iff) h

theorem canon_nest {X Z1 Z2 : List Win} (h1 : Canon X Z1) (h2 : Canon X Z2)
    {x M1 M2 : Win} (hx : x ∈ X) (hxp : x.lo < x.hi) (hM1 : M1 ∈ Z1) (hM2 : M2 ∈ Z2)
    (hi1 : winInside x M1 = true) (hi2 : winInside x M2 = true) :
    winInside M1 M2 = true := by
  obtain ⟨hsep1, hprop1, hcov1, hspan1, hconn1⟩ := h1
  obtain ⟨hsep2, hprop2, hcov2, hspan2, hconn2⟩ := h2
  rw [winInside_iff] at hi1 hi2
  rw [winInside_iff]
  have hp2 := hprop2 M2 hM2
  constructor
  · by_contra hcon
    push_neg at hcon
    obtain ⟨y, hym, hyi, hyl, hyr⟩ := hconn1 M1 hM1 M2.lo hcon (by omega)
    obtain ⟨M2q, hM2q, hyi2⟩ := hcov2 y hym
    rw [winInside_iff] at hyi2
    rcases pairwise_mem_cases hsep2 hM2 hM2q with h | h | h
    · rw [← h] at hyi2
      omega
    · omega
    · omega
  · by_contra hcon
    push_neg at hcon
    obtain ⟨y, hym, hyi, hyl, hyr⟩ := hconn1 M1 hM1 M2.hi (by omega) hcon
    obtain ⟨M2q, hM2q, hyi2⟩ := hcov2 y hym
    rw [winInside_iff] at hyi2
    rcases pairwise_mem_cases hsep2 hM2 hM2q with h | h | h
    · rw [← h] at hyi2
      omega
    · omega
    · omega

theorem canon_mem {X Z1 Z2 : List Win} (hpX : ∀ x ∈ X, x.lo < x.hi)
    (h1 : Canon X Z1) (h2 : Canon X Z2) : ∀ M ∈ Z1, M ∈ Z2 := by
  intro M1 hM1
  obtain ⟨⟨x, hxm, hxi, hxlo⟩, _⟩ := h1.2.2.2.1 M1 hM1
  obtain ⟨M2, hM2, hxi2⟩ := h2.2.2.1 x hxm
  have hn1 : winInside M1 M2 = true := canon_nest h1 h2 hxm (hpX x hxm) hM1 hM2 hxi hxi2
  obtain ⟨⟨y, hym, hyi, hylo⟩, _⟩ := h2.2.2.2.1 M2 hM2
  obtain ⟨M1q, hM1q, hyi1⟩ := h1.2.2.1 y hym
  have hn2 : winInside M2 M1q = true := canon_nest h2 h1 hym (hpX y hym) hM2 hM1q hyi hyi1
  have hprop1 := h1.2.1 M1 hM1
  have hM1eq : M1 = M1q := by
    have hn1q := hn1
    have hn2q := hn2
    rw [winInside_iff] at hn1q hn2q
    rcases pairwise_mem_cases h1.1 hM1 hM1q with h | h | h
    · exact h
    · omega
    · omega
  rw [winInside_iff] at hn1 hn2
  rw [← hM1eq] at hn2
  have heq : M1 = M2 := by
    have h1lo : M1.lo = M2.lo := by omega
    have h1hi : M1.hi = M2.hi := by omega
    cases M1
    cases M2
    simp_all
  rw [heq]
  exact hM2

theorem canon_unique {X Z1 Z2 : List Win} (hpX : ∀ x ∈ X, x.lo < x.hi)
    (h1 : Canon X Z1) (h2 : Canon X Z2) : Z1 = Z2 :=
  sep_ext h1.1 h1.2.1 h2.1 h2.2.1
    (fun M => ⟨fun hm => canon_mem hpX h1 h2 M hm, fun hm => canon_mem hpX h2 h1 M hm⟩)

theorem canon_compose {X Y Z P : List Win} (h1 : Canon X Z) (h2 : Canon (Z ++ Y) P) :
    Canon (X ++ Y) P := by
  obtain ⟨hsep1, hprop1, hcov1, hspan1, hconn1⟩ := h1
  obtain ⟨hsep2, hprop2, hcov2, hspan2, hconn2⟩ := h2
  refine ⟨hsep2, hprop2, ?_, ?_, ?_⟩
  · intro x hx
    rcases List.mem_append.mp hx with hx | hx
    · obtain ⟨K, hK, hxK⟩ := hcov1 x hx
      obtain ⟨M, hM, hKM⟩ := hcov2 K (List.mem_append_left _ hK)
      exact ⟨M, hM, winInside_trans hxK hKM⟩
    · exact hcov2 x (List.mem_append_right _ hx)
  · intro M hM
    obtain ⟨⟨z, hzm, hzi, hzlo⟩, ⟨w, hwm, hwi, hwhi⟩⟩ := hspan2 M hM
    constructor
    · rcases List.mem_append.mp hzm with hz | hz
      · obtain ⟨⟨x, hxm, hxi, hxlo⟩, _⟩ := hspan1 z hz
        exact ⟨x, List.mem_append_left _ hxm, winInside_trans hxi hzi, by omega⟩
      · exact ⟨z, List.mem_append_right _ hz, hzi, hzlo⟩
    · rcases List.mem_append.mp hwm with hw | hw
      · obtain ⟨_, ⟨y, hym, hyi, hyhi⟩⟩ := hspan1 w hw
        exact ⟨y, List.mem_append_left _ hym, winInside_trans hyi hwi, by omega⟩
      · exact ⟨w, List.mem_append_right _ hw, hwi, hwhi⟩
  · intro M hM s hs1 hs2
    obtain ⟨z, hzm, hzi, hzl, hzr⟩ := hconn2 M hM s hs1 hs2
    rcases List.mem_append.mp hzm with hz | hz
    · obtain ⟨x, hxm, hxi, hxl, hxr⟩ := hconn1 z hz s hzl hzr
      exact ⟨x, List.mem_append_left _ hxm, winInside_trans hxi hzi, hxl, hxr⟩
    · exact ⟨z, List.mem_append_right _ hz, hzi, hzl, hzr⟩

theorem mergeWins_absorb {X Y : List Win} (hpX : ∀ x ∈ X, x.lo < x.hi)
    (hpY : ∀ y ∈ Y, y.lo < y.hi) :
    mergeWins (mergeWins X ++ Y) = mergeWins (X ++ Y) := by
  have h1 : Canon X (mergeWins X) := mergeWins_canon hpX
  have hpZY : ∀ z ∈ mergeWins X ++ Y, z.lo < z.hi := by
    intro z hz
    rcases List.mem_append.mp hz with hz | hz
    · exact h1.2.1 z hz
    · exact hpY z hz
  have hpXY : ∀ z ∈ X ++ Y, z.lo < z.hi := by
    intro z hz
    rcases List.mem_append.mp hz with hz | hz
    · exact hpX z hz
    · exact hpY z hz
  exact canon_unique hpXY (canon_compose h1 (mergeWins_canon hpZY)) (mergeWins_canon hpXY)

theorem mergeWins_congr {X Y : List Win} (hpX : ∀ x ∈ X, x.lo < x.hi)
    (hmem : ∀ w, w ∈ X ↔ w ∈ Y) : mergeWins X = mergeWins Y := by
  have hpY : ∀ y ∈ Y, y.lo < y.hi := fun y hy => hpX y ((hmem y).mpr hy)
  exact canon_unique hpY (canon_congr hmem (mergeWins_canon hpX)) (mergeWins_canon hpY)

theorem find_eq_of_unique {β : Type} {p : β → Bool} :
    ∀ {l : List β} {b : β}, b ∈ l → p b = true →
      (∀ c ∈ l, p c = true → c = b) → l.find? p = some b := by
  intro l
  induction l with
  | nil =>
      intro b hb
      simp at hb
  | cons a l ih =>
      intro b hb hpb huniq
      by_cases ha : p a = true
      · rw [List.find?_cons_of_pos _ ha]
        rw [huniq a (List.mem_cons_self _ _) ha]
      · rw [List.find?_cons_of_neg _ (by simpa using ha)]
        rcases List.mem_cons.mp hb with rfl | hb2
        · exact absurd hpb ha
        · exact ih hb2 hpb (fun c hc => huniq c (List.mem_cons_of_mem _ hc))

theorem mergeSt_watermarkOnly {t : Trig} (h : WatermarkOnly t) :
    mergeSt t (initSt t) (initSt t) = initSt t := by
  rcases h with h | h <;> subst h <;> rfl

theorem mergeEntries_fold {α : Type} {c : Cfg} (hW : WatermarkOnly c.trig) :
    ∀ (r : List (Entry α)) (b : Multiset α), (∀ e ∈ r, e.ts = initSt c.trig) →
      r.foldl (fun acc e2 => ⟨acc.buf + e2.buf, mergeSt c.trig acc.ts e2.ts, none⟩)
          (⟨b, initSt c.trig, none⟩ : Entry α) =
        ⟨b + (r.map Entry.buf).sum, initSt c.trig, none⟩
  | [], b, _ => by simp
  | e :: r, b, hr => by
      rw [List.foldl_cons]
      have he := hr e (List.mem_cons_self _ _)
      dsimp only
      rw [he, mergeSt_watermarkOnly hW,
        mergeEntries_fold hW r (b + e.buf) (fun e2 he2 => hr e2 (List.mem_cons_of_mem _ he2))]
      simp [add_assoc]

theorem mergeEntries_uniform {α : Type} {c : Cfg} (hW : WatermarkOnly c.trig) (M : Win)
    (es : List (Entry α)) (hne : es ≠ [])
    (hts : ∀ e ∈ es, e.ts = initSt c.trig) (htm : ∀ e ∈ es, e.timer.isSome = true) :
    mergeEntries c .minTS M es =
      some ⟨(es.map Entry.buf).sum, initSt c.trig, some M.hi⟩ := by
  cases es with
  | nil => exact absurd rfl hne
  | cons e0 r =>
      have h0 := hts e0 (List.mem_cons_self _ _)
      have hfold := mergeEntries_fold (α := α) hW r e0.buf
        (fun e2 he2 => hts e2 (List.mem_cons_of_mem _ he2))
      have hany : (e0 :: r).any (fun e => e.timer.isSome) = true := by
        simp only [List.any_cons, Bool.or_eq_true]
        exact Or.inl (htm e0 (List.mem_cons_self _ _))
      simp only [mergeEntries, h0, hfold, hany, if_true, List.map_cons, List.sum_cons]
      rw [timerGate_min hW]

theorem lookup_map_keys {α : Type} (F : Win → Entry α) :
    ∀ (ks : List Win), ks.Nodup → ∀ M : Win,
      lookupSt (ks.map (fun K => (K, F K))) M = if M ∈ ks then some (F M) else none
  | [], _, M => by simp [lookupSt]
  | K :: ks, hnd, M => by
      rw [List.map_cons, List.nodup_cons] at *
      by_cases hKM : K = M
      · subst hKM
        rw [lookupSt_cons_self, if_pos (List.mem_cons_self _ _)]
      · rw [lookupSt_cons_ne _ _ _ _ hKM, lookup_map_keys F ks hnd.2 M]
        have hiff : (M ∈ K :: ks) ↔ (M ∈ ks) := by
          constructor
          · intro h
            rcases List.mem_cons.mp h with h | h
            · exact absurd h.symm hKM
            · exact h
          · exact List.mem_cons_of_mem _
        by_cases hm : M ∈ ks
        · rw [if_pos hm, if_pos (hiff.mpr hm)]
        · rw [if_neg hm, if_neg (fun h => hm (hiff.mp h))]

theorem lookup_remap {α : Type} (c : Cfg) (w : WMark) (st : St α) :
    ∀ (part : List Win), part.Nodup → ∀ M : Win,
      lookupSt (remap c w st part) M =
        if M ∈ part
        then mergeEntries c w M ((st.filter (fun p => winInside p.1 M)).map Prod.snd)
        else none
  | [], _, M => by simp [remap, lookupSt]
  | N :: part, hnd, M => by
      rw [List.nodup_cons] at hnd
      cases hN : mergeEntries c w N ((st.filter (fun p => winInside p.1 N)).map Prod.snd) with
      | none =>
          have hstep : remap c w st (N :: part) = remap c w st part := by
            simp [remap, List.filterMap_cons, hN]
          rw [hstep, lookup_remap c w st part hnd.2 M]
          by_cases hMN : M = N
          · subst hMN
            rw [if_neg hnd.1, if_pos (List.mem_cons_self _ _), hN]
          · by_cases hm : M ∈ part
            · rw [if_pos hm, if_pos (List.mem_cons_of_mem _ hm)]
            · rw [if_neg hm, if_neg (fun h => by
                rcases List.mem_cons.mp h with h | h
                · exact hMN h
                · exact hm h)]
      | some e =>
          have hstep : remap c w st (N :: part) = (N, e) :: remap c w st part := by
            simp [remap, List.filterMap_cons, hN]
          rw [hstep]
          by_cases hMN : M = N
          · subst hMN
            rw [lookupSt_cons_self, if_pos (List.mem_cons_self _ _), hN]
          · rw [lookupSt_cons_ne _ _ _ _ (fun h => hMN h.symm),
              lookup_remap c w st part hnd.2 M]
            by_cases hm : M ∈ part
            · rw [if_pos hm, if_pos (List.mem_cons_of_mem _ hm)]
            · rw [if_neg hm, if_neg (fun h => by
                rcases List.mem_cons.mp h with h | h
                · exact hMN h
                · exact hm h)]

theorem remap_mem_keys {α : Type} {c : Cfg} {w : WMark} {st : St α} {part : List Win}
    {q : Win × Entry α} (hq : q ∈ remap c w st part) : q.1 ∈ part := by
  unfold remap at hq
  rw [List.mem_filterMap] at hq
  obtain ⟨M, hM, hMq⟩ := hq
  cases hE : mergeEntries c w M ((st.filter (fun p => winInside p.1 M)).map Prod.snd) with
  | none =>
      rw [hE] at hMq
      simp at hMq
  | some e =>
      rw [hE, Option.map_some'] at hMq
      injection hMq with h
      rw [← h]
      exact hM

theorem remap_sorted {α : Type} (c : Cfg) (w : WMark) (st : St α) :
    ∀ (part : List Win), List.Pairwise (fun a b => winLtB a b = true) part →
      StSorted (remap c w st part)
  | [], _ => by simp [remap, StSorted]
  | N :: part, hp => by
      rw [List.pairwise_cons] at hp
      cases hN : mergeEntries c w N ((st.filter (fun p => winInside p.1 N)).map Prod.snd) with
      | none =>
          have hstep : remap c w st (N :: part) = remap c w st part := by
            simp [remap, List.filterMap_cons, hN]
          rw [hstep]
          exact remap_sorted c w st part hp.2
      | some e =>
          have hstep : remap c w st (N :: part) = (N, e) :: remap c w st part := by
            simp [remap, List.filterMap_cons, hN]
          rw [hstep, StSorted, List.pairwise_cons]
          refine ⟨?_, remap_sorted c w st part hp.2⟩
          intro q hq
          exact hp.1 q.1 (remap_mem_keys hq)

theorem bufIn_nil {α : Type} (gap : Nat) (M : Win) :
    bufIn gap M ([] : List (Nat × α)) = 0 := rfl

theorem bufIn_cons {α : Type} (gap : Nat) (M : Win) (p : Nat × α) (l : List (Nat × α)) :
    bufIn gap M (p :: l) =
      (if winInside (assign (.sessionsW gap) p.1) M = true then {p.2} else 0) +
        bufIn gap M l := by
  unfold bufIn
  rw [List.filter_cons]
  by_cases h : winInside (assign (.sessionsW gap) p.1) M = true
  · rw [if_pos h, if_pos h, List.map_cons]
    rw [← Multiset.cons_coe, ← Multiset.singleton_add]
  · rw [if_neg h, if_neg h, zero_add]

theorem bufIn_append {α : Type} (gap : Nat) (M : Win) (l1 l2 : List (Nat × α)) :
    bufIn gap M (l1 ++ l2) = bufIn gap M l1 + bufIn gap M l2 := by
  unfold bufIn
  rw [List.filter_append, List.map_append]
  exact (Multiset.coe_add _ _).symm ▸ rfl

theorem mem_bufIn {α : Type} {gap : Nat} {M : Win} {l : List (Nat × α)} {p : Nat × α}
    (hp : p ∈ l) (hin : winInside (assign (.sessionsW gap) p.1) M = true) :
    p.2 ∈ bufIn gap M l := by
  unfold bufIn
  rw [Multiset.mem_coe, List.mem_map]
  exact ⟨p, List.mem_filter.mpr ⟨hp, hin⟩, rfl⟩

theorem sum_map_add_list {α β : Type} (f g : β → Multiset α) :
    ∀ l : List β, (l.map (fun k => f k + g k)).sum = (l.map f).sum + (l.map g).sum
  | [] => by simp
  | b :: l => by
      rw [List.map_cons, List.sum_cons, sum_map_add_list f g l, List.map_cons, List.sum_cons,
        List.map_cons, List.sum_cons]
      exact add_add_add_comm _ _ _ _

theorem sum_ite_unique {α : Type} (v : Multiset α) (q : Win → Bool) :
    ∀ (l : List Win), (∀ a ∈ l, ∀ b ∈ l, q a = true → q b = true → a = b) → l.Nodup →
      (l.map (fun k => if q k = true then v else 0)).sum = if l.any q = true then v else 0
  | [], _, _ => by simp
  | a :: l, hu, hnd => by
      rw [List.nodup_cons] at hnd
      rw [List.map_cons, List.sum_cons]
      by_cases ha : q a = true
      · rw [if_pos ha]
        have hall : ∀ k ∈ l, (if q k = true then v else (0 : Multiset α)) = 0 := by
          intro k hk
          have hqk : ¬(q k = true) := by
            intro hqk
            have hak : a = k :=
              hu a (List.mem_cons_self _ _) k (List.mem_cons_of_mem _ hk) ha hqk
            rw [← hak] at hk
            exact hnd.1 hk
          rw [if_neg hqk]
        have hz : (l.map (fun k => if q k = true then v else (0 : Multiset α))).sum = 0 := by
          apply List.sum_eq_zero
          intro x hx
          rw [List.mem_map] at hx
          obtain ⟨k, hk, rfl⟩ := hx
          exact hall k hk
        rw [hz, add_zero, if_pos (by simp [List.any_cons, ha])]
      · rw [if_neg ha, zero_add,
          sum_ite_unique v q l
            (fun x hx y hy => hu x (List.mem_cons_of_mem _ hx) y (List.mem_cons_of_mem _ hy))
            hnd.2]
        rw [Bool.not_eq_true] at ha
        simp [List.any_cons, ha]

theorem regroup {α : Type} (gap : Nat) (M : Win) (Z : List Win) (hnd : Z.Nodup) :
    ∀ l : List (Nat × α),
      (∀ p ∈ l, (winInside (assign (.sessionsW gap) p.1) M = true ↔
        ((Z.filter (fun K => winInside K M)).any
          (fun K => winInside (assign (.sessionsW gap) p.1) K)) = true)) →
      (∀ p ∈ l, ∀ K1 ∈ Z, ∀ K2 ∈ Z, winInside (assign (.sessionsW gap) p.1) K1 = true →
        winInside (assign (.sessionsW gap) p.1) K2 = true → K1 = K2) →
      ((Z.filter (fun K => winInside K M)).map (fun K => bufIn gap K l)).sum = bufIn gap M l
  | [], _, _ => by
      rw [bufIn_nil]
      apply List.sum_eq_zero
      intro x hx
      rw [List.mem_map] at hx
      obtain ⟨K, _, rfl⟩ := hx
      rfl
  | p :: l, hiff, hu => by
      have hrec := regroup gap M Z hnd l
        (fun q hq => hiff q (List.mem_cons_of_mem _ hq))
        (fun q hq => hu q (List.mem_cons_of_mem _ hq))
      have hmap : (Z.filter (fun K => winInside K M)).map (fun K => bufIn gap K (p :: l)) =
          (Z.filter (fun K => winInside K M)).map
            (fun K => (if winInside (assign (.sessionsW gap) p.1) K = true then {p.2} else 0)
              + bufIn gap K l) := by
        apply List.map_congr_left
        intro K _
        exact bufIn_cons gap K p l
      rw [hmap, sum_map_add_list, hrec, bufIn_cons,
        sum_ite_unique {p.2} (fun K => winInside (assign (.sessionsW gap) p.1) K)
          (Z.filter (fun K => winInside K M))
          (fun x hx y hy => hu p (List.mem_cons_self _ _) x (List.mem_filter.mp hx).1
            y (List.mem_filter.mp hy).1)
          (List.Nodup.filter _ hnd)]
      congr 1
      exact if_congr (hiff p (List.mem_cons_self _ _)).symm rfl rfl

theorem sep_winLtB {Z : List Win} (hsep : List.Pairwise (fun a b => a.hi ≤ b.lo) Z) :
    (∀ M ∈ Z, M.lo < M.hi) → List.Pairwise (fun a b => winLtB a b = true) Z := by
  induction hsep with
  | nil =>
      intro _
      exact List.Pairwise.nil
  | cons hx htl ih =>
      intro hprop
      refine List.Pairwise.cons ?_ (ih (fun M hM => hprop M (List.mem_cons_of_mem _ hM)))
      intro b hb
      have h1 := hx b hb
      have h2 := hprop _ (List.mem_cons_self _ _)
      rw [winLtB_iff]
      omega

theorem map_keys_sorted {α : Type} (F : Win → Entry α) {Z : List Win}
    (h : List.Pairwise (fun a b => winLtB a b = true) Z) :
    StSorted (Z.map (fun K => (K, F K))) := by
  unfold StSorted
  rw [List.pairwise_map]
  exact h

theorem canonSt_keys {α : Type} (gap : Nat) (t : Trig) (l : List (Nat × α)) :
    (canonSt gap t l).map Prod.fst =
      mergeWins (l.map (fun p => assign (.sessionsW gap) p.1)) := by
  unfold canonSt
  rw [List.map_map]
  exact List.map_id _

theorem canonSt_lookup {α : Type} (gap : Nat) (t : Trig) (l : List (Nat × α))
    (hnd : (mergeWins (l.map (fun p => assign (.sessionsW gap) p.1))).Nodup) (M : Win) :
    lookupSt (canonSt gap t l) M =
      if M ∈ mergeWins (l.map (fun p => assign (.sessionsW gap) p.1))
      then some ⟨bufIn gap M l, initSt t, some M.hi⟩ else none := by
  unfold canonSt
  exact lookup_map_keys _ _ hnd M

theorem lookup_ext {α : Type} :
    ∀ (s1 s2 : St α), StSorted s1 → StSorted s2 →
      (∀ W, lookupSt s1 W = lookupSt s2 W) → s1 = s2
  | [], [], _, _, _ => rfl
  | [], (w, e) :: r, _, _, hl => by
      have h := hl w
      rw [lookupSt_cons_self] at h
      simp [lookupSt] at h
  | (w, e) :: r, [], _, _, hl => by
      have h := hl w
      rw [lookupSt_cons_self] at h
      simp [lookupSt] at h
  | (w1, e1) :: r1, (w2, e2) :: r2, hs1, hs2, hl => by
      rw [StSorted, List.pairwise_cons] at hs1 hs2
      have hw : w1 = w2 := by
        by_contra hne
        by_cases hlt : winLtB w1 w2 = true
        · have h1 := hl w1
          rw [lookupSt_cons_self, lookupSt_cons_ne _ _ _ _ (fun h => hne h.symm)] at h1
          rw [lookup_none_of_all_gt _ _ (fun q hq => winLtB_trans hlt (hs2.1 q hq))] at h1
          simp at h1
        · have hlt2 := winLtB_total hne (by simpa using hlt)
          have h1 := hl w2
          rw [lookupSt_cons_self, lookupSt_cons_ne _ _ _ _ hne] at h1
          rw [lookup_none_of_all_gt _ _ (fun q hq => winLtB_trans hlt2 (hs1.1 q hq))] at h1
          simp at h1
      subst hw
      have he : e1 = e2 := by
        have h1 := hl w1
        rw [lookupSt_cons_self, lookupSt_cons_self] at h1
        exact Option.some.inj h1
      subst he
      have htl : ∀ W, lookupSt r1 W = lookupSt r2 W := by
        intro W
        by_cases hW : w1 = W
        · subst hW
          rw [lookup_none_of_all_gt _ _ (fun q hq => hs1.1 q hq),
            lookup_none_of_all_gt _ _ (fun q hq => hs2.1 q hq)]
        · have h := hl W
          rw [lookupSt_cons_ne _ _ _ _ hW, lookupSt_cons_ne _ _ _ _ hW] at h
          exact h
      rw [lookup_ext r1 r2 hs1.2 hs2.2 htl]

theorem remap_canonSt {α : Type} (gap : Nat) (t : Trig) (acc : Bool) (hgap : 0 < gap)
    (hW : WatermarkOnly t) (l : List (Nat × α)) (part : List Win)
    (hsep : List.Pairwise (fun a b => a.hi ≤ b.lo) part)
    (hprop : ∀ M ∈ part, M.lo < M.hi)
    (hcovZ : ∀ K ∈ mergeWins (l.map (fun p => assign (.sessionsW gap) p.1)),
      ∃ Mq ∈ part, winInside K Mq = true) (M : Win) :
    lookupSt (remap ⟨.sessionsW gap, t, acc⟩ .minTS (canonSt gap t l) part) M =
      if M ∈ part then cellIn gap t M l else none := by
  have hpl : ∀ x ∈ l.map (fun p => assign (.sessionsW gap) p.1), x.lo < x.hi := by
    intro x hx
    rw [List.mem_map] at hx
    obtain ⟨p, _, rfl⟩ := hx
    show p.1 < p.1 + gap
    omega
  have hZ := mergeWins_canon hpl
  have hndp : part.Nodup := sep_nodup hsep hprop
  rw [lookup_remap _ _ _ part hndp M]
  by_cases hm : M ∈ part
  · rw [if_pos hm, if_pos hm]
    have hKin : ∀ p ∈ l, winInside (assign (.sessionsW gap) p.1) M = true →
        ∃ K ∈ mergeWins (l.map (fun p2 => assign (.sessionsW gap) p2.1)),
          winInside (assign (.sessionsW gap) p.1) K = true ∧ winInside K M = true := by
      intro p hp hin
      obtain ⟨K, hK, hxK⟩ := hZ.2.2.1 _ (List.mem_map.mpr ⟨p, hp, rfl⟩)
      obtain ⟨Mq, hMq, hKMq⟩ := hcovZ K hK
      have hxp : (assign (.sessionsW gap) p.1).lo < (assign (.sessionsW gap) p.1).hi := by
        show p.1 < p.1 + gap
        omega
      have hMM : M = Mq :=
        sep_container_unique hsep hxp hm hMq hin (winInside_trans hxK hKMq)
      rw [← hMM] at hKMq
      exact ⟨K, hK, hxK, hKMq⟩
    have hfm : ((canonSt gap t l).filter (fun p => winInside p.1 M)).map Prod.snd =
        ((mergeWins (l.map (fun p => assign (.sessionsW gap) p.1))).filter
          (fun K => winInside K M)).map
          (fun K => (⟨bufIn gap K l, initSt t, some K.hi⟩ : Entry α)) := by
      unfold canonSt
      rw [List.filter_map, List.map_map]
      rfl
    by_cases hz : (mergeWins (l.map (fun p => assign (.sessionsW gap) p.1))).filter
        (fun K => winInside K M) = []
    · have hbuf : bufIn gap M l = 0 := by
        unfold bufIn
        rw [Multiset.coe_eq_zero, List.map_eq_nil_iff, List.filter_eq_nil_iff]
        intro p hp hin
        obtain ⟨K, hK, hxK, hKM⟩ := hKin p hp hin
        have hKmem : K ∈ (mergeWins (l.map (fun p2 =>
            assign (.sessionsW gap) p2.1))).filter (fun K2 => winInside K2 M) :=
          List.mem_filter.mpr ⟨hK, hKM⟩
        rw [hz] at hKmem
        simp at hKmem
      rw [hfm, hz, List.map_nil]
      unfold cellIn
      rw [hbuf]
      simp [mergeEntries]
    · obtain ⟨K0, hK0f⟩ := List.exists_mem_of_ne_nil _ hz
      have hK0 := List.mem_filter.mp hK0f
      obtain ⟨⟨x, hxm, hxK0, _⟩, _⟩ := hZ.2.2.2.1 K0 hK0.1
      rw [List.mem_map] at hxm
      obtain ⟨p0, hp0, rfl⟩ := hxm
      have hp0in : winInside (assign (.sessionsW gap) p0.1) M = true :=
        winInside_trans hxK0 hK0.2
      have hmem0 : p0.2 ∈ bufIn gap M l := mem_bufIn hp0 hp0in
      have hcard : ¬(Multiset.card (bufIn gap M l) = 0) := by
        intro h0
        rw [Multiset.card_eq_zero] at h0
        rw [h0] at hmem0
        simp at hmem0
      have hIff : ∀ p ∈ l, (winInside (assign (.sessionsW gap) p.1) M = true ↔
          (((mergeWins (l.map (fun p2 => assign (.sessionsW gap) p2.1))).filter
            (fun K => winInside K M)).any
            (fun K => winInside (assign (.sessionsW gap) p.1) K)) = true) := by
        intro p hp
        constructor
        · intro hin
          obtain ⟨K, hK, hxK, hKM⟩ := hKin p hp hin
          rw [List.any_eq_true]
          exact ⟨K, List.mem_filter.mpr ⟨hK, hKM⟩, hxK⟩
        · intro hany
          rw [List.any_eq_true] at hany
          obtain ⟨K, hKf, hxK⟩ := hany
          exact winInside_trans hxK (List.mem_filter.mp hKf).2
      have hUniq : ∀ p ∈ l, ∀ K1 ∈ mergeWins (l.map (fun p2 =>
          assign (.sessionsW gap) p2.1)), ∀ K2 ∈ mergeWins (l.map (fun p2 =>
          assign (.sessionsW gap) p2.1)),
          winInside (assign (.sessionsW gap) p.1) K1 = true →
          winInside (assign (.sessionsW gap) p.1) K2 = true → K1 = K2 := by
        intro p hp K1 hK1 K2 hK2 h1 h2
        have hxp : (assign (.sessionsW gap) p.1).lo < (assign (.sessionsW gap) p.1).hi := by
          show p.1 < p.1 + gap
          omega
        exact sep_container_unique hZ.1 hxp hK1 hK2 h1 h2
      rw [hfm, mergeEntries_uniform (c := (⟨.sessionsW gap, t, acc⟩ : Cfg)) hW M _
        (by simpa using hz)
        (by intro e he
            rw [List.mem_map] at he
            obtain ⟨K, _, rfl⟩ := he
            rfl)
        (by intro e he
            rw [List.mem_map] at he
            obtain ⟨K, _, rfl⟩ := he
            rfl), List.map_map]
      have hsum : ((mergeWins (l.map (fun p => assign (.sessionsW gap) p.1))).filter
          (fun K => winInside K M)).map
            (Entry.buf ∘ fun K => (⟨bufIn gap K l, initSt t, some K.hi⟩ : Entry α)) =
          ((mergeWins (l.map (fun p => assign (.sessionsW gap) p.1))).filter
            (fun K => winInside K M)).map (fun K => bufIn gap K l) := rfl
      rw [hsum, regroup gap M _ (sep_nodup hZ.1 hZ.2.1) l hIff hUniq]
      unfold cellIn
      rw [if_neg hcard]
  · rw [if_neg hm, if_neg hm]

theorem addFold_sessions {α : Type} (gap : Nat) (t : Trig) (acc : Bool)
    (hgap : 0 < gap) (hW : WatermarkOnly t) (part : List Win)
    (hsep : List.Pairwise (fun a b => a.hi ≤ b.lo) part) :
    ∀ (b d : List (Nat × α)) (s : St α), StSorted s →
      (∀ p ∈ b, ∃ Mq ∈ part, winInside (assign (.sessionsW gap) p.1) Mq = true) →
      (∀ M ∈ part, lookupSt s M = cellIn gap t M d) →
      (∀ M, M ∉ part → lookupSt s M = none) →
      StSorted (b.foldl (fun s2 p => addElem ⟨.sessionsW gap, t, acc⟩ .minTS s2
          (targetWin ⟨.sessionsW gap, t, acc⟩ part p.1) p.2) s) ∧
      (∀ M ∈ part, lookupSt (b.foldl (fun s2 p => addElem ⟨.sessionsW gap, t, acc⟩ .minTS s2
          (targetWin ⟨.sessionsW gap, t, acc⟩ part p.1) p.2) s) M =
            cellIn gap t M (d ++ b)) ∧
      (∀ M, M ∉ part → lookupSt (b.foldl (fun s2 p =>
          addElem ⟨.sessionsW gap, t, acc⟩ .minTS s2
            (targetWin ⟨.sessionsW gap, t, acc⟩ part p.1) p.2) s) M = none)
  | [], d, s, hs, _, hin, hout => by
      refine ⟨hs, ?_, hout⟩
      intro M hM
      rw [List.append_nil]
      exact hin M hM
  | p :: b, d, s, hs, hcov, hin, hout => by
      obtain ⟨Mp, hMp, hxMp⟩ := hcov p (List.mem_cons_self _ _)
      have hxp : (assign (.sessionsW gap) p.1).lo < (assign (.sessionsW gap) p.1).hi := by
        show p.1 < p.1 + gap
        omega
      have htw : targetWin ⟨.sessionsW gap, t, acc⟩ part p.1 = Mp := by
        show (part.find? (fun Mq => winInside (assign (.sessionsW gap) p.1) Mq)).getD
          (assign (.sessionsW gap) p.1) = Mp
        rw [find_eq_of_unique hMp hxMp
          (fun C hC hxC => sep_container_unique hsep hxp hC hMp hxC hxMp)]
        rfl
      have hs1 : StSorted (addElem ⟨.sessionsW gap, t, acc⟩ .minTS s
          (targetWin ⟨.sessionsW gap, t, acc⟩ part p.1) p.2) := by
        unfold addElem
        exact upsert_sorted _ _ s hs
      have hin1 : ∀ M ∈ part, lookupSt (addElem ⟨.sessionsW gap, t, acc⟩ .minTS s
          (targetWin ⟨.sessionsW gap, t, acc⟩ part p.1) p.2) M =
            cellIn gap t M (d ++ [p]) := by
        intro M hM
        by_cases hMMp : M = Mp
        · subst hMMp
          unfold addElem
          rw [htw, lookup_upsert_self _ _ s hs]
          by_cases hc0 : Multiset.card (bufIn gap M d) = 0
          · have hlookup : lookupSt s M = none := by
              rw [hin M hM]
              unfold cellIn
              rw [if_pos hc0]
            rw [hlookup]
            have hb0 : bufIn gap M d = 0 := Multiset.card_eq_zero.mp hc0
            have hba : bufIn gap M (d ++ [p]) = {p.2} := by
              rw [bufIn_append, hb0, zero_add, bufIn_cons, bufIn_nil, add_zero, if_pos hxMp]
            have hcell : cellIn gap t M (d ++ [p]) = some ⟨{p.2}, initSt t, some M.hi⟩ := by
              unfold cellIn
              rw [hba, if_neg (by simp)]
            rw [hcell]
            show some (⟨{p.2}, onElem t (initSt t),
              timerGate ⟨.sessionsW gap, t, acc⟩ .minTS M none⟩ : Entry α) = _
            rw [onElem_watermarkOnly hW, timerGate_min (c := ⟨.sessionsW gap, t, acc⟩) hW]
          · have hlookup : lookupSt s M = some ⟨bufIn gap M d, initSt t, some M.hi⟩ := by
              rw [hin M hM]
              unfold cellIn
              rw [if_neg hc0]
            rw [hlookup]
            have hba : bufIn gap M (d ++ [p]) = bufIn gap M d + {p.2} := by
              rw [bufIn_append, bufIn_cons, bufIn_nil, add_zero, if_pos hxMp]
            have hcell : cellIn gap t M (d ++ [p]) =
                some ⟨bufIn gap M d + {p.2}, initSt t, some M.hi⟩ := by
              unfold cellIn
              rw [hba, if_neg (by simp)]
            rw [hcell]
            show some (⟨p.2 ::ₘ bufIn gap M d, onElem t (initSt t),
              timerGate ⟨.sessionsW gap, t, acc⟩ .minTS M (some M.hi)⟩ : Entry α) = _
            rw [onElem_watermarkOnly hW, timerGate_min (c := ⟨.sessionsW gap, t, acc⟩) hW,
              show p.2 ::ₘ bufIn gap M d = bufIn gap M d + {p.2} from by
                rw [← Multiset.singleton_add, add_comm]]
        · unfold addElem
          rw [htw, lookup_upsert_ne _ _ hMMp _ s, hin M hM]
          have hnot : ¬ winInside (assign (.sessionsW gap) p.1) M = true := by
            intro hin2
            exact hMMp (sep_container_unique hsep hxp hM hMp hin2 hxMp)
          have hba : bufIn gap M (d ++ [p]) = bufIn gap M d := by
            rw [bufIn_append, bufIn_cons, bufIn_nil, add_zero, if_neg hnot, add_zero]
          unfold cellIn
          rw [hba]
      have hout1 : ∀ M, M ∉ part → lookupSt (addElem ⟨.sessionsW gap, t, acc⟩ .minTS s
          (targetWin ⟨.sessionsW gap, t, acc⟩ part p.1) p.2) M = none := by
        intro M hM
        have hMMp : M ≠ Mp := fun h => hM (h ▸ hMp)
        unfold addElem
        rw [htw, lookup_upsert_ne _ _ hMMp _ s]
        exact hout M hM
      rw [List.foldl_cons]
      have hrec := addFold_sessions gap t acc hgap hW part hsep b (d ++ [p]) _
        hs1 (fun q hq => hcov q (List.mem_cons_of_mem _ hq)) hin1 hout1
      rw [List.append_assoc, List.singleton_append] at hrec
      exact hrec

theorem processBundle_sessions {α : Type} (gap : Nat) (t : Trig) (acc : Bool)
    (hgap : 0 < gap) (hW : WatermarkOnly t) (l b : List (Nat × α)) :
    processBundle ⟨.sessionsW gap, t, acc⟩ .minTS (canonSt gap t l) b =
      (canonSt gap t (l ++ b), []) := by
  have hgen : ∀ (d : List (Nat × α)), ∀ x ∈ d.map (fun p => assign (.sessionsW gap) p.1),
      x.lo < x.hi := by
    intro d x hx
    rw [List.mem_map] at hx
    obtain ⟨p, _, rfl⟩ := hx
    show p.1 < p.1 + gap
    omega
  have hpl := hgen l
  have hpb := hgen b
  have hplb := hgen (l ++ b)
  have hZ := mergeWins_canon hpl
  have hpZb : ∀ z ∈ mergeWins (l.map (fun p => assign (.sessionsW gap) p.1)) ++
      b.map (fun p => assign (.sessionsW gap) p.1), z.lo < z.hi := by
    intro z hz
    rcases List.mem_append.mp hz with hz | hz
    · exact hZ.2.1 z hz
    · exact hpb z hz
  have hmapapp : (l ++ b).map (fun p => assign (.sessionsW gap) p.1) =
      l.map (fun p => assign (.sessionsW gap) p.1) ++
        b.map (fun p => assign (.sessionsW gap) p.1) := List.map_append _ _ _
  have habsorb : mergeWins (mergeWins (l.map (fun p => assign (.sessionsW gap) p.1)) ++
      b.map (fun p => assign (.sessionsW gap) p.1)) =
      mergeWins ((l ++ b).map (fun p => assign (.sessionsW gap) p.1)) := by
    rw [mergeWins_absorb hpl hpb, ← hmapapp]
  have hPart : Canon ((l ++ b).map (fun p => assign (.sessionsW gap) p.1))
      (mergeWins ((l ++ b).map (fun p => assign (.sessionsW gap) p.1))) :=
    mergeWins_canon hplb
  have hPart2 : Canon (mergeWins (l.map (fun p => assign (.sessionsW gap) p.1)) ++
      b.map (fun p => assign (.sessionsW gap) p.1))
      (mergeWins ((l ++ b).map (fun p => assign (.sessionsW gap) p.1))) := by
    rw [← habsorb]
    exact mergeWins_canon hpZb
  have hcovZ : ∀ K ∈ mergeWins (l.map (fun p => assign (.sessionsW gap) p.1)),
      ∃ Mq ∈ mergeWins ((l ++ b).map (fun p => assign (.sessionsW gap) p.1)),
        winInside K Mq = true :=
    fun K hK => hPart2.2.2.1 K (List.mem_append_left _ hK)
  have hsepP := hPart.1
  have hpropP := hPart.2.1
  have hndP : (mergeWins ((l ++ b).map (fun p => assign (.sessionsW gap) p.1))).Nodup :=
    sep_nodup hsepP hpropP
  simp only [processBundle, mergeableW, eq_self_iff_true, if_true]
  rw [fireFold_min ⟨.sessionsW gap, t, acc⟩ hW]
  rw [canonSt_keys gap t l, habsorb]
  simp only [Prod.mk.injEq]
  refine ⟨?_, trivial⟩
  have hsort1 : StSorted (remap ⟨.sessionsW gap, t, acc⟩ .minTS (canonSt gap t l)
      (mergeWins ((l ++ b).map (fun p => assign (.sessionsW gap) p.1)))) :=
    remap_sorted _ _ _ _ (sep_winLtB hsepP hpropP)
  have hin1 : ∀ M ∈ mergeWins ((l ++ b).map (fun p => assign (.sessionsW gap) p.1)),
      lookupSt (remap ⟨.sessionsW gap, t, acc⟩ .minTS (canonSt gap t l)
        (mergeWins ((l ++ b).map (fun p => assign (.sessionsW gap) p.1)))) M =
        cellIn gap t M l := by
    intro M hM
    rw [remap_canonSt gap t acc hgap hW l _ hsepP hpropP hcovZ M, if_pos hM]
  have hout1 : ∀ M, M ∉ mergeWins ((l ++ b).map (fun p => assign (.sessionsW gap) p.1)) →
      lookupSt (remap ⟨.sessionsW gap, t, acc⟩ .minTS (canonSt gap t l)
        (mergeWins ((l ++ b).map (fun p => assign (.sessionsW gap) p.1)))) M = none := by
    intro M hM
    rw [remap_canonSt gap t acc hgap hW l _ hsepP hpropP hcovZ M, if_neg hM]
  have hcovb : ∀ p ∈ b, ∃ Mq ∈ mergeWins ((l ++ b).map (fun q =>
      assign (.sessionsW gap) q.1)), winInside (assign (.sessionsW gap) p.1) Mq = true := by
    intro p hp
    exact hPart.2.2.1 _ (List.mem_map.mpr ⟨p, List.mem_append_right _ hp, rfl⟩)
  obtain ⟨hsort2, hin2, hout2⟩ := addFold_sessions gap t acc hgap hW _ hsepP b l _
    hsort1 hcovb hin1 hout1
  have hsCanon : StSorted (canonSt gap t (l ++ b)) := by
    unfold canonSt
    exact map_keys_sorted _ (sep_winLtB hsepP hpropP)
  apply lookup_ext _ _ hsort2 hsCanon
  intro W
  rw [canonSt_lookup gap t (l ++ b) hndP W]
  by_cases hm : W ∈ mergeWins ((l ++ b).map (fun p => assign (.sessionsW gap) p.1))
  · rw [hin2 W hm, if_pos hm]
    obtain ⟨⟨x, hxm, hxW, _⟩, _⟩ := hPart.2.2.2.1 W hm
    rw [List.mem_map] at hxm
    obtain ⟨p0, hp0, rfl⟩ := hxm
    have hmem0 : p0.2 ∈ bufIn gap W (l ++ b) := mem_bufIn hp0 hxW
    unfold cellIn
    rw [if_neg (fun h0 => by
      rw [Multiset.card_eq_zero] at h0
      rw [h0] at hmem0
      simp at hmem0)]
  · rw [hout2 W hm, if_neg hm]

theorem runBundles_sessions {α : Type} (gap : Nat) (t : Trig) (acc : Bool)
    (hgap : 0 < gap) (hW : WatermarkOnly t) :
    ∀ (bs : List (List (Nat × α))) (l : List (Nat × α)),
      runBundles ⟨.sessionsW gap, t, acc⟩ .minTS (canonSt gap t l) bs =
        (canonSt gap t (l ++ bs.flatten), [])
  | [], l => by simp [runBundles]
  | b :: bs, l => by
      have hstep := processBundle_sessions gap t acc hgap hW l b
      have ih := runBundles_sessions gap t acc hgap hW bs (l ++ b)
      simp only [runBundles, List.foldl_cons] at *
      rw [hstep]
      simp only [List.nil_append]
      rw [ih, List.flatten_cons, List.append_assoc]

theorem canonSt_reverse {α : Type} (gap : Nat) (t : Trig) (hgap : 0 < gap)
    (l : List (Nat × α)) : canonSt gap t l.reverse = canonSt gap t l := by
  have hpl : ∀ x ∈ l.map (fun p => assign (.sessionsW gap) p.1), x.lo < x.hi := by
    intro x hx
    rw [List.mem_map] at hx
    obtain ⟨p, _, rfl⟩ := hx
    show p.1 < p.1 + gap
    omega
  have hbuf : ∀ M, bufIn gap M l.reverse = bufIn gap M l := by
    intro M
    unfold bufIn
    rw [List.filter_reverse, List.map_reverse]
    exact Multiset.coe_reverse _
  have hmw : mergeWins (l.reverse.map (fun p => assign (.sessionsW gap) p.1)) =
      mergeWins (l.map (fun p => assign (.sessionsW gap) p.1)) := by
    apply mergeWins_congr
    · intro x hx
      rw [List.map_reverse, List.mem_reverse] at hx
      exact hpl x hx
    · intro w
      rw [List.map_reverse, List.mem_reverse]
  unfold canonSt
  rw [hmw]
  apply List.map_congr_left
  intro M _
  rw [hbuf M]

theorem sessions_bundling {α : Type} (gap : Nat) (t : Trig) (acc : Bool)
    (data : List (Nat × α)) (g : Int) (hgap : 0 < gap) (hW : WatermarkOnly t) :
    runSimple ⟨.sessionsW gap, t, acc⟩ data [] g =
      runSimple ⟨.sessionsW gap, t, acc⟩ data [] 1 := by
  have hlate : ∀ g2 : Int, bundleData ([] : List (Nat × α)) g2 = [] := by
    intro g2
    unfold bundleData chunkList
    split <;> rfl
  have hrun : ∀ g2 : Int, runBundles ⟨.sessionsW gap, t, acc⟩ .minTS ([] : St α)
      (bundleData data g2) = (canonSt gap t data, []) := by
    intro g2
    have h0 : ([] : St α) = canonSt gap t [] := rfl
    rw [h0, runBundles_sessions gap t acc hgap hW, bundleData_flatten, List.nil_append]
    split
    · rw [canonSt_reverse gap t hgap]
    · rfl
  unfold runSimple runTrigger
  rw [hlate g, hlate 1, hrun g, hrun 1]

/-! Claim theorems. -/

/-- C6: for every constructible trigger tree, at any nesting depth, decoding
the encoded wire representation yields the original trigger:
decodeT (encT t) = some t. -/
theorem trigger_wire_roundtrip_C6 : ∀ t : Trig, decodeT (encT t) = some t := by
  intro t
  unfold decodeT
  have h := parT_encT t ((encT t).length + 1) []
    (le_trans (sizeT_le_encT_length t) (Nat.le_succ _))
  rw [List.append_nil] at h
  rw [h]

/-- C9 counterexample: the wire round trip is not the identity on every
concrete environment value — an ExternalEnvironment whose params is the
empty dict encodes to an empty proto map and decodes with params None, a
different value. -/
theorem env_roundtrip_C9_counterexample :
    roundTripEnv (.external "grpc://localhost:50000" (some [])) ≠
      some (.external "grpc://localhost:50000" (some [])) := by decide

/-- C9 (amended): the wire round trip
fromRunnerApi (toRunnerApi e) = some e, dispatched through the urn-keyed
constructor registry, is the identity on every environment value the Python
constructors produce: docker images are non-empty (a falsy image is replaced
by the default at construction), external params are None or a non-empty
dict (an empty dict is indistinguishable from None on the wire), and the
grpc num_workers and state_cache_size are both set or both None. -/
theorem env_roundtrip_C9 : ∀ e : Environment, Constructible e → roundTripEnv e = some e := by
  intro e hc
  cases e with
  | docker img =>
      simp only [Constructible] at hc
      simp only [roundTripEnv, toRunnerApi, toRunnerApiParameter, Except.map]
      rw [fromRunnerApi_docker]
      simp [dockerFromPayload, mkDockerStr, hc]
  | process cmd os arch env =>
      simp only [roundTripEnv, toRunnerApi, toRunnerApiParameter, Except.map]
      rw [fromRunnerApi_process]
      rfl
  | external url params =>
      simp only [Constructible] at hc
      cases params with
      | none =>
          simp only [roundTripEnv, toRunnerApi, toRunnerApiParameter, Except.map]
          rw [fromRunnerApi_external]
          rfl
      | some ps =>
          have hps : ps ≠ [] := fun h => hc (by rw [h])
          simp only [roundTripEnv, toRunnerApi, toRunnerApiParameter, Except.map]
          rw [fromRunnerApi_external]
          simp [externalFromPayload, hps]
  | embeddedPython => rfl
  | embeddedPythonGrpc nw sc =>
      simp only [Constructible] at hc
      rcases nw with _ | n <;> rcases sc with _ | s <;> simp only [Option.isSome] at hc
      · rfl
      · exact absurd hc (by simp)
      · exact absurd hc (by simp)
      · simp only [roundTripEnv, toRunnerApi, toRunnerApiParameter, grpcToParam, Except.map]
        rw [fromRunnerApi_grpc, grpcFromPayload_pair]
  | subprocessSDK cmd =>
      simp only [roundTripEnv, toRunnerApi, toRunnerApiParameter, Except.map]
      rw [fromRunnerApi_subprocess]
      simp [subprocessFromPayload, strOfBytes_strToBytes]

/-- Witness for C9: a configured grpc environment is constructible and round
trips to itself. -/
theorem env_roundtrip_C9_witness :
    Constructible (.embeddedPythonGrpc (some 2) (some 30)) ∧
      roundTripEnv (.embeddedPythonGrpc (some 2) (some 30)) =
        some (.embeddedPythonGrpc (some 2) (some 30)) :=
  ⟨rfl, env_roundtrip_C9 _ rfl⟩

/-- C10: EmbeddedPythonGrpcEnvironment.to_runner_api_parameter raises a
ValueError exactly when one of num_workers and state_cache_size is None and
the other is set; with both None it produces the empty payload, and with
both set the byte payload num_workers comma state_cache_size. -/
theorem grpc_to_param_C10 : ∀ nw sc : Option Nat,
    (isErrorE (grpcToParam nw sc) = true ↔ nw.isNone ≠ sc.isNone) ∧
    (nw = none → sc = none →
      grpcToParam nw sc = .ok (embeddedPythonGrpcUrn, .bytesP [])) ∧
    (∀ n s, nw = some n → sc = some s →
      grpcToParam nw sc =
        .ok (embeddedPythonGrpcUrn, .bytesP (natToBytes n ++ 44 :: natToBytes s))) := by
  intro nw sc
  rcases nw with _ | n <;> rcases sc with _ | s <;>
    simp [grpcToParam, isErrorE]

/-- Witness for C10: the fully configured case encodes to the decimal comma
payload, and a half-configured case raises. -/
theorem grpc_to_param_C10_witness :
    grpcToParam (some 2) (some 30) =
      .ok (embeddedPythonGrpcUrn, .bytesP (natToBytes 2 ++ 44 :: natToBytes 30)) ∧
    isErrorE (grpcToParam none (some 5)) = true :=
  ⟨(grpc_to_param_C10 (some 2) (some 30)).2.2 2 30 rfl rfl,
   ((grpc_to_param_C10 none (some 5)).1).mpr (by decide)⟩

/-- C2: with FixedWindows(100), AfterWatermark(early=AfterCount(3),
late=AfterCount(2)) and DISCARDING accumulation, elements a..i at
timestamps 0..8 followed by the watermark advance and late elements v..z at
timestamps 0..4 emit for window [0,100) exactly the panes {a,b,c,d} and
{e,f,g,h} EARLY, {i} ON_TIME, {v,w} and {x,y} LATE, and z stays buffered
unemitted. -/
theorem early_late_scenario_C2 :
    runSimple ⟨.fixedW 100, .afterWatermark (.afterCount 3) (.afterCount 2), false⟩
        [(0,'a'),(1,'b'),(2,'c'),(3,'d'),(4,'e'),(5,'f'),(6,'g'),(7,'h'),(8,'i')]
        [(0,'v'),(1,'w'),(2,'x'),(3,'y'),(4,'z')] 2 =
      [⟨⟨0,100⟩, ↑['a','b','c','d'], .early⟩,
       ⟨⟨0,100⟩, ↑['e','f','g','h'], .early⟩,
       ⟨⟨0,100⟩, ↑['i'], .onTime⟩,
       ⟨⟨0,100⟩, ↑['v','w'], .late⟩,
       ⟨⟨0,100⟩, ↑['x','y'], .late⟩] ∧
    (lookupSt (runSimpleFull
        ⟨.fixedW 100, .afterWatermark (.afterCount 3) (.afterCount 2), false⟩
        [(0,'a'),(1,'b'),(2,'c'),(3,'d'),(4,'e'),(5,'f'),(6,'g'),(7,'h'),(8,'i')]
        [(0,'v'),(1,'w'),(2,'x'),(3,'y'),(4,'z')] 2).1 ⟨0,100⟩).map Entry.buf =
      some ↑['z'] :=
  ⟨by decide, by decide⟩

/-- C5: with Sessions(10) and AfterWatermark, elements a,b,c,d at timestamps
1,15,7,30 merge transitively into exactly the windows [1,25) and [30,40)
whose on-time panes hold {a,b,c} and {d}, in whichever order the elements
arrive. -/
theorem sessions_merge_C5 :
    ∀ l, l.Perm [(1,'a'),(15,'b'),(7,'c'),(30,'d')] →
      runSimple ⟨.sessionsW 10, .afterWatermark .noneT .noneT, true⟩ l [] 1 =
        [⟨⟨1,25⟩, ↑['a','b','c'], .onTime⟩, ⟨⟨30,40⟩, ↑['d'], .onTime⟩] := by
  have h : ∀ l ∈ ([(1,'a'),(15,'b'),(7,'c'),(30,'d')] : List (Nat × Char)).permutations',
      runSimple ⟨.sessionsW 10, .afterWatermark .noneT .noneT, true⟩ l [] 1 =
        [⟨⟨1,25⟩, ↑['a','b','c'], .onTime⟩, ⟨⟨30,40⟩, ↑['d'], .onTime⟩] := by decide
  intro l hl
  exact h l (List.mem_permutations'.mpr hl)

/-- Witness for C5: the reversed arrival order is a permutation of the input
and produces the merged windows and panes. -/
theorem sessions_merge_C5_witness :
    ([(30,'d'),(7,'c'),(15,'b'),(1,'a')] : List (Nat × Char)).Perm
        [(1,'a'),(15,'b'),(7,'c'),(30,'d')] ∧
      runSimple ⟨.sessionsW 10, .afterWatermark .noneT .noneT, true⟩
          [(30,'d'),(7,'c'),(15,'b'),(1,'a')] [] 1 =
        [⟨⟨1,25⟩, ↑['a','b','c'], .onTime⟩, ⟨⟨30,40⟩, ↑['d'], .onTime⟩] :=
  ⟨by decide, sessions_merge_C5 _ (by decide)⟩

/-- C7 counterexample: the accumulated AfterCount state does not persist
across Repeatedly firings — with Repeatedly(AfterCount(3)) over a,b,c,d the
window fires once at {a,b,c} and the stored count afterwards is 1 (only d),
not 4, so no second pane fires at the fourth element as a persistent count
would force. -/
theorem repeatedly_count_C7_counterexample :
    runSimple ⟨.fixedW 100, .repeatedly (.afterCount 3), true⟩
        [(0,'a'),(1,'b'),(2,'c'),(3,'d')] [] 1 =
      [⟨⟨0,100⟩, ↑['a','b','c'], .early⟩] ∧
    (lookupSt (runSimpleFull ⟨.fixedW 100, .repeatedly (.afterCount 3), true⟩
        [(0,'a'),(1,'b'),(2,'c'),(3,'d')] [] 1).1 ⟨0,100⟩).map Entry.ts =
      some (.repS (.count 1 false)) :=
  ⟨by decide, by decide⟩

/-- C7 (amended): on fire, Repeatedly re-arms its AfterCount child by
resetting the count (the state right after a firing is count 0), so the
window refires only after n further elements; what persists and grows across
repeated firings is the buffered pane content under ACCUMULATING, as in
test_repeatedly_after_first. -/
theorem repeatedly_rearm_C7 :
    runSimple
        ⟨.fixedW 100, .repeatedly (.afterAny (.afterCount 3) (.afterWatermark .noneT .noneT)),
         true⟩
        [(0,'a'),(1,'b'),(2,'c'),(3,'d'),(4,'e'),(5,'f'),(6,'g')]
        [(0,'x'),(1,'y'),(2,'z')] 1 =
      [⟨⟨0,100⟩, ↑['a','b','c'], .early⟩,
       ⟨⟨0,100⟩, ↑['a','b','c','d','e','f'], .early⟩,
       ⟨⟨0,100⟩, ↑['a','b','c','d','e','f','g'], .onTime⟩,
       ⟨⟨0,100⟩, ↑['a','b','c','d','e','f','g','x'], .late⟩,
       ⟨⟨0,100⟩, ↑['a','b','c','d','e','f','g','x','y'], .late⟩,
       ⟨⟨0,100⟩, ↑['a','b','c','d','e','f','g','x','y','z'], .late⟩] ∧
    (lookupSt (runSimpleFull ⟨.fixedW 100, .repeatedly (.afterCount 3), true⟩
        [(0,'a'),(1,'b'),(2,'c')] [] 1).1 ⟨0,100⟩).map Entry.ts =
      some (.repS (.count 0 false)) :=
  ⟨by decide, by decide⟩

theorem fixedW_bundling {α : Type} (sz : Nat) (t : Trig) (acc : Bool)
    (data : List (Nat × α)) (g : Int) (h : WatermarkOnly t) :
    runSimple ⟨.fixedW sz, t, acc⟩ data [] g = runSimple ⟨.fixedW sz, t, acc⟩ data [] 1 := by
  set c : Cfg := ⟨.fixedW sz, t, acc⟩ with hc
  have hw : c.wfn = .fixedW sz := rfl
  have ht : WatermarkOnly c.trig := h
  have hlate : ∀ g' : Int, bundleData ([] : List (Nat × α)) g' = [] := by
    intro g'
    unfold bundleData chunkList
    split <;> rfl
  have hrun : ∀ g' : Int, runBundles c .minTS ([] : St α) (bundleData data g') =
      (data.foldl (fun s p => addElem c .minTS s (assign c.wfn p.1) p.2) [], []) := by
    intro g'
    rw [runBundles_fixed_min c sz hw ht, bundleData_flatten]
    split
    · rw [foldl_reverse_comm _ (fun s a b => addElem_comm c ht s a b)]
    · rfl
  unfold runSimple runTrigger
  rw [hlate g, hlate 1, hrun g, hrun 1]

/-- C1 (amended): for watermark-driven triggers (DefaultTrigger or a bare
AfterWatermark) the emitted panes are identical whatever the bundling of the
input — one bundle, any uniform chunking, or the reversed order — for every
window function of the model: fixed windows of any size and sessions with a
positive gap.  Count-based triggers are bundle-boundary sensitive, and a
zero session gap (whose candidate windows are empty) is also
bundle-boundary sensitive (see the counterexample), so the invariance is
exactly the watermark-driven case over proper windows. -/
theorem watermark_bundling_C1 {α : Type} (wfn : WFn) (t : Trig) (acc : Bool)
    (data : List (Nat × α)) (g : Int) (h : WatermarkOnly t) (hw : properWFn wfn) :
    runSimple ⟨wfn, t, acc⟩ data [] g = runSimple ⟨wfn, t, acc⟩ data [] 1 := by
  cases wfn with
  | fixedW sz => exact fixedW_bundling sz t acc data g h
  | sessionsW gap => exact sessions_bundling gap t acc data g hw h

/-- Witness for C1: with Sessions(10) and the DefaultTrigger, the elements
at 1, 15 and 7 delivered reversed in bundles of two emit the same panes as
singleton bundles in order; the trigger is watermark-driven and the gap is
positive. -/
theorem watermark_bundling_C1_witness :
    WatermarkOnly .default ∧ properWFn (.sessionsW 10) ∧
      runSimple ⟨.sessionsW 10, .default, true⟩ [(1,'a'),(15,'b'),(7,'c')] [] (-2) =
        runSimple ⟨.sessionsW 10, .default, true⟩ [(1,'a'),(15,'b'),(7,'c')] [] 1 := by
  refine ⟨Or.inl rfl, ?_, ?_⟩
  · show 0 < 10
    decide
  · exact watermark_bundling_C1 (.sessionsW 10) .default true [(1,'a'),(15,'b'),(7,'c')]
      (-2) (Or.inl rfl) (by show 0 < 10; decide)

/-- C4: for a watermark-driven trigger (DefaultTrigger or bare
AfterWatermark) over fixed windows, advancing the watermark past the end of
the windows without new elements emits exactly one ON_TIME pane per window
that received elements, and every further round of timer polling
(get_and_clear_timers followed by process_timer, the runTimerLoop) emits
nothing, however often it is repeated. -/
theorem ontime_once_C4 {α : Type} (sz : Nat) (t : Trig) (acc : Bool)
    (data : List (Nat × α)) (g : Int) (W : Win) (h : WatermarkOnly t) :
    (W ∈ keysOf (runSimpleFull ⟨.fixedW sz, t, acc⟩ data [] g).1 →
      (runSimpleFull ⟨.fixedW sz, t, acc⟩ data [] g).2.countP
        (fun p => decide (p.win = W) && decide (p.timing = Timing.onTime)) = 1) ∧
    (∀ fuel, (runTimerLoop ⟨.fixedW sz, t, acc⟩ fuel
        (runSimpleFull ⟨.fixedW sz, t, acc⟩ data [] g).1).2 = []) := by
  set c : Cfg := ⟨.fixedW sz, t, acc⟩ with hcdef
  have hlate : bundleData ([] : List (Nat × α)) g = [] := by
    unfold bundleData chunkList
    split <;> rfl
  have hphase := runBundles_fixed_min c sz rfl h (bundleData data g) ([] : St α)
  set st1 : St α :=
    (bundleData data g).flatten.foldl
      (fun s p => addElem c .minTS s (assign c.wfn p.1) p.2) [] with hst1
  obtain ⟨hsort, hInv⟩ := addFold_invariant c h ((bundleData data g).flatten) []
    (by simp [StSorted]) (by simp)
  rw [← hst1] at hInv hsort
  by_cases hemp : timersEmpty st1 = true
  · have hnil : st1 = [] := by
      rcases st1 with _ | ⟨p, r⟩
      · rfl
      · exfalso
        have h1 := (hInv p (List.mem_cons_self _ _)).2
        have h2 := (timersEmpty_iff _).mp hemp p (List.mem_cons_self _ _)
        rw [h1] at h2
        cases h2
    have hloop := runTimerLoop_empty c st1 hemp
    have hrsf : runSimpleFull c data [] g = (st1, []) := by
      unfold runSimpleFull runTrigger
      rw [hlate, hphase]
      dsimp only
      rw [hloop]
      simp
    rw [hrsf]
    constructor
    · intro hmem
      rw [hnil] at hmem
      simp [keysOf] at hmem
    · intro fuel
      rw [runTimerLoop_empty c st1 hemp fuel]
  · -- at least one timer: every window fires its end-of-window timer once
    have hItimer : ∀ p ∈ st1, p.2.timer = some p.1.hi := fun p hp => (hInv p hp).2
    have hgc := getAndClear_max st1 hItimer
    set st1c : St α := st1.map (fun p => (p.1, { p.2 with timer := none })) with hst1c
    set due : List (Win × Nat) := st1.map (fun p => (p.1, p.1.hi)) with hdue
    have hpass : runTimerPass c st1 =
        due.foldl (fun acc q => ((processTimer c acc.1 q.1 q.2).1,
          acc.2 ++ (processTimer c acc.1 q.1 q.2).2)) (st1c, []) := by
      unfold runTimerPass
      rw [hgc]
      rfl
    have hkeysdue : due.map Prod.fst = keysOf st1 := by
      rw [hdue, List.map_map]
      rfl
    have hLhyp : ∀ q ∈ due, q.2 = q.1.hi ∧
        ∃ e, lookupSt st1c q.1 = some e ∧ e.ts = initSt c.trig := by
      intro q hq
      rw [hdue] at hq
      obtain ⟨⟨w, e⟩, hp, rfl⟩ := List.mem_map.mp hq
      refine ⟨rfl, { e with timer := none }, ?_, (hInv _ hp).1⟩
      rw [hst1c, lookup_map_clear, sorted_lookup_mem st1 hsort hp]
      rfl
    have hnodup : (due.map Prod.fst).Nodup := by
      rw [hkeysdue]
      exact sorted_keys_nodup st1 hsort
    have hclearnone : ∀ p ∈ st1c, p.2.timer = none := by
      intro p hp
      rw [hst1c] at hp
      obtain ⟨q, _, rfl⟩ := List.mem_map.mp hp
      rfl
    rcases hFR : due.foldl (fun acc q => ((processTimer c acc.1 q.1 q.2).1,
        acc.2 ++ (processTimer c acc.1 q.1 q.2).2)) (st1c, []) with ⟨F1, F2⟩
    rw [hFR] at hpass
    have hcount := timerFold_count c h W due st1c [] hLhyp hnodup
    rw [hFR] at hcount
    dsimp only at hcount
    have hstate := timerFold_state_timers c due st1c [] hclearnone
    rw [hFR] at hstate
    dsimp only at hstate
    have hempty2 : timersEmpty F1 = true := (timersEmpty_iff _).mpr hstate
    have hkeys2 : W ∈ keysOf F1 ↔ W ∈ keysOf st1 := by
      have hkeys1c : keysOf st1c = keysOf st1 := by
        rw [hst1c, keysOf, List.map_map]
        rfl
      have hk := timerFold_keys c W due st1c []
        (fun q hq => by rw [hkeys1c, ← hkeysdue]; exact List.mem_map_of_mem Prod.fst hq)
      rw [hFR] at hk
      dsimp only at hk
      rw [hk, hkeys1c]
    obtain ⟨n, hn⟩ : ∃ n, st1.length = n + 1 := by
      rcases st1 with _ | ⟨p, r⟩
      · exact absurd rfl hemp
      · exact ⟨r.length, rfl⟩
    have hloop : runTimerLoop c (st1.length + 1) st1 = (F1, F2) := by
      rw [hn]
      show runTimerLoop c (n + 1 + 1) st1 = _
      rw [runTimerLoop]
      rw [if_neg (by simp [hemp])]
      rw [hpass]
      dsimp only
      rw [runTimerLoop_empty c F1 hempty2]
      dsimp only
      rw [List.append_nil]
    have hrsf : runSimpleFull c data [] g = (F1, F2) := by
      unfold runSimpleFull runTrigger
      rw [hlate, hphase]
      dsimp only
      rw [hloop]
      simp
    rw [hrsf]
    constructor
    · intro hmem
      dsimp only at hmem ⊢
      rw [hcount, hkeysdue]
      have hle := List.nodup_iff_count_le_one.mp (sorted_keys_nodup st1 hsort) W
      have hpos := List.count_pos_iff.mpr ((hkeys2).mp hmem)
      simp only [List.countP_nil]
      omega
    · intro fuel
      dsimp only
      rw [runTimerLoop_empty c F1 hempty2 fuel]

/-- Witness for C4: with FixedWindows(10) and AfterWatermark over the
fixed-watermark test input, window [0,10) is present and receives exactly
one ON_TIME pane. -/
theorem ontime_once_C4_witness :
    WatermarkOnly (.afterWatermark .noneT .noneT) ∧
      (⟨0, 10⟩ ∈ keysOf (runSimpleFull ⟨.fixedW 10, .afterWatermark .noneT .noneT, true⟩
          [(1,'a'),(2,'b'),(13,'c')] [] 1).1 →
        (runSimpleFull ⟨.fixedW 10, .afterWatermark .noneT .noneT, true⟩
            [(1,'a'),(2,'b'),(13,'c')] [] 1).2.countP
          (fun p => decide (p.win = ⟨0, 10⟩) && decide (p.timing = Timing.onTime)) = 1) ∧
      (⟨0, 10⟩ : Win) ∈ keysOf (runSimpleFull ⟨.fixedW 10, .afterWatermark .noneT .noneT, true⟩
          [(1,'a'),(2,'b'),(13,'c')] [] 1).1 :=
  ⟨Or.inr rfl,
   (ontime_once_C4 10 (.afterWatermark .noneT .noneT) true
      [(1,'a'),(2,'b'),(13,'c')] 1 ⟨0, 10⟩ (Or.inr rfl)).1,
   by decide⟩

/-- C8: under a bare AfterCount(n) trigger over fixed windows, a window to
which fewer than n input elements are assigned (main and late input
together) never emits a pane: no emitted pane carries that window, for
every bundling, even after the watermark advances to MAX_TIMESTAMP and
every timer drain runs — AfterCount arms no end-of-window timer, so the
underfilled window buffers its values forever. -/
theorem afterCount_underfilled_C8 {α : Type} (sz n : Nat) (acc : Bool)
    (data late : List (Nat × α)) (g : Int) (W : Win)
    (hcount : assignedCount ⟨.fixedW sz, .afterCount n, acc⟩ W (data ++ late) < n) :
    ∀ p ∈ runSimple ⟨.fixedW sz, .afterCount n, acc⟩ data late g, p.win ≠ W := by
  have hsplit : assignedCount (⟨.fixedW sz, .afterCount n, acc⟩ : Cfg) W (data ++ late) =
      assignedCount (⟨.fixedW sz, .afterCount n, acc⟩ : Cfg) W data +
        assignedCount (⟨.fixedW sz, .afterCount n, acc⟩ : Cfg) W late := by
    simp [assignedCount, List.countP_append]
  have hflatD : assignedCount (⟨.fixedW sz, .afterCount n, acc⟩ : Cfg) W
      (bundleData data g).flatten =
      assignedCount (⟨.fixedW sz, .afterCount n, acc⟩ : Cfg) W data := by
    unfold assignedCount
    rw [bundleData_flatten]
    split
    · exact (List.reverse_perm data).countP_eq _
    · rfl
  have hflatL : assignedCount (⟨.fixedW sz, .afterCount n, acc⟩ : Cfg) W
      (bundleData late g).flatten =
      assignedCount (⟨.fixedW sz, .afterCount n, acc⟩ : Cfg) W late := by
    unfold assignedCount
    rw [bundleData_flatten]
    split
    · exact (List.reverse_perm late).countP_eq _
    · rfl
  have h1 := runBundles_count_inv (⟨.fixedW sz, .afterCount n, acc⟩ : Cfg) rfl rfl W .minTS
    (bundleData data g) [] [] 0 (by simp [StSorted]) (by simp) (Or.inl ⟨rfl, rfl⟩)
    (by rw [hflatD]; omega) (by simp)
  have hRBeq : runBundles (⟨.fixedW sz, .afterCount n, acc⟩ : Cfg) .minTS []
      (bundleData data g) =
      (bundleData data g).foldl (fun a b =>
        ((processBundle (⟨.fixedW sz, .afterCount n, acc⟩ : Cfg) .minTS a.1 b).1,
          a.2 ++ (processBundle (⟨.fixedW sz, .afterCount n, acc⟩ : Cfg) .minTS a.1 b).2))
        ([], []) := rfl
  rcases hRB : runBundles (⟨.fixedW sz, .afterCount n, acc⟩ : Cfg) .minTS []
      (bundleData data g) with ⟨st1, out1⟩
  rw [hRBeq.symm.trans hRB] at h1
  dsimp only at h1
  obtain ⟨hs1, htm1, hce1, hout1⟩ := h1
  have hTE1 : timersEmpty st1 = true := (timersEmpty_iff _).mpr htm1
  have hloop := runTimerLoop_empty (⟨.fixedW sz, .afterCount n, acc⟩ : Cfg) st1 hTE1
    (st1.length + 1)
  have ih := lateFold_count_inv (⟨.fixedW sz, .afterCount n, acc⟩ : Cfg) rfl rfl W
    (bundleData late g) st1 []
    (0 + assignedCount (⟨.fixedW sz, .afterCount n, acc⟩ : Cfg) W (bundleData data g).flatten)
    hs1 htm1 hce1 (by rw [hflatD, hflatL]; omega) (by simp)
  unfold runSimple runTrigger
  rw [hRB]
  dsimp only
  rw [hloop]
  dsimp only
  rcases hLF : (bundleData late g).foldl
      (lateStep (⟨.fixedW sz, .afterCount n, acc⟩ : Cfg)) (st1, []) with ⟨st3, out3⟩
  rw [hLF] at ih
  dsimp only
  intro p hp
  rcases List.mem_append.mp hp with hm | hm
  · rw [List.append_nil] at hm
    exact hout1 p hm
  · exact ih.2.2.2 p hm

/-- C8 witness: FixedWindows(10) with AfterCount(2), the data of
test_fixed_after_count — the window [10,20) receives only the single
element (11, z), and indeed no emitted pane carries [10,20). -/
theorem afterCount_underfilled_C8_witness :
    assignedCount ⟨.fixedW 10, .afterCount 2, true⟩ ⟨10, 20⟩
        ([(1,'a'),(2,'b'),(3,'c'),(11,'z')] ++ []) < 2 ∧
      ∀ p ∈ runSimple ⟨.fixedW 10, .afterCount 2, true⟩
          [(1,'a'),(2,'b'),(3,'c'),(11,'z')] [] 1, p.win ≠ ⟨10, 20⟩ :=
  ⟨by decide,
   afterCount_underfilled_C8 10 2 true [(1,'a'),(2,'b'),(3,'c'),(11,'z')] [] 1 ⟨10, 20⟩
     (by decide)⟩

/-- C1 counterexample: the multiset of emitted pane value-sets is not
bundling-invariant for every trigger or window function.  With
FixedWindows(10), AfterCount(2), ACCUMULATING over (1,a),(2,b),(3,c),(11,z),
one bundle emits exactly one EARLY pane {a,b,c} for [0,10) while singleton
bundles emit exactly one EARLY pane {a,b} — the pane value-set multisets
differ, exactly as test_fixed_after_count expects different panes for
different groupings; and with the degenerate Sessions(0), whose candidate
windows are empty, even the DefaultTrigger emits different pane value-set
multisets for bundles of two versus singletons, so the session half of the
amended claim requires the positive gap. -/
theorem bundling_C1_counterexample :
    runSimple ⟨.fixedW 10, .afterCount 2, true⟩ [(1,'a'),(2,'b'),(3,'c'),(11,'z')] [] 4 =
      [⟨⟨0, 10⟩, {'a', 'b', 'c'}, .early⟩] ∧
    runSimple ⟨.fixedW 10, .afterCount 2, true⟩ [(1,'a'),(2,'b'),(3,'c'),(11,'z')] [] 1 =
      [⟨⟨0, 10⟩, {'a', 'b'}, .early⟩] ∧
    ((runSimple ⟨.fixedW 10, .afterCount 2, true⟩
        [(1,'a'),(2,'b'),(3,'c'),(11,'z')] [] 4).map Pane.vals : Multiset (Multiset Char)) ≠
      ((runSimple ⟨.fixedW 10, .afterCount 2, true⟩
        [(1,'a'),(2,'b'),(3,'c'),(11,'z')] [] 1).map Pane.vals : Multiset (Multiset Char)) ∧
    ((runSimple ⟨.sessionsW 0, .default, true⟩
        [(5,'a'),(5,'b'),(5,'c'),(9,'d')] [] 2).map Pane.vals : Multiset (Multiset Char)) ≠
      ((runSimple ⟨.sessionsW 0, .default, true⟩
        [(5,'a'),(5,'b'),(5,'c'),(9,'d')] [] 1).map Pane.vals : Multiset (Multiset Char)) := by
  refine ⟨by decide, by decide, by decide, by decide⟩

/-- C3 (amended): over fixed (non-merging) windows, for every trigger, every
input, every bundling and every window W: the ACCUMULATING run emits panes
for W with exactly the same window-and-timing pattern as the DISCARDING run;
the ACCUMULATING pane value multisets for W are precisely the running unions
(prefix sums) of the DISCARDING pane values for W — hence each ACCUMULATING
pane contains every earlier one, and the final ACCUMULATING pane for W
equals the union of all DISCARDING panes for W; and when the input values
are pairwise distinct, the DISCARDING panes are pairwise disjoint.  (With
merging windows or duplicated values the original claim fails, see the
counterexample.) -/
theorem accumulation_C3 {α : Type} [DecidableEq α] (sz : Nat) (t : Trig)
    (data late : List (Nat × α)) (g : Int) (W : Win) :
    ((runSimple ⟨.fixedW sz, t, true⟩ data late g).filter
        (fun p => decide (p.win = W))).map (fun p => (p.win, p.timing)) =
      ((runSimple ⟨.fixedW sz, t, false⟩ data late g).filter
        (fun p => decide (p.win = W))).map (fun p => (p.win, p.timing)) ∧
    ((runSimple ⟨.fixedW sz, t, true⟩ data late g).filter
        (fun p => decide (p.win = W))).map Pane.vals =
      scanSums 0 (((runSimple ⟨.fixedW sz, t, false⟩ data late g).filter
        (fun p => decide (p.win = W))).map Pane.vals) ∧
    List.Chain' (fun u v => u ≤ v)
      (((runSimple ⟨.fixedW sz, t, true⟩ data late g).filter
        (fun p => decide (p.win = W))).map Pane.vals) ∧
    ((runSimple ⟨.fixedW sz, t, false⟩ data late g).filter
        (fun p => decide (p.win = W)) ≠ [] →
      ((runSimple ⟨.fixedW sz, t, true⟩ data late g).filter
        (fun p => decide (p.win = W))).getLast?.map Pane.vals =
        some ((((runSimple ⟨.fixedW sz, t, false⟩ data late g).filter
          (fun p => decide (p.win = W))).map Pane.vals).sum)) ∧
    (((data ++ late).map Prod.snd).Nodup →
      (runSimple ⟨.fixedW sz, t, false⟩ data late g).Pairwise
        (fun p q => Multiset.Disjoint p.vals q.vals)) := by
  have hout : runSimple ⟨.fixedW sz, t, true⟩ data late g =
      accOut [] (runSimple ⟨.fixedW sz, t, false⟩ data late g) := by
    rw [runSimple_eq_full, runSimple_eq_full, runSimpleFull_lift sz t data late g]
  have hscan : ((runSimple ⟨.fixedW sz, t, true⟩ data late g).filter
      (fun p => decide (p.win = W))).map Pane.vals =
      scanSums 0 (((runSimple ⟨.fixedW sz, t, false⟩ data late g).filter
        (fun p => decide (p.win = W))).map Pane.vals) := by
    rw [hout]
    have h := accOut_filter_vals W (runSimple ⟨.fixedW sz, t, false⟩ data late g) []
    rw [sumPanes_nil] at h
    exact h
  refine ⟨?_, hscan, ?_, ?_, ?_⟩
  · rw [hout]
    exact filter_pattern_eq W (runSimple ⟨.fixedW sz, t, false⟩ data late g) []
  · rw [hscan]
    exact scanSums_chain _ 0
  · intro hne
    rw [← List.getLast?_map, hscan]
    have hne2 : ((runSimple ⟨.fixedW sz, t, false⟩ data late g).filter
        (fun p => decide (p.win = W))).map Pane.vals ≠ [] := by
      intro hc
      exact hne (List.map_eq_nil.mp hc)
    rw [scanSums_getLast _ 0 hne2, zero_add]
  · intro hnodup
    have hM : (((data ++ late).map Prod.snd : List α) : Multiset α).Nodup :=
      Multiset.coe_nodup.mpr hnodup
    apply pairwise_disjoint_of_le_nodup hM
    have hcons := runSimpleFull_vals sz t data late g
    calc valsOfOut (runSimple ⟨.fixedW sz, t, false⟩ data late g)
        ≤ valsOfSt (runSimpleFull ⟨.fixedW sz, t, false⟩ data late g).1 +
          valsOfOut (runSimpleFull ⟨.fixedW sz, t, false⟩ data late g).2 :=
          self_le_add_left _ _
      _ = (((data ++ late).map Prod.snd : List α) : Multiset α) := hcons

/-- C3 witness: FixedWindows(10) with Repeatedly(AfterCount(1)) over
(1,a),(2,b): the window [0,10) emits DISCARDING panes {a},{b}; their union
{a,b} is the final ACCUMULATING pane, and the panes are pairwise disjoint. -/
theorem accumulation_C3_witness :
    (([(1,'a'),(2,'b')] ++ ([] : List (Nat × Char))).map Prod.snd).Nodup ∧
    ((runSimple ⟨.fixedW 10, .repeatedly (.afterCount 1), true⟩
        [(1,'a'),(2,'b')] [] 1).filter
      (fun p => decide (p.win = (⟨0, 10⟩ : Win)))).getLast?.map Pane.vals =
      some ((((runSimple ⟨.fixedW 10, .repeatedly (.afterCount 1), false⟩
          [(1,'a'),(2,'b')] [] 1).filter
        (fun p => decide (p.win = (⟨0, 10⟩ : Win)))).map Pane.vals).sum) ∧
    (runSimple ⟨.fixedW 10, .repeatedly (.afterCount 1), false⟩
        [(1,'a'),(2,'b')] [] 1).Pairwise
      (fun p q => Multiset.Disjoint p.vals q.vals) :=
  ⟨by decide,
   (accumulation_C3 10 (.repeatedly (.afterCount 1)) [(1,'a'),(2,'b')] [] 1
      ⟨0, 10⟩).2.2.2.1 (by decide),
   (accumulation_C3 10 (.repeatedly (.afterCount 1)) [(1,'a'),(2,'b')] [] 1
      ⟨0, 10⟩).2.2.2.2 (by decide)⟩

/-- C3 counterexample: with duplicate input values, consecutive DISCARDING
panes of a window are not disjoint (Repeatedly(AfterCount(1)) over two
elements valued a emits {a} twice); and under merging windows the union of a
window key its DISCARDING panes can differ from its final ACCUMULATING pane
(sessions: [1,15) emits only {b} under DISCARDING while its final
ACCUMULATING pane is {a,b}). -/
theorem accumulation_C3_counterexample :
    runSimple ⟨.fixedW 10, .repeatedly (.afterCount 1), false⟩ [(1,'a'),(2,'a')] [] 1 =
      [⟨⟨0,10⟩, {'a'}, .early⟩, ⟨⟨0,10⟩, {'a'}, .early⟩] ∧
    runSimple ⟨.sessionsW 10, .repeatedly (.afterCount 1), false⟩ [(1,'a'),(5,'b')] [] 1 =
      [⟨⟨1,11⟩, {'a'}, .early⟩, ⟨⟨1,15⟩, {'b'}, .early⟩] ∧
    runSimple ⟨.sessionsW 10, .repeatedly (.afterCount 1), true⟩ [(1,'a'),(5,'b')] [] 1 =
      [⟨⟨1,11⟩, {'a'}, .early⟩, ⟨⟨1,15⟩, ↑['a','b'], .early⟩] :=
  ⟨by decide, by decide, by decide⟩

end Beam
